import Mathlib

/-!
# Proximity peer cache of the badge firmware

A shallow embedding of `software/firmware/badge/ble_peer.c`: the peer table
`ble_peer_list`, the admission routine `blePeerAdd`, one iteration of the
decay loop of `peerThread`, the lookup `blePeerFind` and the start-up routine
`blePeerStart`.

The header `ble_peer.h` (the record type and the constants), the header with
`ble_ides_game_state_t` and the advertisement parser `bleGapAdvBlockFind` are
not among the sources, so the constants and the parser are parameters of the
model (`Config`).  Bytes are natural numbers; the table is a list of records
whose length is the capacity.

The admission routine is modelled twice.  `blePeerAdd` works on the records
and has no result when the name copy of line 107 or 110 leaves the name
buffer; `blePeerAddRaw` works on the bytes of the table and gives the table
the code leaves in that case as well.  The two agree wherever `blePeerAdd`
has a result (`blePeerAddRaw_eq_blePeerAdd`, `runRaw_eq_run`).
-/

namespace BlePeer

/-- The value of the C truth constant TRUE. -/
def TRUE : Nat := 1

/-- The value of the C truth constant FALSE. -/
def FALSE : Nat := 0

/-- A peer address: the six bytes compared by `memcmp (.., .., 6)`. -/
structure Addr where
  b0 : Nat
  b1 : Nat
  b2 : Nat
  b3 : Nat
  b4 : Nat
  b5 : Nat
  deriving DecidableEq, Repr

/-- The all-zero address, the address bytes of a slot cleared by `memset`. -/
def zeroAddr : Addr := ⟨0, 0, 0, 0, 0, 0⟩

/-- One slot of `ble_peer_list`.  `ble_peer_name` holds the bytes of the name
buffer, `ble_game_state` the bytes of the embedded game-state structure. -/
structure ble_peer_entry where
  ble_peer_addr : Addr
  ble_peer_name : List Nat
  ble_game_state : List Nat
  ble_rssi : Int
  ble_ttl : Nat
  ble_used : Nat
  ble_isbadge : Nat
  deriving DecidableEq, Repr

/-- The compile-time constants of the absent headers and the absent parser.
`bleGapAdvBlockFind data len id` is `some (off, l)` when the parser returns
`NRF_SUCCESS` leaving `d = data + off` and `l` as the block's value, and
`none` for every other return code.  `BLE_PEER_SCAN_ALL` is `true` when that
preprocessor symbol is defined (admission filter compiled out). -/
structure Config where
  BLE_PEER_LIST_SIZE : Nat
  BLE_PEER_LIST_TTL : Nat
  BLE_PEER_NAME_MAX : Nat
  sizeof_ble_ides_game_state_t : Nat
  BLE_COMPANY_ID_IDES : Nat
  BLE_GAP_AD_TYPE_COMPLETE_LOCAL_NAME : Nat
  BLE_GAP_AD_TYPE_MANUFACTURER_SPECIFIC_DATA : Nat
  BLE_PEER_SCAN_ALL : Bool
  bleGapAdvBlockFind : (Nat → Nat) → Nat → Nat → Option (Nat × Nat)

/-- The `n` bytes found at `d[0] .. d[n-1]` when `d = data + off`. -/
def readBytes (data : Nat → Nat) (off n : Nat) : List Nat :=
  (List.range n).map (fun k => data (off + k))

/-- The effect of `memcpy (dst, src, n)` on a buffer: its first `n` bytes are
replaced by `src` (a list of `n` bytes), the rest is kept. -/
def memcpy (dst src : List Nat) : List Nat :=
  src ++ dst.drop src.length

/-- The record left by `memset (p, 0, sizeof(ble_peer_entry))`. -/
def zeroEntry (cfg : Config) : ble_peer_entry :=
  { ble_peer_addr := zeroAddr
    ble_peer_name := List.replicate cfg.BLE_PEER_NAME_MAX 0
    ble_game_state := List.replicate cfg.sizeof_ble_ides_game_state_t 0
    ble_rssi := 0
    ble_ttl := 0
    ble_used := 0
    ble_isbadge := 0 }

/-- The bytes of the string literal "<none>" with its terminator (7 bytes). -/
def noneName : List Nat := [60, 110, 111, 110, 101, 62, 0]

/-- Modelled from the spec: the field `ble_ides_company_id` of the absent type
`ble_ides_game_state_t`, "the manufacturer block's first sub-field is a 16-bit
vendor identifier"; read little-endian from the first two bytes at `d`. -/
def ble_ides_company_id (data : Nat → Nat) (off : Nat) : Nat :=
  data off + 256 * data (off + 1)

/-- The body of the decay loop for one slot (lines 38-46): an unused slot is
skipped; otherwise the 8-bit `ble_ttl` is decremented and the slot is zeroed
when it reaches 0. -/
def decayEntry (cfg : Config) (p : ble_peer_entry) : ble_peer_entry :=
  if p.ble_used = 0 then p
  else
    let p1 := { p with ble_ttl := (p.ble_ttl + 255) % 256 }
    if p1.ble_ttl = 0 then zeroEntry cfg else p1

/-- One iteration of the `while (1)` loop of `peerThread` (lines 35-49): the
decay tick over all slots. -/
def peerThread (cfg : Config) (tbl : List ble_peer_entry) : List ble_peer_entry :=
  tbl.map (decayEntry cfg)

/-- The duplicate scan of `blePeerAdd` (lines 70-86) over the slots from index
`i` on, with the current value of `firstfree` (`none` stands for -1).  The
result is the value of `firstfree` when the loop is left. -/
def scanLoop (peer_addr : Addr) : List ble_peer_entry → Nat → Option Nat → Option Nat
  | [], _, firstfree => firstfree
  | p :: rest, i, firstfree =>
    let firstfree1 := if p.ble_used = 0 ∧ firstfree = none then some i else firstfree
    if peer_addr = p.ble_peer_addr then some i
    else scanLoop peer_addr rest (i + 1) firstfree1

/-- The name step of `blePeerAdd` (lines 101-111) on the target slot, for the
calls in which it stays inside the name buffer.  The result is `none` when a
`memcpy` writes past the `BLE_PEER_NAME_MAX` bytes of `ble_peer_name`: the
code has no such test, it returns normally with the bytes after the name
buffer overwritten, and what they become is given by `nameWrite` and
`blePeerAddRaw`, which work on the bytes of the table. -/
def nameStep (cfg : Config) (p : ble_peer_entry) (data : Nat → Nat) (len : Nat) :
    Option ble_peer_entry :=
  match cfg.bleGapAdvBlockFind data len cfg.BLE_GAP_AD_TYPE_COMPLETE_LOCAL_NAME with
  | some (off, l) =>
    if l ≤ cfg.BLE_PEER_NAME_MAX then
      let cleared := memcpy p.ble_peer_name (List.replicate cfg.BLE_PEER_NAME_MAX 0)
      some { p with ble_peer_name := memcpy cleared (readBytes data off l) }
    else none
  | none =>
    if p.ble_peer_name.getD 0 0 = 0 then
      if noneName.length ≤ cfg.BLE_PEER_NAME_MAX then
        some { p with ble_peer_name := memcpy p.ble_peer_name noneName }
      else none
    else some p

/-- The game-state step of `blePeerAdd` (lines 115-127) on the target slot. -/
def gameStep (cfg : Config) (p : ble_peer_entry) (data : Nat → Nat) (len : Nat) :
    ble_peer_entry :=
  match cfg.bleGapAdvBlockFind data len cfg.BLE_GAP_AD_TYPE_MANUFACTURER_SPECIFIC_DATA with
  | some (off, _) =>
    if ble_ides_company_id data off = cfg.BLE_COMPANY_ID_IDES then
      { p with
        ble_game_state :=
          memcpy p.ble_game_state (readBytes data off cfg.sizeof_ble_ides_game_state_t)
        ble_isbadge := TRUE }
    else { p with ble_isbadge := FALSE }
  | none => p

/-- The admission filter of lines 129-141: `true` when control jumps to `out`. -/
def filterRejects (cfg : Config) (p : ble_peer_entry) : Bool :=
  !cfg.BLE_PEER_SCAN_ALL && decide (p.ble_isbadge = FALSE)

/-- The stores of lines 143-146 on the target slot (`ble_ttl` is 8 bits wide). -/
def acceptEntry (cfg : Config) (p : ble_peer_entry) (peer_addr : Addr) (rssi : Int) :
    ble_peer_entry :=
  { p with
    ble_peer_addr := peer_addr
    ble_rssi := rssi
    ble_ttl := cfg.BLE_PEER_LIST_TTL % 256
    ble_used := 1 }

/-- The admission routine `blePeerAdd` (lines 56-154) as a function on the
table, for the calls whose name step stays inside the name buffer.  `none` is
the out-of-bounds write described at `nameStep`; the table the code leaves in
that case is given by `blePeerAddRaw`. -/
def blePeerAdd (cfg : Config) (tbl : List ble_peer_entry) (peer_addr : Addr)
    (data : Nat → Nat) (len : Nat) (rssi : Int) : Option (List ble_peer_entry) :=
  match scanLoop peer_addr tbl 0 none with
  | none => some tbl
  | some firstfree =>
    match tbl[firstfree]? with
    | none => some tbl
    | some p =>
      match nameStep cfg p data len with
      | none => none
      | some p1 =>
        let p2 := gameStep cfg p1 data len
        if filterRejects cfg p2 then some (tbl.set firstfree p2)
        else some (tbl.set firstfree (acceptEntry cfg p2 peer_addr rssi))

/-- A sufficient condition for the name step to stay inside `ble_peer_name`:
the name block found in the payload, or else the 7 bytes of "<none>", fit
`BLE_PEER_NAME_MAX`. -/
def nameInBounds (cfg : Config) (data : Nat → Nat) (len : Nat) : Bool :=
  match cfg.bleGapAdvBlockFind data len cfg.BLE_GAP_AD_TYPE_COMPLETE_LOCAL_NAME with
  | some (_, l) => decide (l ≤ cfg.BLE_PEER_NAME_MAX)
  | none => decide (noneName.length ≤ cfg.BLE_PEER_NAME_MAX)

/-- The scan of `blePeerFind` (lines 163-171) over the slots from index `i`
on: the index at which the loop breaks, `none` when it runs to the end. -/
def findLoop (peer_addr : Addr) : List ble_peer_entry → Nat → Option Nat
  | [], _ => none
  | p :: rest, i =>
    if p.ble_used = 0 then findLoop peer_addr rest (i + 1)
    else if peer_addr = p.ble_peer_addr then some i
    else findLoop peer_addr rest (i + 1)

/-- The lookup `blePeerFind` (lines 156-175): the index of the slot the
returned pointer designates (`none` for NULL) and the table afterwards. -/
def blePeerFind (tbl : List ble_peer_entry) (peer_addr : Addr) :
    Option Nat × List ble_peer_entry :=
  (findLoop peer_addr tbl 0, tbl)

/-- The table left by `blePeerStart` (line 230): every slot zeroed. -/
def blePeerStart (cfg : Config) : List ble_peer_entry :=
  List.replicate cfg.BLE_PEER_LIST_SIZE (zeroEntry cfg)

/-- An event on the table: a call of `blePeerAdd` or one decay tick. -/
inductive Op where
  | add (peer_addr : Addr) (data : Nat → Nat) (len : Nat) (rssi : Int)
  | tick

/-- The table after one event; `none` when the event is a call of `blePeerAdd`
that writes past the name buffer. -/
def step (cfg : Config) (tbl : List ble_peer_entry) : Op → Option (List ble_peer_entry)
  | Op.add a d l r => blePeerAdd cfg tbl a d l r
  | Op.tick => some (peerThread cfg tbl)

/-- The table after a sequence of events, oldest first; `none` when one of
them is a call of `blePeerAdd` that writes past the name buffer. -/
def run (cfg : Config) : List Op → List ble_peer_entry → Option (List ble_peer_entry)
  | [], tbl => some tbl
  | op :: ops, tbl =>
    match step cfg tbl op with
    | none => none
    | some tbl1 => run cfg ops tbl1

/-- The table after `k` consecutive decay ticks. -/
def ticks (cfg : Config) : Nat → List ble_peer_entry → List ble_peer_entry
  | 0, tbl => tbl
  | k + 1, tbl => ticks cfg k (peerThread cfg tbl)

/-- A table reachable from the start-up table by decay ticks and calls of
`blePeerAdd` whose name step stays inside the name buffer.  The tables the
code reaches through a call with a longer name block are not among them; they
are those of `runRaw`. -/
def Reachable (cfg : Config) (tbl : List ble_peer_entry) : Prop :=
  ∃ ops, run cfg ops (blePeerStart cfg) = some tbl

/-- A slot is occupied when `ble_used` is not 0. -/
def occupied (p : ble_peer_entry) : Bool := decide (p.ble_used ≠ 0)

/-- The number of occupied slots. -/
def occupancy (tbl : List ble_peer_entry) : Nat := tbl.countP occupied

/-- The number of occupied slots whose address is `a`. -/
def occupiedWith (a : Addr) (tbl : List ble_peer_entry) : Nat :=
  tbl.countP (fun p => occupied p && decide (p.ble_peer_addr = a))

/-- Modelled from the spec: the absent parser `bleGapAdvBlockFind`
(`ble_gap_lld.c`), scanning "tag–length–value blocks" from position `pos`;
a block that does not fit the remaining payload ends the scan without a
result ("treated as absence of that field"). -/
def advBlockFindFrom (data : Nat → Nat) (len id : Nat) : Nat → Nat → Option (Nat × Nat)
  | 0, _ => none
  | fuel + 1, pos =>
    if pos + 2 + data (pos + 1) ≤ len then
      if data pos = id then some (pos + 2, data (pos + 1))
      else advBlockFindFrom data len id fuel (pos + 2 + data (pos + 1))
    else none

/-- Modelled from the spec: the absent parser `bleGapAdvBlockFind` on a whole
payload of `len` bytes. -/
def advBlockFind (data : Nat → Nat) (len id : Nat) : Option (Nat × Nat) :=
  advBlockFindFrom data len id len 0

/-- The memory at a payload pointer holding the given bytes (0 beyond them). -/
def bytesAt (bs : List Nat) : Nat → Nat := fun i => bs.getD i 0

/-- The configuration of the scenario of the specification: capacity 4,
time-to-live 3, admission filter enabled. -/
def cfg4 : Config :=
  { BLE_PEER_LIST_SIZE := 4
    BLE_PEER_LIST_TTL := 3
    BLE_PEER_NAME_MAX := 8
    sizeof_ble_ides_game_state_t := 4
    BLE_COMPANY_ID_IDES := 0x1234
    BLE_GAP_AD_TYPE_COMPLETE_LOCAL_NAME := 0x09
    BLE_GAP_AD_TYPE_MANUFACTURER_SPECIFIC_DATA := 0xFF
    BLE_PEER_SCAN_ALL := false
    bleGapAdvBlockFind := advBlockFind }

/-- A badge advertisement for `cfg4`: one manufacturer block whose identifier
is the recognised one, followed by two bytes of game state. -/
def badgeAdv : List Nat := [0xFF, 4, 0x34, 0x12, 7, 9]

/-- An advertisement for `cfg4` with a name block only. -/
def nameAdv : List Nat := [0x09, 2, 72, 105]

/-- A sample non-zero peer address. -/
def addrX : Addr := ⟨1, 2, 3, 4, 5, 6⟩

/-- A second sample non-zero peer address. -/
def addrY : Addr := ⟨6, 5, 4, 3, 2, 1⟩

/-- An occupied badge record of `cfg4` with the given first address byte. -/
def sampleEntry (b : Nat) : ble_peer_entry :=
  { ble_peer_addr := ⟨b, 0, 0, 0, 0, 1⟩
    ble_peer_name := noneName ++ [0]
    ble_game_state := [0x34, 0x12, 7, 9]
    ble_rssi := -40
    ble_ttl := 3
    ble_used := 1
    ble_isbadge := 1 }

/-- A table of `cfg4` whose four slots are occupied by four different peers. -/
def fullTable4 : List ble_peer_entry :=
  [sampleEntry 1, sampleEntry 2, sampleEntry 3, sampleEntry 4]

/-- The events of a run of `cfg4` after which two occupied slots hold the
all-zero address: a badge `addrX` is admitted, one tick later the all-zero
address is admitted (slot 1), two more ticks evict `addrX` from slot 0, and
the all-zero address is admitted again. -/
def zeroDupOps : List Op :=
  [Op.add addrX (bytesAt badgeAdv) 6 (-40), Op.tick,
   Op.add zeroAddr (bytesAt badgeAdv) 6 (-50), Op.tick, Op.tick,
   Op.add zeroAddr (bytesAt badgeAdv) 6 (-60)]

/-- The record of the badge `addrX` in `cfg4` with one tick left. -/
def agedEntry : ble_peer_entry :=
  { ble_peer_addr := addrX
    ble_peer_name := noneName ++ [0]
    ble_game_state := [0x34, 0x12, 7, 9]
    ble_rssi := -40
    ble_ttl := 1
    ble_used := 1
    ble_isbadge := 1 }

/-- The table of `cfg4` in which `addrX` sits in slot 0 with one tick left. -/
def agedTable4 : List ble_peer_entry :=
  [agedEntry, zeroEntry cfg4, zeroEntry cfg4, zeroEntry cfg4]

/-- The projection of a table on the fields used, address, rssi and ttl. -/
def keyFields (tbl : List ble_peer_entry) : List (Nat × Addr × Int × Nat) :=
  tbl.map (fun p => (p.ble_used, p.ble_peer_addr, p.ble_rssi, p.ble_ttl))

/-- The shape of an unoccupied slot: every field but the name is zero. -/
def freeShape (cfg : Config) (p : ble_peer_entry) : Prop :=
  p.ble_used = 0 → p.ble_peer_addr = zeroAddr ∧
    p.ble_game_state = List.replicate cfg.sizeof_ble_ides_game_state_t 0 ∧
    p.ble_rssi = 0 ∧ p.ble_ttl = 0 ∧ p.ble_isbadge = 0

/-- The range of the countdown of an occupied slot. -/
def ttlInRange (cfg : Config) (p : ble_peer_entry) : Prop :=
  p.ble_used ≠ 0 → 1 ≤ p.ble_ttl ∧ p.ble_ttl ≤ cfg.BLE_PEER_LIST_TTL

/-- No two occupied slots hold the same address, for addresses that are not
all-zero. -/
def uniqueNonzero (tbl : List ble_peer_entry) : Prop :=
  ∀ (i j : Nat) (p q : ble_peer_entry), tbl[i]? = some p → tbl[j]? = some q →
    p.ble_used ≠ 0 → q.ble_used ≠ 0 →
    p.ble_peer_addr = q.ble_peer_addr → p.ble_peer_addr ≠ zeroAddr → i = j

/-- The name buffer of `cfg4` after the two bytes of `nameAdv` were copied. -/
def hiName : List Nat := [72, 105, 0, 0, 0, 0, 0, 0]

/-- An advertisement for `cfg4` whose name block has a 9-byte value, one byte
more than `BLE_PEER_NAME_MAX` of `cfg4`. -/
def longNameAdv : List Nat := [0x09, 9, 65, 66, 67, 68, 69, 70, 71, 72, 73]

/-- The record of a badge with the all-zero address in `cfg4`, one tick left. -/
def zeroHeldEntry : ble_peer_entry :=
  { ble_peer_addr := zeroAddr
    ble_peer_name := noneName ++ [0]
    ble_game_state := [0x34, 0x12, 7, 9]
    ble_rssi := -50
    ble_ttl := 1
    ble_used := 1
    ble_isbadge := 1 }

/-- The table of `cfg4` in which slot 0 is unoccupied and slot 1 is occupied
with the all-zero address. -/
def zeroHeldTable4 : List ble_peer_entry :=
  [zeroEntry cfg4, zeroHeldEntry, zeroEntry cfg4, zeroEntry cfg4]

/-- The table of `cfg4` after a name-only advertisement for another peer was
rejected: slot 0 is unoccupied and its name buffer holds the rejected name. -/
def residueTable4 : List ble_peer_entry :=
  [{ zeroEntry cfg4 with ble_peer_name := hiName }, zeroEntry cfg4, zeroEntry cfg4,
   zeroEntry cfg4]

/-- The byte stored for a value of the signed 8-bit field `ble_rssi`. -/
def rssiByte (r : Int) : Nat := (r % 256).toNat

/-- The value of the signed 8-bit field `ble_rssi` whose stored byte is `b`. -/
def rssiOfByte (b : Nat) : Int := if b < 128 then (b : Int) else (b : Int) - 256

/-- The six bytes of an address, `ble_peer_addr[0]` first. -/
def addrBytes (a : Addr) : List Nat := [a.b0, a.b1, a.b2, a.b3, a.b4, a.b5]

/-- Modelled from the spec: the layout of the record type of the absent
`ble_peer.h`.  The fields lie in the order of the data model ("address",
"name", "payload", "rssi", "ttl", "used", "special"), the last four one byte
each, without padding.  These are the bytes of a record that follow its name
buffer. -/
def entryTail (p : ble_peer_entry) : List Nat :=
  p.ble_game_state ++ [rssiByte p.ble_rssi, p.ble_ttl, p.ble_used, p.ble_isbadge]

/-- Modelled from the spec: the bytes of one record of the absent `ble_peer.h`
in memory, in the order of the data model: the six bytes of the address, the
name buffer, then the fields of `entryTail`. -/
def entryBytes (p : ble_peer_entry) : List Nat :=
  addrBytes p.ble_peer_addr ++ (p.ble_peer_name ++ entryTail p)

/-- The bytes of consecutive slots of `ble_peer_list` in memory. -/
def tableBytes : List ble_peer_entry → List Nat
  | [] => []
  | p :: rest => entryBytes p ++ tableBytes rest

/-- The memory from the first byte of the name buffer of a slot to the end of
`ble_peer_list`: the name buffer, the other fields of the record and the
slots `rest` that follow it. -/
def slotMemory (p : ble_peer_entry) (rest : List ble_peer_entry) : List Nat :=
  p.ble_peer_name ++ entryTail p ++ tableBytes rest

/-- The number of bytes of a record from its name buffer on. -/
def tailSize (cfg : Config) : Nat :=
  cfg.BLE_PEER_NAME_MAX + cfg.sizeof_ble_ides_game_state_t + 4

/-- The record with address `a` whose bytes from the name buffer on are the
first bytes of `bs`. -/
def entryOfTail (cfg : Config) (a : Addr) (bs : List Nat) : ble_peer_entry :=
  { ble_peer_addr := a
    ble_peer_name := bs.take cfg.BLE_PEER_NAME_MAX
    ble_game_state := (bs.drop cfg.BLE_PEER_NAME_MAX).take cfg.sizeof_ble_ides_game_state_t
    ble_rssi := rssiOfByte (bs.getD (cfg.BLE_PEER_NAME_MAX + cfg.sizeof_ble_ides_game_state_t) 0)
    ble_ttl := bs.getD (cfg.BLE_PEER_NAME_MAX + cfg.sizeof_ble_ides_game_state_t + 1) 0
    ble_used := bs.getD (cfg.BLE_PEER_NAME_MAX + cfg.sizeof_ble_ides_game_state_t + 2) 0
    ble_isbadge := bs.getD (cfg.BLE_PEER_NAME_MAX + cfg.sizeof_ble_ides_game_state_t + 3) 0 }

/-- The record whose bytes are the first bytes of `bs`. -/
def entryOfBytes (cfg : Config) (bs : List Nat) : ble_peer_entry :=
  entryOfTail cfg ⟨bs.getD 0 0, bs.getD 1 0, bs.getD 2 0, bs.getD 3 0, bs.getD 4 0,
    bs.getD 5 0⟩ (bs.drop 6)

/-- The `n` consecutive slots whose bytes are `bs`. -/
def tableOfBytes (cfg : Config) : Nat → List Nat → List ble_peer_entry
  | 0, _ => []
  | n + 1, bs => entryOfBytes cfg bs :: tableOfBytes cfg n (bs.drop (6 + tailSize cfg))

/-- The name step of `blePeerAdd` (lines 101-111) on the memory `mem` that
starts at `p->ble_peer_name` and ends with `ble_peer_list`.  Line 107 copies
the `l` bytes of the name block whatever `l` is, so a longer block overwrites
the bytes that follow the name buffer.  The result is `none` when a write
would run past the end of `ble_peer_list`. -/
def nameWrite (cfg : Config) (mem : List Nat) (data : Nat → Nat) (len : Nat) :
    Option (List Nat) :=
  match cfg.bleGapAdvBlockFind data len cfg.BLE_GAP_AD_TYPE_COMPLETE_LOCAL_NAME with
  | some (off, l) =>
    if cfg.BLE_PEER_NAME_MAX ≤ mem.length ∧ l ≤ mem.length then
      some (memcpy (memcpy mem (List.replicate cfg.BLE_PEER_NAME_MAX 0)) (readBytes data off l))
    else none
  | none =>
    if mem.getD 0 0 = 0 then
      if noneName.length ≤ mem.length then some (memcpy mem noneName) else none
    else some mem

/-- The routine `blePeerAdd` (lines 56-154) on the memory of the table: as
`blePeerAdd`, but the name step acts on the bytes from the name buffer of the
target slot to the end of `ble_peer_list`, so a name block longer than
`BLE_PEER_NAME_MAX` changes the fields and slots that follow the name buffer.
`none` is a write past the end of `ble_peer_list`. -/
def blePeerAddRaw (cfg : Config) (tbl : List ble_peer_entry) (peer_addr : Addr)
    (data : Nat → Nat) (len : Nat) (rssi : Int) : Option (List ble_peer_entry) :=
  match scanLoop peer_addr tbl 0 none with
  | none => some tbl
  | some firstfree =>
    match tbl[firstfree]? with
    | none => some tbl
    | some p =>
      match nameWrite cfg (slotMemory p (tbl.drop (firstfree + 1))) data len with
      | none => none
      | some mem1 =>
        let p1 := entryOfTail cfg p.ble_peer_addr mem1
        let rest1 := tableOfBytes cfg (tbl.length - (firstfree + 1)) (mem1.drop (tailSize cfg))
        let p2 := gameStep cfg p1 data len
        if filterRejects cfg p2 then some (tbl.take firstfree ++ p2 :: rest1)
        else some (tbl.take firstfree ++ acceptEntry cfg p2 peer_addr rssi :: rest1)

/-- The table after one event, with `blePeerAddRaw` for the admission. -/
def stepRaw (cfg : Config) (tbl : List ble_peer_entry) : Op → Option (List ble_peer_entry)
  | Op.add a d l r => blePeerAddRaw cfg tbl a d l r
  | Op.tick => some (peerThread cfg tbl)

/-- The table after a sequence of events, oldest first, with `blePeerAddRaw`
for the admissions. -/
def runRaw (cfg : Config) : List Op → List ble_peer_entry → Option (List ble_peer_entry)
  | [], tbl => some tbl
  | op :: ops, tbl =>
    match stepRaw cfg tbl op with
    | none => none
    | some tbl1 => runRaw cfg ops tbl1

/-- The records this model represents byte for byte: the name buffer and the
game state have their sizes and `ble_rssi` is a signed 8-bit value. -/
def wellFormed (cfg : Config) (p : ble_peer_entry) : Prop :=
  p.ble_peer_name.length = cfg.BLE_PEER_NAME_MAX ∧
    p.ble_game_state.length = cfg.sizeof_ble_ides_game_state_t ∧
    -128 ≤ p.ble_rssi ∧ p.ble_rssi ≤ 127

/-- The readers of the fields of the absent type `ble_ides_game_state_t` that
`blePeerShow` prints, each taking the bytes of `ble_game_state`, and `beyond`,
the bytes of memory that follow `ble_peer_list` up to their first zero byte:
the conversion `%s` of line 195 reads them when neither the name buffer nor
the rest of the table holds a zero byte. -/
structure GameFields where
  ble_ides_x : List Nat → Int
  ble_ides_y : List Nat → Int
  ble_ides_ship_type : List Nat → Int
  ble_ides_xp : List Nat → Int
  ble_ides_level : List Nat → Int
  ble_ides_incombat : List Nat → Int
  beyond : List Nat

/-- The text `printf` produces for one byte under the conversion `%02x`:
lower-case hexadecimal, padded with a zero to two digits. -/
def hexByte (b : Nat) : String :=
  let ds := Nat.toDigits 16 b
  String.mk (if ds.length < 2 then '0' :: ds else ds)

/-- The text of the first `printf` of `blePeerShow` (lines 191-194): the six
address bytes from index 5 down to index 0. -/
def showAddr (a : Addr) : String :=
  "[" ++ hexByte a.b5 ++ ":" ++ hexByte a.b4 ++ ":" ++ hexByte a.b3 ++ ":" ++
    hexByte a.b2 ++ ":" ++ hexByte a.b1 ++ ":" ++ hexByte a.b0 ++ "] "

/-- The text of `printf ("[%s] ", p->ble_peer_name)` (line 195), given the
bytes `name` found in memory from `p->ble_peer_name` on: the bytes up to the
first zero byte. -/
def showName (name : List Nat) : String :=
  "[" ++ String.mk ((name.takeWhile (fun b => b ≠ 0)).map Char.ofNat) ++ "] "

/-- The bytes the conversion `%s` of line 195 can read for a slot that is
followed by the slots `rest`: the memory from the name buffer to the end of
`ble_peer_list` and the bytes beyond it. -/
def nameMemory (gf : GameFields) (p : ble_peer_entry) (rest : List ble_peer_entry) :
    List Nat :=
  slotMemory p rest ++ gf.beyond

/-- The text of `printf ("[%d] ", v)` (lines 196 and 197). -/
def showInt (v : Int) : String :=
  "[" ++ toString v ++ "] "

/-- The text of the `printf` of lines 200-203 for the game state `gs`. -/
def showBadge (gf : GameFields) (gs : List Nat) : String :=
  "Badge: X/Y: " ++ toString (gf.ble_ides_x gs) ++ "/" ++ toString (gf.ble_ides_y gs) ++
    " SHIPTYPE: " ++ toString (gf.ble_ides_ship_type gs) ++
    " XP: " ++ toString (gf.ble_ides_xp gs) ++
    " RANK: " ++ toString (gf.ble_ides_level gs) ++
    " INCOMBAT: " ++ toString (gf.ble_ides_incombat gs)

/-- The texts printed by one iteration of the loop of `blePeerShow` for an
occupied slot that is followed by the slots `rest` (lines 191-205), one per
`printf` call. -/
def showEntry (gf : GameFields) (p : ble_peer_entry) (rest : List ble_peer_entry) :
    List String :=
  [showAddr p.ble_peer_addr, showName (nameMemory gf p rest), showInt p.ble_rssi,
    showInt (p.ble_ttl : Int)] ++
    (if p.ble_isbadge = TRUE then [showBadge gf p.ble_game_state] else []) ++ ["\n"]

/-- The loop of `blePeerShow` (lines 185-206): the lines printed for the slots
from the given one on, in the order of printing. -/
def showLoop (gf : GameFields) : List ble_peer_entry → List (List String)
  | [] => []
  | p :: rest =>
    if p.ble_used = 0 then showLoop gf rest
    else showEntry gf p rest :: showLoop gf rest

/-- Whether slot `i` of the table is occupied. -/
def occupiedAt (tbl : List ble_peer_entry) (i : Nat) : Bool :=
  match tbl[i]? with
  | some p => occupied p
  | none => false

/-- The line `blePeerShow` prints for slot `i` of the table. -/
def lineOf (gf : GameFields) (tbl : List ble_peer_entry) (i : Nat) : List String :=
  match tbl[i]? with
  | some p => showEntry gf p (tbl.drop (i + 1))
  | none => []

/-- The routine `blePeerShow` (lines 177-211): the lines written to the output
and the table afterwards. -/
def blePeerShow (gf : GameFields) (tbl : List ble_peer_entry) :
    List (List String) × List ble_peer_entry :=
  (showLoop gf tbl, tbl)

/-- Modelled from the spec: sample readers of the "structured payload fields
(x, y, ship type, xp, level, in-combat)" for the 4-byte game state of `cfg4`:
x and y are the two bytes after the vendor identifier, the other fields read
as 0; the byte that follows `ble_peer_list` in memory is zero. -/
def gf4 : GameFields :=
  { ble_ides_x := fun gs => (gs.getD 2 0 : Nat)
    ble_ides_y := fun gs => (gs.getD 3 0 : Nat)
    ble_ides_ship_type := fun _ => 0
    ble_ides_xp := fun _ => 0
    ble_ides_level := fun _ => 0
    ble_ides_incombat := fun _ => 0
    beyond := [] }

/-- An advertisement for `cfg4` with a name block ("Hi") and a manufacturer
block whose identifier 0x0001 is not the recognised one. -/
def nameOtherAdv : List Nat := [0x09, 2, 72, 105, 0xFF, 2, 0x01, 0x00]

/-- An advertisement for `cfg4` whose manufacturer block holds the recognised
identifier and nothing else (a value of 2 bytes), followed by a name block. -/
def shortVendorAdv : List Nat := [0xFF, 2, 0x34, 0x12, 0x09, 1, 65]

/-- The zero bytes that follow a name of `l` bytes in the name buffer. -/
def zeroTail (cfg : Config) (l : Nat) : List Nat :=
  List.replicate (cfg.BLE_PEER_NAME_MAX - l) 0

/-- The state the routines work on when the mutex is modelled: the table, the
flag of `peer_mutex` (`true` when held) and the numbers of lock and unlock
calls made so far. -/
structure PeerState where
  ble_peer_list : List ble_peer_entry
  peer_mutex : Bool
  locks : Nat
  unlocks : Nat
  deriving DecidableEq, Repr

/-- The call `osalMutexLock (&peer_mutex)`: it takes the free mutex; on a
mutex that is already held the call does not return (`none`), the mutex not
being re-entrant. -/
def osalMutexLock (s : PeerState) : Option PeerState :=
  if s.peer_mutex then none else some { s with peer_mutex := true, locks := s.locks + 1 }

/-- The call `osalMutexUnlock (&peer_mutex)`: it frees the held mutex;
releasing a mutex that is not held is an error (`none`). -/
def osalMutexUnlock (s : PeerState) : Option PeerState :=
  if s.peer_mutex then some { s with peer_mutex := false, unlocks := s.unlocks + 1 } else none

/-- The routine `blePeerAdd` (lines 56-154) with its mutex calls: the lock of
line 66, then one of the three exits, each with its unlock: the early return
of lines 90-93, the jump to `out` of line 140 and the fall through to line
151.  `none` is a call that does not return. -/
def blePeerAddLocked (cfg : Config) (s : PeerState) (peer_addr : Addr)
    (data : Nat → Nat) (len : Nat) (rssi : Int) : Option PeerState :=
  match osalMutexLock s with
  | none => none
  | some s1 =>
    match scanLoop peer_addr s1.ble_peer_list 0 none with
    | none => osalMutexUnlock s1
    | some firstfree =>
      match s1.ble_peer_list[firstfree]? with
      | none => osalMutexUnlock s1
      | some p =>
        match nameStep cfg p data len with
        | none => none
        | some p1 =>
          let p2 := gameStep cfg p1 data len
          if filterRejects cfg p2 then
            osalMutexUnlock { s1 with ble_peer_list := s1.ble_peer_list.set firstfree p2 }
          else
            let p3 := acceptEntry cfg p2 peer_addr rssi
            osalMutexUnlock { s1 with ble_peer_list := s1.ble_peer_list.set firstfree p3 }

/-- The routine `blePeerFind` (lines 156-175) with its mutex calls: the lock of
line 162, the scan, and the unlock of line 172 passed on a hit and on a miss. -/
def blePeerFindLocked (s : PeerState) (peer_addr : Addr) : Option (Option Nat × PeerState) :=
  match osalMutexLock s with
  | none => none
  | some s1 =>
    let r := findLoop peer_addr s1.ble_peer_list 0
    match osalMutexUnlock s1 with
    | none => none
    | some s2 => some (r, s2)

/-- The routine `blePeerShow` (lines 177-211) with its mutex calls: the lock of
line 184, the loop, and the unlock of line 208. -/
def blePeerShowLocked (gf : GameFields) (s : PeerState) :
    Option (List (List String) × PeerState) :=
  match osalMutexLock s with
  | none => none
  | some s1 =>
    let out := showLoop gf s1.ble_peer_list
    match osalMutexUnlock s1 with
    | none => none
    | some s2 => some (out, s2)

/-- One iteration of the loop of `peerThread` with its mutex calls: the lock
of line 35, the decay over all slots, and the unlock of line 49. -/
def peerThreadLocked (cfg : Config) (s : PeerState) : Option PeerState :=
  match osalMutexLock s with
  | none => none
  | some s1 =>
    osalMutexUnlock { s1 with ble_peer_list := s1.ble_peer_list.map (decayEntry cfg) }

/-- The state after a routine that started in `s`, locked and unlocked the
mutex once each and left the table `tbl`. -/
def afterOnePair (s : PeerState) (tbl : List ble_peer_entry) : PeerState :=
  { ble_peer_list := tbl, peer_mutex := false, locks := s.locks + 1, unlocks := s.unlocks + 1 }

/-- The events whose `rssi` argument is a value of the parameter type
`int8_t` of `blePeerAdd`. -/
def signedByteRssi : Op → Prop
  | Op.add _ _ _ r => -128 ≤ r ∧ r ≤ 127
  | Op.tick => True

/-- The events whose name copy fits the name buffer whatever the table is:
decay ticks, and calls of `blePeerAdd` with an `rssi` of type `int8_t` and a
payload whose name block has at most `BLE_PEER_NAME_MAX` bytes or, when it
has no name block, for which the 7 bytes of "<none>" fit the name buffer. -/
def fitsName (cfg : Config) : Op → Prop
  | Op.add _ d l r => nameInBounds cfg d l = true ∧ -128 ≤ r ∧ r ≤ 127
  | Op.tick => True

/-- The eight letters "ABCDEFGH", a name that fills the name buffer of `cfg4`. -/
def abName : List Nat := [65, 66, 67, 68, 69, 70, 71, 72]

/-- A record of `cfg4` whose name fills the name buffer, leaving no zero byte
in it, and whose game state starts with the byte of the letter "x". -/
def fullNameEntry : ble_peer_entry :=
  { ble_peer_addr := addrX
    ble_peer_name := abName
    ble_game_state := [120, 0, 7, 9]
    ble_rssi := -40
    ble_ttl := 3
    ble_used := 1
    ble_isbadge := 0 }

/-- An advertisement for `cfg4` whose name block has a 15-byte value: the
eight letters of `abName`, then 0, 0, 0, 0, 0, 200, 1.  In the layout of
`entryTail` the last seven bytes are copied over `ble_game_state`, `ble_rssi`,
`ble_ttl` (200) and `ble_used` (1) of the target slot. -/
def usedNameAdv : List Nat := [0x09, 15, 65, 66, 67, 68, 69, 70, 71, 72, 0, 0, 0, 0, 0, 200, 1]

/-- An advertisement for `cfg4` whose name block has a 16-byte value: the
eight letters of `abName`, seven zero bytes and a final 1, which is copied
over `ble_isbadge` of the target slot. -/
def flagNameAdv : List Nat :=
  [0x09, 16, 65, 66, 67, 68, 69, 70, 71, 72, 0, 0, 0, 0, 0, 0, 0, 1]

/-- An advertisement for `cfg4` whose name block has a 22-byte value: the
eight letters of `abName`, eight zero bytes and the six bytes of `addrX`, which
are copied over `ble_peer_addr` of the slot after the target slot. -/
def addrNameAdv : List Nat :=
  [0x09, 22, 65, 66, 67, 68, 69, 70, 71, 72, 0, 0, 0, 0, 0, 0, 0, 0, 1, 2, 3, 4, 5, 6]

/-- The name block of `addrNameAdv` followed by the manufacturer block of
`badgeAdv`, 30 bytes in all. -/
def addrBadgeAdv : List Nat := addrNameAdv ++ badgeAdv

/-- The table of `cfg4` after the rejected call with `addrNameAdv`: both slot
0 and slot 1 are unoccupied, slot 0 holds the name `abName` and slot 1 holds
the address `addrX`. -/
def staleAddrTable4 : List ble_peer_entry :=
  [{ zeroEntry cfg4 with ble_peer_name := abName },
   { zeroEntry cfg4 with ble_peer_addr := addrX }, zeroEntry cfg4, zeroEntry cfg4]

/-! ## The lookup scan -/

theorem findLoop_none_iff (a : Addr) (tbl : List ble_peer_entry) (i0 : Nat) :
    findLoop a tbl i0 = none ↔ ∀ p ∈ tbl, ¬(p.ble_used ≠ 0 ∧ p.ble_peer_addr = a) := by
  induction tbl generalizing i0 with
  | nil => simp [findLoop]
  | cons p rest ih =>
    by_cases h1 : p.ble_used = 0
    · simp [findLoop, h1, ih]
    · by_cases h2 : a = p.ble_peer_addr
      · simp [findLoop, h1, h2]
      · have h3 : ¬ p.ble_peer_addr = a := fun h => h2 h.symm
        simp [findLoop, h1, h2, h3, ih]

theorem findLoop_some_iff (a : Addr) (tbl : List ble_peer_entry) (i0 i : Nat) :
    findLoop a tbl i0 = some i ↔
      ∃ k, i = i0 + k ∧ (∃ p, tbl[k]? = some p ∧ p.ble_used ≠ 0 ∧ p.ble_peer_addr = a) ∧
        ∀ j, j < k → ∀ q, tbl[j]? = some q → ¬(q.ble_used ≠ 0 ∧ q.ble_peer_addr = a) := by
  induction tbl generalizing i0 with
  | nil => simp [findLoop]
  | cons p rest ih =>
    have hstep : (¬(p.ble_used ≠ 0 ∧ p.ble_peer_addr = a)) →
        ((∃ k, i = i0 + 1 + k ∧ (∃ q, rest[k]? = some q ∧ q.ble_used ≠ 0 ∧ q.ble_peer_addr = a) ∧
          ∀ j, j < k → ∀ q, rest[j]? = some q → ¬(q.ble_used ≠ 0 ∧ q.ble_peer_addr = a)) ↔
        ∃ k, i = i0 + k ∧ (∃ q, (p :: rest)[k]? = some q ∧ q.ble_used ≠ 0 ∧ q.ble_peer_addr = a) ∧
          ∀ j, j < k → ∀ q, (p :: rest)[j]? = some q →
            ¬(q.ble_used ≠ 0 ∧ q.ble_peer_addr = a)) := by
      intro hp
      constructor
      · rintro ⟨k, hk, hq, hlow⟩
        refine ⟨k + 1, by omega, by simpa using hq, ?_⟩
        intro j hj q hjq
        cases j with
        | zero =>
          simp at hjq
          subst hjq
          exact hp
        | succ j =>
          simp at hjq
          exact hlow j (by omega) q hjq
      · rintro ⟨k, hk, hq, hlow⟩
        cases k with
        | zero =>
          obtain ⟨q, hq1, hq2⟩ := hq
          simp at hq1
          subst hq1
          exact absurd hq2 hp
        | succ k =>
          refine ⟨k, by omega, by simpa using hq, ?_⟩
          intro j hj q hjq
          exact hlow (j + 1) (by omega) q (by simpa using hjq)
    by_cases h1 : p.ble_used = 0
    · have hp : ¬(p.ble_used ≠ 0 ∧ p.ble_peer_addr = a) := fun h => h.1 h1
      rw [← hstep hp, ← ih]
      simp [findLoop, h1]
    · by_cases h2 : a = p.ble_peer_addr
      · subst h2
        simp only [findLoop, h1, if_false, if_true]
        constructor
        · intro h
          refine ⟨0, by simpa using (Option.some.inj h).symm, ⟨p, by simp, h1, rfl⟩, ?_⟩
          intro j hj
          omega
        · rintro ⟨k, hk, _, hlow⟩
          cases k with
          | zero => simp [hk]
          | succ k => exact absurd ⟨h1, rfl⟩ (hlow 0 (by omega) p (by simp))
      · have hp : ¬(p.ble_used ≠ 0 ∧ p.ble_peer_addr = a) := fun h => h2 h.2.symm
        rw [← hstep hp, ← ih]
        simp [findLoop, h1, h2]

/-! ## The duplicate scan of the admission routine -/

theorem scanLoop_full (a : Addr) (tbl : List ble_peer_entry) (i : Nat)
    (hfull : ∀ p ∈ tbl, p.ble_used ≠ 0) (ha : ∀ p ∈ tbl, p.ble_peer_addr ≠ a) :
    scanLoop a tbl i none = none := by
  induction tbl generalizing i with
  | nil => rfl
  | cons p rest ih =>
    have h1 : p.ble_used ≠ 0 := hfull p (List.mem_cons_self _ _)
    have h2 : a ≠ p.ble_peer_addr := fun h => ha p (List.mem_cons_self _ _) h.symm
    simp only [scanLoop, h1, h2, false_and, if_false]
    exact ih (i + 1) (fun q hq => hfull q (List.mem_cons_of_mem _ hq))
      (fun q hq => ha q (List.mem_cons_of_mem _ hq))

theorem scanLoop_target (a : Addr) (tbl : List ble_peer_entry) (i0 : Nat) (ff : Option Nat)
    (i : Nat) (h : scanLoop a tbl i0 ff = some i) :
    ff = some i ∨ ∃ k p, i = i0 + k ∧ tbl[k]? = some p ∧
      (p.ble_used = 0 ∨ p.ble_peer_addr = a) := by
  induction tbl generalizing i0 ff with
  | nil => exact Or.inl h
  | cons p rest ih =>
    simp only [scanLoop] at h
    by_cases h2 : a = p.ble_peer_addr
    · rw [if_pos h2] at h
      exact Or.inr ⟨0, p, by simpa using (Option.some.inj h).symm, by simp, Or.inr h2.symm⟩
    · rw [if_neg h2] at h
      rcases ih (i0 + 1) _ h with h3 | ⟨k, q, hk, hq, hq2⟩
      · by_cases h4 : p.ble_used = 0 ∧ ff = none
        · rw [if_pos h4] at h3
          exact Or.inr ⟨0, p, by simpa using (Option.some.inj h3).symm, by simp, Or.inl h4.1⟩
        · rw [if_neg h4] at h3
          exact Or.inl h3
      · exact Or.inr ⟨k + 1, q, by omega, by simpa using hq, hq2⟩

/-! ## The steps of the admission routine -/

theorem nameStep_fields (cfg : Config) (p p1 : ble_peer_entry) (data : Nat → Nat) (len : Nat)
    (h : nameStep cfg p data len = some p1) :
    p1 = { p with ble_peer_name := p1.ble_peer_name } := by
  unfold nameStep at h
  split at h
  · split at h
    · cases h; rfl
    · cases h
  · split at h
    · split at h
      · cases h; rfl
      · cases h
    · cases h; rfl

theorem nameStep_isSome (cfg : Config) (p : ble_peer_entry) (data : Nat → Nat) (len : Nat)
    (h : nameInBounds cfg data len = true) : ∃ p1, nameStep cfg p data len = some p1 := by
  unfold nameInBounds at h
  unfold nameStep
  split at h
  · simp only [decide_eq_true_eq] at h
    simp [h]
  · simp only [decide_eq_true_eq] at h
    simp only [h, if_true]
    split
    · exact ⟨_, rfl⟩
    · exact ⟨_, rfl⟩

theorem gameStep_fields (cfg : Config) (p : ble_peer_entry) (data : Nat → Nat) (len : Nat) :
    gameStep cfg p data len =
      { p with ble_game_state := (gameStep cfg p data len).ble_game_state
               ble_isbadge := (gameStep cfg p data len).ble_isbadge } := by
  unfold gameStep
  split
  · split <;> rfl
  · rfl

theorem blePeerAdd_some (cfg : Config) (tbl t1 : List ble_peer_entry) (a : Addr)
    (data : Nat → Nat) (len : Nat) (rssi : Int)
    (h : blePeerAdd cfg tbl a data len rssi = some t1) :
    t1 = tbl ∨ ∃ i p p1, scanLoop a tbl 0 none = some i ∧ tbl[i]? = some p ∧
      nameStep cfg p data len = some p1 ∧
      ((filterRejects cfg (gameStep cfg p1 data len) = true ∧
          t1 = tbl.set i (gameStep cfg p1 data len)) ∨
        (filterRejects cfg (gameStep cfg p1 data len) = false ∧
          t1 = tbl.set i (acceptEntry cfg (gameStep cfg p1 data len) a rssi))) := by
  unfold blePeerAdd at h
  split at h
  · exact Or.inl (Option.some.inj h).symm
  · next i hi =>
    split at h
    · exact Or.inl (Option.some.inj h).symm
    · next p hp =>
      split at h
      · cases h
      · next p1 hp1 =>
        refine Or.inr ⟨i, p, p1, hi, hp, hp1, ?_⟩
        by_cases hf : filterRejects cfg (gameStep cfg p1 data len) = true
        · simp only [hf, if_true] at h
          exact Or.inl ⟨hf, (Option.some.inj h).symm⟩
        · simp only [hf] at h
          exact Or.inr ⟨by simpa using hf, (Option.some.inj h).symm⟩

theorem blePeerAdd_isSome (cfg : Config) (tbl : List ble_peer_entry) (a : Addr)
    (data : Nat → Nat) (len : Nat) (rssi : Int) (h : nameInBounds cfg data len = true) :
    ∃ t1, blePeerAdd cfg tbl a data len rssi = some t1 := by
  unfold blePeerAdd
  split
  · exact ⟨_, rfl⟩
  · split
    · exact ⟨_, rfl⟩
    · next p hp =>
      obtain ⟨p1, hp1⟩ := nameStep_isSome cfg p data len h
      rw [hp1]
      simp only
      split
      · exact ⟨_, rfl⟩
      · exact ⟨_, rfl⟩

/-- C1 (failing input): the run `zeroDupOps` from the start-up table of `cfg4`
succeeds and ends in a table whose slots 0 and 1 are both occupied with the
all-zero address, so two occupied slots hold the same address. -/
theorem zero_address_held_by_two_slots :
    (run cfg4 zeroDupOps (blePeerStart cfg4)).map keyFields =
        some [(1, zeroAddr, -60, 3), (1, zeroAddr, -50, 1), (0, zeroAddr, 0, 0),
              (0, zeroAddr, 0, 0)] ∧
      (run cfg4 zeroDupOps (blePeerStart cfg4)).map (occupiedWith zeroAddr) = some 2 := by
  constructor <;> decide

/-- C2 (failing input): `agedTable4` is reachable; admitting the all-zero
address (rssi -50), one tick (fewer than the time-to-live 3) and admitting it
again (rssi -60) leaves two occupied slots with that address: the second call
raises the occupancy from 1 to 2 and the slot of the first call keeps rssi -50
and ttl 2. -/
theorem same_zero_address_twice_gives_two_slots :
    run cfg4 [Op.add addrX (bytesAt badgeAdv) 6 (-40), Op.tick, Op.tick] (blePeerStart cfg4)
        = some agedTable4 ∧
      (run cfg4 [Op.add zeroAddr (bytesAt badgeAdv) 6 (-50), Op.tick] agedTable4).map occupancy
        = some 1 ∧
      (run cfg4 [Op.add zeroAddr (bytesAt badgeAdv) 6 (-50), Op.tick,
          Op.add zeroAddr (bytesAt badgeAdv) 6 (-60)] agedTable4).map occupancy = some 2 ∧
      (run cfg4 [Op.add zeroAddr (bytesAt badgeAdv) 6 (-50), Op.tick,
          Op.add zeroAddr (bytesAt badgeAdv) 6 (-60)] agedTable4).map keyFields =
        some [(1, zeroAddr, -60, 3), (1, zeroAddr, -50, 2), (0, zeroAddr, 0, 0),
              (0, zeroAddr, 0, 0)] := by
  refine ⟨?_, ?_, ?_, ?_⟩ <;> decide

/-- C5 (failing input): from the start-up table of `cfg4`, after `addrX` is
admitted and one tick has passed, the all-zero address is admitted into slot 1
(ttl 3); after k = 2 ticks that slot is occupied with ttl 1 = 3 - k; a further
accepted admission of the all-zero address occupies slot 0 and leaves the ttl
of slot 1 at 1. -/
theorem zero_address_refresh_misses_its_slot :
    (run cfg4 [Op.add addrX (bytesAt badgeAdv) 6 (-40), Op.tick,
        Op.add zeroAddr (bytesAt badgeAdv) 6 (-50)] (blePeerStart cfg4)).map keyFields =
      some [(1, addrX, -40, 2), (1, zeroAddr, -50, 3), (0, zeroAddr, 0, 0),
            (0, zeroAddr, 0, 0)] ∧
    (run cfg4 [Op.add addrX (bytesAt badgeAdv) 6 (-40), Op.tick,
        Op.add zeroAddr (bytesAt badgeAdv) 6 (-50), Op.tick, Op.tick]
        (blePeerStart cfg4)).map keyFields =
      some [(0, zeroAddr, 0, 0), (1, zeroAddr, -50, 1), (0, zeroAddr, 0, 0),
            (0, zeroAddr, 0, 0)] ∧
    (run cfg4 [Op.add addrX (bytesAt badgeAdv) 6 (-40), Op.tick,
        Op.add zeroAddr (bytesAt badgeAdv) 6 (-50), Op.tick, Op.tick,
        Op.add zeroAddr (bytesAt badgeAdv) 6 (-50)] (blePeerStart cfg4)).map keyFields =
      some [(1, zeroAddr, -50, 3), (1, zeroAddr, -50, 1), (0, zeroAddr, 0, 0),
            (0, zeroAddr, 0, 0)] := by
  refine ⟨?_, ?_, ?_⟩ <;> decide

/-! ## Capacity exhaustion -/

/-- C3: capacity exhaustion is a silent no-op: when every slot of the table is
occupied and no slot holds the address `a`, `blePeerAdd` returns the table it
was given, equal in every field of every slot, for every payload and rssi. -/
theorem blePeerAdd_full_table_unchanged (cfg : Config) (tbl : List ble_peer_entry)
    (a : Addr) (data : Nat → Nat) (len : Nat) (rssi : Int)
    (hfull : ∀ p ∈ tbl, p.ble_used ≠ 0) (ha : ∀ p ∈ tbl, p.ble_peer_addr ≠ a) :
    blePeerAdd cfg tbl a data len rssi = some tbl := by
  unfold blePeerAdd
  rw [scanLoop_full a tbl 0 hfull ha]

/-- An instance of the capacity-exhaustion theorem: a badge advertisement for `addrX`
against the full table `fullTable4`. -/
theorem blePeerAdd_full_table_unchanged_witness :
    fullTable4.length = cfg4.BLE_PEER_LIST_SIZE ∧
      blePeerAdd cfg4 fullTable4 addrX (bytesAt badgeAdv) 6 (-50) = some fullTable4 :=
  ⟨by decide,
    blePeerAdd_full_table_unchanged cfg4 fullTable4 addrX (bytesAt badgeAdv) 6 (-50)
      (by decide) (by decide)⟩

/-! ## Lookup -/

/-- C7: lookup correctness: `blePeerFind` returns slot `i` exactly when slot
`i` is occupied with address `a` and no lower slot is; it returns a slot iff
some occupied slot holds `a`, and NULL otherwise.  A slot with `ble_used = 0`
is never returned, whatever its address bytes. -/
theorem blePeerFind_correct (tbl : List ble_peer_entry) (a : Addr) :
    (∀ i, (blePeerFind tbl a).1 = some i ↔
        (∃ p, tbl[i]? = some p ∧ p.ble_used ≠ 0 ∧ p.ble_peer_addr = a) ∧
          ∀ j, j < i → ∀ q, tbl[j]? = some q → ¬(q.ble_used ≠ 0 ∧ q.ble_peer_addr = a)) ∧
      ((∃ i, (blePeerFind tbl a).1 = some i) ↔
        ∃ p ∈ tbl, p.ble_used ≠ 0 ∧ p.ble_peer_addr = a) ∧
      ((blePeerFind tbl a).1 = none ↔ ¬∃ p ∈ tbl, p.ble_used ≠ 0 ∧ p.ble_peer_addr = a) := by
  have hnone : (blePeerFind tbl a).1 = none ↔
      ¬∃ p ∈ tbl, p.ble_used ≠ 0 ∧ p.ble_peer_addr = a := by
    simp only [blePeerFind, findLoop_none_iff]
    constructor
    · rintro h ⟨p, hp, hp2⟩
      exact h p hp hp2
    · intro h p hp hp2
      exact h ⟨p, hp, hp2⟩
  refine ⟨?_, ?_, hnone⟩
  · intro i
    simp only [blePeerFind, findLoop_some_iff]
    constructor
    · rintro ⟨k, hk, h1, h2⟩
      have hik : i = k := by omega
      subst hik
      exact ⟨h1, h2⟩
    · rintro ⟨h1, h2⟩
      exact ⟨i, by omega, h1, h2⟩
  · rw [← not_iff_not, ← hnone]
    cases h : (blePeerFind tbl a).1 <;> simp

/-- C9: lookup is read-only: the table after `blePeerFind` is the table before
it, in every field of every slot (so no `ble_ttl` is refreshed), whether the
lookup hits or misses. -/
theorem blePeerFind_table_unchanged (tbl : List ble_peer_entry) (a : Addr) :
    (blePeerFind tbl a).2 = tbl ∧
      (blePeerFind tbl a).2.map (fun p => p.ble_ttl) = tbl.map (fun p => p.ble_ttl) :=
  ⟨rfl, rfl⟩


/-! ## Field lemmas -/

theorem nameStep_used (cfg : Config) (p p1 : ble_peer_entry) (data : Nat → Nat) (len : Nat)
    (h : nameStep cfg p data len = some p1) :
    p1.ble_used = p.ble_used ∧ p1.ble_peer_addr = p.ble_peer_addr ∧ p1.ble_ttl = p.ble_ttl ∧
      p1.ble_rssi = p.ble_rssi ∧ p1.ble_isbadge = p.ble_isbadge ∧
      p1.ble_game_state = p.ble_game_state := by
  have h1 := nameStep_fields cfg p p1 data len h
  refine ⟨?_, ?_, ?_, ?_, ?_, ?_⟩ <;> (rw [h1])

theorem gameStep_used (cfg : Config) (p : ble_peer_entry) (data : Nat → Nat) (len : Nat) :
    (gameStep cfg p data len).ble_used = p.ble_used ∧
      (gameStep cfg p data len).ble_peer_addr = p.ble_peer_addr ∧
      (gameStep cfg p data len).ble_ttl = p.ble_ttl ∧
      (gameStep cfg p data len).ble_rssi = p.ble_rssi ∧
      (gameStep cfg p data len).ble_peer_name = p.ble_peer_name := by
  refine ⟨?_, ?_, ?_, ?_, ?_⟩ <;> (rw [gameStep_fields])

theorem gameStep_cases (cfg : Config) (p : ble_peer_entry) (data : Nat → Nat) (len : Nat) :
    gameStep cfg p data len = p ∨
      gameStep cfg p data len = { p with ble_isbadge := FALSE } ∨
      (gameStep cfg p data len).ble_isbadge = TRUE := by
  unfold gameStep
  split
  · split
    · exact Or.inr (Or.inr rfl)
    · exact Or.inr (Or.inl rfl)
  · exact Or.inl rfl

/-! ## Invariants along runs -/

theorem blePeerAdd_preserves (cfg : Config) (P : ble_peer_entry → Prop)
    (tbl t1 : List ble_peer_entry) (a : Addr) (data : Nat → Nat) (len : Nat) (rssi : Int)
    (h : blePeerAdd cfg tbl a data len rssi = some t1) (hP : ∀ p ∈ tbl, P p)
    (hrej : ∀ p p1, P p → nameStep cfg p data len = some p1 →
      filterRejects cfg (gameStep cfg p1 data len) = true → P (gameStep cfg p1 data len))
    (hacc : ∀ p p1, P p → nameStep cfg p data len = some p1 →
      P (acceptEntry cfg (gameStep cfg p1 data len) a rssi)) :
    ∀ p ∈ t1, P p := by
  rcases blePeerAdd_some cfg tbl t1 a data len rssi h with h1 | ⟨i, p, p1, _, hp, hp1, h2 | h2⟩
  · rw [h1]; exact hP
  · intro q hq
    rw [h2.2] at hq
    rcases List.mem_or_eq_of_mem_set hq with h3 | h3
    · exact hP q h3
    · rw [h3]
      exact hrej p p1 (hP p (List.mem_iff_getElem?.2 ⟨i, hp⟩)) hp1 h2.1
  · intro q hq
    rw [h2.2] at hq
    rcases List.mem_or_eq_of_mem_set hq with h3 | h3
    · exact hP q h3
    · rw [h3]
      exact hacc p p1 (hP p (List.mem_iff_getElem?.2 ⟨i, hp⟩)) hp1

theorem peerThread_preserves (cfg : Config) (P : ble_peer_entry → Prop)
    (tbl : List ble_peer_entry) (hP : ∀ p ∈ tbl, P p)
    (hdecay : ∀ p, P p → P (decayEntry cfg p)) : ∀ p ∈ peerThread cfg tbl, P p := by
  intro q hq
  simp only [peerThread, List.mem_map] at hq
  obtain ⟨p, hp, rfl⟩ := hq
  exact hdecay p (hP p hp)

theorem run_preserves (cfg : Config) (P : List ble_peer_entry → Prop) (Q : Op → Prop)
    (hstep : ∀ t op t1, Q op → P t → step cfg t op = some t1 → P t1) :
    ∀ ops t t1, (∀ op ∈ ops, Q op) → P t → run cfg ops t = some t1 → P t1 := by
  intro ops
  induction ops with
  | nil =>
    intro t t1 _ hP h
    simp only [run] at h
    cases h
    exact hP
  | cons op ops ih =>
    intro t t1 hQ hP h
    simp only [run] at h
    split at h
    · cases h
    · next t2 h2 =>
      exact ih t2 t1 (fun o ho => hQ o (List.mem_cons_of_mem _ ho))
        (hstep t op t2 (hQ op (List.mem_cons_self _ _)) hP h2) h

theorem decayEntry_freeShape (cfg : Config) (p : ble_peer_entry) (h : freeShape cfg p) :
    freeShape cfg (decayEntry cfg p) := by
  unfold decayEntry
  split
  · exact h
  · next hu =>
    simp only
    split
    · intro _
      exact ⟨rfl, rfl, rfl, rfl, rfl⟩
    · intro h0
      exact absurd h0 hu

theorem step_freeShape (cfg : Config) (s s1 : List ble_peer_entry) (op : Op)
    (hs : ∀ p ∈ s, freeShape cfg p) (hstep : step cfg s op = some s1) :
    ∀ p ∈ s1, freeShape cfg p := by
  cases op with
  | add a d l r =>
    refine blePeerAdd_preserves cfg (freeShape cfg) s s1 a d l r hstep hs ?_ ?_
    · intro p p1 hp hp1 hrej hu
      obtain ⟨g1, g2, g3, g4, _⟩ := gameStep_used cfg p1 d l
      obtain ⟨n1, n2, n3, n4, n5, n6⟩ := nameStep_used cfg p p1 d l hp1
      rw [g1, n1] at hu
      obtain ⟨f1, f2, f3, f4, f5⟩ := hp hu
      rw [g2, g3, g4, n2, n3, n4]
      refine ⟨f1, ?_, f3, f4, ?_⟩
      · rcases gameStep_cases cfg p1 d l with c | c | c
        · rw [c, n6, f2]
        · rw [c]; simp only; rw [n6, f2]
        · simp [filterRejects, c, TRUE, FALSE] at hrej
      · rcases gameStep_cases cfg p1 d l with c | c | c
        · rw [c, n5, f5]
        · rw [c]; rfl
        · simp [filterRejects, c, TRUE, FALSE] at hrej
    · intro p p1 _ _ hu
      simp [acceptEntry] at hu
  | tick =>
    simp only [step] at hstep
    cases hstep
    exact peerThread_preserves cfg (freeShape cfg) s hs (decayEntry_freeShape cfg)

theorem reachable_freeShape (cfg : Config) (tbl : List ble_peer_entry)
    (h : Reachable cfg tbl) : ∀ p ∈ tbl, freeShape cfg p := by
  obtain ⟨ops, hops⟩ := h
  refine run_preserves cfg (fun s => ∀ p ∈ s, freeShape cfg p) (fun _ => True)
    (fun s op s1 _ hs hstep => step_freeShape cfg s s1 op hs hstep) ops _ tbl
    (fun _ _ => trivial) ?_ hops
  intro p hp
  simp only [blePeerStart, List.mem_replicate] at hp
  rw [hp.2]
  intro _
  exact ⟨rfl, rfl, rfl, rfl, rfl⟩

theorem decayEntry_ttlInRange (cfg : Config) (hT : cfg.BLE_PEER_LIST_TTL < 256)
    (p : ble_peer_entry) (h : ttlInRange cfg p) : ttlInRange cfg (decayEntry cfg p) := by
  unfold decayEntry
  split
  · exact h
  · next hu =>
    obtain ⟨h1, h2⟩ := h hu
    simp only
    split
    · intro h0
      exact absurd rfl h0
    · next hne =>
      intro _
      have h3 : (p.ble_ttl + 255) % 256 = p.ble_ttl - 1 := by omega
      simp only [h3] at hne ⊢
      omega

theorem reachable_ttlInRange (cfg : Config) (hT0 : 0 < cfg.BLE_PEER_LIST_TTL)
    (hT : cfg.BLE_PEER_LIST_TTL < 256) (tbl : List ble_peer_entry)
    (h : Reachable cfg tbl) : ∀ p ∈ tbl, ttlInRange cfg p := by
  obtain ⟨ops, hops⟩ := h
  refine run_preserves cfg (fun s => ∀ p ∈ s, ttlInRange cfg p) (fun _ => True) ?_ ops _ tbl
    (fun _ _ => trivial) ?_ hops
  · intro s op s1 _ hs hstep
    cases op with
    | add a d l r =>
      refine blePeerAdd_preserves cfg (ttlInRange cfg) s s1 a d l r hstep hs ?_ ?_
      · intro p p1 hp hp1 _ hu
        obtain ⟨g1, _, g3, _, _⟩ := gameStep_used cfg p1 d l
        obtain ⟨n1, _, n3, _, _, _⟩ := nameStep_used cfg p p1 d l hp1
        rw [g1, n1] at hu
        rw [g3, n3]
        exact hp hu
      · intro p p1 _ _ _
        simp only [acceptEntry]
        omega
    | tick =>
      simp only [step] at hstep
      cases hstep
      exact peerThread_preserves cfg (ttlInRange cfg) s hs (decayEntry_ttlInRange cfg hT)
  · intro p hp
    simp only [blePeerStart, List.mem_replicate] at hp
    rw [hp.2]
    intro hu
    exact absurd rfl hu

/-! ## Consecutive ticks -/

theorem ticks_eq_map (cfg : Config) (k : Nat) (tbl : List ble_peer_entry) :
    ticks cfg k tbl = tbl.map ((decayEntry cfg)^[k]) := by
  induction k generalizing tbl with
  | zero => simp [ticks]
  | succ k ih =>
    simp only [ticks, ih, peerThread, List.map_map, Function.iterate_succ]

theorem decayEntry_zeroEntry_iterate (cfg : Config) (k : Nat) :
    (decayEntry cfg)^[k] (zeroEntry cfg) = zeroEntry cfg := by
  induction k with
  | zero => rfl
  | succ k ih =>
    rw [Function.iterate_succ_apply]
    have h : decayEntry cfg (zeroEntry cfg) = zeroEntry cfg := by
      simp [decayEntry, zeroEntry]
    rw [h, ih]

theorem decayEntry_iterate_lt (cfg : Config) (p : ble_peer_entry) (k : Nat)
    (hu : p.ble_used ≠ 0) (hk : k < p.ble_ttl) (h256 : p.ble_ttl < 256) :
    (decayEntry cfg)^[k] p = { p with ble_ttl := p.ble_ttl - k } := by
  induction k with
  | zero => rfl
  | succ k ih =>
    rw [Function.iterate_succ_apply', ih (by omega)]
    have h3 : (p.ble_ttl - k + 255) % 256 = p.ble_ttl - (k + 1) := by omega
    have h4 : p.ble_ttl - (k + 1) ≠ 0 := by omega
    simp [decayEntry, hu, h3, h4]

theorem decayEntry_iterate_ge (cfg : Config) (p : ble_peer_entry) (k : Nat)
    (hu : p.ble_used ≠ 0) (h1 : 1 ≤ p.ble_ttl) (hk : p.ble_ttl ≤ k) (h256 : p.ble_ttl < 256) :
    (decayEntry cfg)^[k] p = zeroEntry cfg := by
  obtain ⟨j, rfl⟩ : ∃ j, k = j + ((p.ble_ttl - 1) + 1) := ⟨k - p.ble_ttl, by omega⟩
  rw [Function.iterate_add_apply, Function.iterate_succ_apply',
    decayEntry_iterate_lt cfg p (p.ble_ttl - 1) hu (by omega) h256]
  have h3 : (p.ble_ttl - (p.ble_ttl - 1) + 255) % 256 = 0 := by omega
  have h4 : decayEntry cfg { p with ble_ttl := p.ble_ttl - (p.ble_ttl - 1) } = zeroEntry cfg := by
    simp [decayEntry, hu, h3]
  rw [h4, decayEntry_zeroEntry_iterate]

/-! ## Eviction -/

/-- Eviction, for runs that stay inside the name buffer: with a time-to-live
between 1 and 255, a slot that is occupied with `ble_ttl = BLE_PEER_LIST_TTL`
is still occupied (ttl 1, other fields kept) after `BLE_PEER_LIST_TTL - 1`
ticks and equals the all-zero record after exactly `BLE_PEER_LIST_TTL` ticks;
and from every table that is `Reachable`, `BLE_PEER_LIST_TTL` ticks leave
every previously occupied slot all-zero. -/
theorem eviction_after_ttl_ticks (cfg : Config) (hT0 : 0 < cfg.BLE_PEER_LIST_TTL)
    (hT : cfg.BLE_PEER_LIST_TTL < 256) :
    (∀ (tbl : List ble_peer_entry) (i : Nat) (p : ble_peer_entry), tbl[i]? = some p →
        p.ble_used ≠ 0 → p.ble_ttl = cfg.BLE_PEER_LIST_TTL →
        (∃ q, (ticks cfg (cfg.BLE_PEER_LIST_TTL - 1) tbl)[i]? = some q ∧ q.ble_used ≠ 0 ∧
          q = { p with ble_ttl := 1 }) ∧
        (ticks cfg cfg.BLE_PEER_LIST_TTL tbl)[i]? = some (zeroEntry cfg)) ∧
      (∀ (tbl : List ble_peer_entry), Reachable cfg tbl →
        ∀ (i : Nat) (p : ble_peer_entry), tbl[i]? = some p → p.ble_used ≠ 0 →
        (ticks cfg cfg.BLE_PEER_LIST_TTL tbl)[i]? = some (zeroEntry cfg)) := by
  constructor
  · intro tbl i p hi hu httl
    constructor
    · refine ⟨{ p with ble_ttl := 1 }, ?_, hu, rfl⟩
      rw [ticks_eq_map, List.getElem?_map, hi, Option.map_some',
        decayEntry_iterate_lt cfg p _ hu (by omega) (by omega)]
      have h1 : p.ble_ttl - (cfg.BLE_PEER_LIST_TTL - 1) = 1 := by omega
      rw [h1]
    · rw [ticks_eq_map, List.getElem?_map, hi, Option.map_some',
        decayEntry_iterate_ge cfg p _ hu (by omega) (by omega) (by omega)]
  · intro tbl hreach i p hi hu
    obtain ⟨h1, h2⟩ :=
      reachable_ttlInRange cfg hT0 hT tbl hreach p (List.mem_iff_getElem?.2 ⟨i, hi⟩) hu
    rw [ticks_eq_map, List.getElem?_map, hi, Option.map_some',
      decayEntry_iterate_ge cfg p _ hu h1 h2 (by omega)]


/-- An instance of the eviction lemma in `cfg4`: slot 0 of `fullTable4` (ttl 3)
and slot 0 of the table `agedTable4`. -/
theorem eviction_after_ttl_ticks_witness :
    0 < cfg4.BLE_PEER_LIST_TTL ∧ cfg4.BLE_PEER_LIST_TTL < 256 ∧
      ((∃ q, (ticks cfg4 (cfg4.BLE_PEER_LIST_TTL - 1) fullTable4)[0]? = some q ∧
          q.ble_used ≠ 0 ∧ q = { sampleEntry 1 with ble_ttl := 1 }) ∧
        (ticks cfg4 cfg4.BLE_PEER_LIST_TTL fullTable4)[0]? = some (zeroEntry cfg4)) ∧
      (ticks cfg4 cfg4.BLE_PEER_LIST_TTL agedTable4)[0]? = some (zeroEntry cfg4) :=
  ⟨by decide, by decide,
    (eviction_after_ttl_ticks cfg4 (by decide) (by decide)).1 fullTable4 0 (sampleEntry 1)
      (by decide) (by decide) (by decide),
    (eviction_after_ttl_ticks cfg4 (by decide) (by decide)).2 agedTable4
      ⟨[Op.add addrX (bytesAt badgeAdv) 6 (-40), Op.tick, Op.tick], by decide⟩ 0 agedEntry
      (by decide) (by decide)⟩

/-! ## Addresses that were never admitted -/

/-- Lookup of a never-admitted address, for runs that stay inside the name
buffer: after every such run of `blePeerAdd` calls and decay ticks from the
start-up table in which no call used the address `a`, `blePeerFind` returns
NULL for `a` (the all-zero address included). -/
theorem blePeerFind_never_admitted (cfg : Config) (ops : List Op)
    (tbl : List ble_peer_entry) (a : Addr)
    (hops : ∀ b d l r, Op.add b d l r ∈ ops → b ≠ a)
    (hrun : run cfg ops (blePeerStart cfg) = some tbl) :
    (blePeerFind tbl a).1 = none := by
  have hinv : ∀ p ∈ tbl, p.ble_used ≠ 0 → p.ble_peer_addr ≠ a := by
    refine run_preserves cfg (fun s => ∀ p ∈ s, p.ble_used ≠ 0 → p.ble_peer_addr ≠ a)
      (fun op => ∀ b d l r, op = Op.add b d l r → b ≠ a) ?_ ops _ tbl ?_ ?_ hrun
    · intro s op s1 hQ hs hstep
      cases op with
      | add b d l r =>
        have hb : b ≠ a := hQ b d l r rfl
        refine blePeerAdd_preserves cfg (fun p => p.ble_used ≠ 0 → p.ble_peer_addr ≠ a)
          s s1 b d l r hstep hs ?_ ?_
        · intro p p1 hp hp1 _ hu
          obtain ⟨g1, g2, _, _, _⟩ := gameStep_used cfg p1 d l
          obtain ⟨n1, n2, _, _, _, _⟩ := nameStep_used cfg p p1 d l hp1
          rw [g1, n1] at hu
          rw [g2, n2]
          exact hp hu
        · intro p p1 _ _ _
          exact hb
      | tick =>
        simp only [step] at hstep
        cases hstep
        refine peerThread_preserves cfg (fun p => p.ble_used ≠ 0 → p.ble_peer_addr ≠ a)
          s hs ?_
        intro p hp
        unfold decayEntry
        split
        · exact hp
        · next hu =>
          simp only
          split
          · intro h0
            exact absurd rfl h0
          · intro _
            exact hp hu
    · intro op hop b d l r heq
      exact hops b d l r (heq ▸ hop)
    · intro p hp hu
      simp only [blePeerStart, List.mem_replicate] at hp
      rw [hp.2] at hu
      exact absurd rfl hu
  simp only [blePeerFind, findLoop_none_iff]
  intro p hp hc
  exact hinv p hp hc.1 hc.2

/-- An instance of the never-admitted lookup lemma: after `addrX` is admitted
and one tick has passed, the all-zero address is not found. -/
theorem blePeerFind_never_admitted_witness :
    run cfg4 [Op.add addrX (bytesAt badgeAdv) 6 (-40), Op.tick] (blePeerStart cfg4) =
        some [{ sampleEntry 1 with ble_peer_addr := addrX, ble_ttl := 2 }, zeroEntry cfg4,
              zeroEntry cfg4, zeroEntry cfg4] ∧
      (blePeerFind [{ sampleEntry 1 with ble_peer_addr := addrX, ble_ttl := 2 }, zeroEntry cfg4,
          zeroEntry cfg4, zeroEntry cfg4] zeroAddr).1 = none :=
  ⟨by decide,
    blePeerFind_never_admitted cfg4 [Op.add addrX (bytesAt badgeAdv) 6 (-40), Op.tick] _
      zeroAddr
      (by
        intro b d l r h
        simp only [List.mem_cons, List.mem_singleton, List.not_mem_nil, or_false] at h
        rcases h with h | h
        · cases h
          decide
        · cases h)
      (by decide)⟩

/-! ## Occupancy -/

theorem occupancy_set (tbl : List ble_peer_entry) (i : Nat) (p q : ble_peer_entry)
    (hp : tbl[i]? = some p) :
    (occupied q = occupied p → occupancy (tbl.set i q) = occupancy tbl) ∧
      (occupied q = true → occupied p = false →
        occupancy (tbl.set i q) = occupancy tbl + 1) := by
  obtain ⟨hlt, heq⟩ := List.getElem?_eq_some.1 hp
  have hset := List.countP_set occupied tbl i q hlt
  rw [heq] at hset
  have hpos : occupied p = true → 0 < List.countP occupied tbl := fun h =>
    List.countP_pos_iff.2 ⟨p, List.mem_iff_getElem?.2 ⟨i, hp⟩, h⟩
  unfold occupancy
  constructor
  · intro h
    rw [hset, h]
    by_cases hc : occupied p = true
    · have := hpos hc
      simp only [hc, if_true]
      omega
    · simp [hc]
  · intro h1 h2
    rw [hset, h1, h2]
    simp

theorem rssiOfByte_rssiByte (r : Int) (h1 : -128 ≤ r) (h2 : r ≤ 127) :
    rssiOfByte (rssiByte r) = r := by
  unfold rssiOfByte rssiByte
  by_cases h : 0 ≤ r
  · have e : r % 256 = r := Int.emod_eq_of_lt h (by omega)
    rw [e]
    have e2 : ((r.toNat : Nat) : Int) = r := Int.toNat_of_nonneg h
    have h3 : r.toNat < 128 := by omega
    rw [if_pos h3, e2]
  · have e : r % 256 = r + 256 := by omega
    rw [e]
    have e2 : (((r + 256).toNat : Nat) : Int) = r + 256 := Int.toNat_of_nonneg (by omega)
    have h3 : ¬ (r + 256).toNat < 128 := by omega
    rw [if_neg h3, e2]
    omega

theorem memcpy_length (dst src : List Nat) (h : src.length ≤ dst.length) :
    (memcpy dst src).length = dst.length := by
  simp only [memcpy, List.length_append, List.length_drop]
  omega

theorem memcpy_append (dst more src : List Nat) (h : src.length ≤ dst.length) :
    memcpy (dst ++ more) src = memcpy dst src ++ more := by
  simp only [memcpy, List.drop_append_of_le_length h, List.append_assoc]

theorem entryOfTail_slot (cfg : Config) (p : ble_peer_entry) (a : Addr) (nm more : List Nat)
    (hn : nm.length = cfg.BLE_PEER_NAME_MAX)
    (hg : p.ble_game_state.length = cfg.sizeof_ble_ides_game_state_t)
    (h1 : -128 ≤ p.ble_rssi) (h2 : p.ble_rssi ≤ 127) :
    entryOfTail cfg a (nm ++ entryTail p ++ more) =
      { p with ble_peer_addr := a, ble_peer_name := nm } := by
  have e1 : (nm ++ entryTail p ++ more).take cfg.BLE_PEER_NAME_MAX = nm := by
    rw [List.append_assoc, ← hn]
    exact List.take_left' rfl
  have e2 : (nm ++ entryTail p ++ more).drop cfg.BLE_PEER_NAME_MAX =
      p.ble_game_state ++
        ([rssiByte p.ble_rssi, p.ble_ttl, p.ble_used, p.ble_isbadge] ++ more) := by
    rw [List.append_assoc, ← hn, List.drop_left' rfl]
    simp [entryTail, List.append_assoc]
  have e3 : ∀ k, (nm ++ entryTail p ++ more).getD
      (cfg.BLE_PEER_NAME_MAX + cfg.sizeof_ble_ides_game_state_t + k) 0 =
      ([rssiByte p.ble_rssi, p.ble_ttl, p.ble_used, p.ble_isbadge] ++ more).getD k 0 := by
    intro k
    simp only [List.getD_eq_getElem?_getD]
    rw [List.append_assoc, List.getElem?_append_right (by omega), entryTail,
      List.append_assoc, List.getElem?_append_right (by omega)]
    congr 2
    omega
  have e30 := e3 0
  rw [Nat.add_zero] at e30
  unfold entryOfTail
  rw [e1, e2, e30, e3 1, e3 2, e3 3, ← hg, List.take_left' rfl]
  simp only [List.cons_append, List.getD_cons_zero, List.getD_cons_succ]
  rw [rssiOfByte_rssiByte _ h1 h2]

theorem entryBytes_length (cfg : Config) (p : ble_peer_entry) (hp : wellFormed cfg p) :
    (entryBytes p).length = 6 + tailSize cfg := by
  obtain ⟨hn, hg, _, _⟩ := hp
  simp only [entryBytes, addrBytes, entryTail, tailSize, List.length_append, List.length_cons,
    List.length_nil, hn, hg]
  omega

theorem entryOfBytes_entryBytes (cfg : Config) (p : ble_peer_entry) (more : List Nat)
    (hp : wellFormed cfg p) : entryOfBytes cfg (entryBytes p ++ more) = p := by
  obtain ⟨hn, hg, h1, h2⟩ := hp
  have e : entryBytes p ++ more =
      p.ble_peer_addr.b0 :: p.ble_peer_addr.b1 :: p.ble_peer_addr.b2 :: p.ble_peer_addr.b3 ::
        p.ble_peer_addr.b4 :: p.ble_peer_addr.b5 ::
        (p.ble_peer_name ++ entryTail p ++ more) := by
    simp [entryBytes, addrBytes, List.append_assoc]
  rw [e]
  unfold entryOfBytes
  simp only [List.getD_cons_zero, List.getD_cons_succ, List.drop_succ_cons, List.drop_zero]
  rw [entryOfTail_slot cfg p _ p.ble_peer_name more hn hg h1 h2]

theorem tableOfBytes_tableBytes (cfg : Config) (tbl : List ble_peer_entry)
    (h : ∀ p ∈ tbl, wellFormed cfg p) :
    tableOfBytes cfg tbl.length (tableBytes tbl) = tbl := by
  induction tbl with
  | nil => rfl
  | cons p rest ih =>
    have hp := h p (List.mem_cons_self _ _)
    simp only [List.length_cons, tableOfBytes, tableBytes]
    rw [entryOfBytes_entryBytes cfg p _ hp, ← entryBytes_length cfg p hp,
      List.drop_left' rfl, ih (fun q hq => h q (List.mem_cons_of_mem _ hq))]

theorem readBytes_length (data : Nat → Nat) (off n : Nat) : (readBytes data off n).length = n := by
  simp [readBytes]

theorem nameWrite_of_nameStep (cfg : Config) (p p1 : ble_peer_entry)
    (rest : List ble_peer_entry) (data : Nat → Nat) (len : Nat)
    (hn : p.ble_peer_name.length = cfg.BLE_PEER_NAME_MAX)
    (h : nameStep cfg p data len = some p1) :
    nameWrite cfg (slotMemory p rest) data len = some (slotMemory p1 rest) ∧
      p1.ble_peer_name.length = cfg.BLE_PEER_NAME_MAX := by
  have hmem : ∀ q : ble_peer_entry, slotMemory q rest =
      q.ble_peer_name ++ (entryTail q ++ tableBytes rest) := by
    intro q
    simp [slotMemory, List.append_assoc]
  have htail : entryTail p1 = entryTail p := by
    obtain ⟨u1, _, u3, u4, u5, u6⟩ := nameStep_used cfg p p1 data len h
    simp only [entryTail, u1, u3, u4, u5, u6]
  have hlen : (slotMemory p rest).length =
      cfg.BLE_PEER_NAME_MAX + (entryTail p ++ tableBytes rest).length := by
    rw [hmem, List.length_append, hn]
  have hg0 : 0 < p.ble_peer_name.length →
      (slotMemory p rest).getD 0 0 = p.ble_peer_name.getD 0 0 := by
    intro hpos
    rw [hmem p]
    simp only [List.getD_eq_getElem?_getD]
    rw [List.getElem?_append_left hpos]
  unfold nameStep at h
  unfold nameWrite
  cases hfind : cfg.bleGapAdvBlockFind data len cfg.BLE_GAP_AD_TYPE_COMPLETE_LOCAL_NAME with
  | some r =>
    obtain ⟨off, l⟩ := r
    simp only [hfind] at h ⊢
    by_cases hl : l ≤ cfg.BLE_PEER_NAME_MAX
    · simp only [hl, if_true, Option.some.injEq] at h
      have hz : (List.replicate cfg.BLE_PEER_NAME_MAX 0).length ≤ p.ble_peer_name.length := by
        simp [hn]
      have hc : (memcpy p.ble_peer_name (List.replicate cfg.BLE_PEER_NAME_MAX 0)).length =
          cfg.BLE_PEER_NAME_MAX := by
        rw [memcpy_length _ _ hz, hn]
      have hs : (readBytes data off l).length ≤
          (memcpy p.ble_peer_name (List.replicate cfg.BLE_PEER_NAME_MAX 0)).length := by
        rw [hc, readBytes_length]
        exact hl
      have hname : p1.ble_peer_name =
          memcpy (memcpy p.ble_peer_name (List.replicate cfg.BLE_PEER_NAME_MAX 0))
            (readBytes data off l) := by
        rw [← h]
      have hcond : cfg.BLE_PEER_NAME_MAX ≤ (slotMemory p rest).length ∧
          l ≤ (slotMemory p rest).length := by
        rw [hlen]
        constructor <;> omega
      rw [if_pos hcond]
      constructor
      · rw [hmem p, hmem p1, htail, memcpy_append _ _ _ hz, memcpy_append _ _ _ hs, hname]
      · rw [hname, memcpy_length _ _ hs, hc]
    · simp only [hl, if_false] at h
      cases h
  | none =>
    simp only [hfind] at h ⊢
    by_cases h0 : p.ble_peer_name.getD 0 0 = 0
    · simp only [h0, if_true] at h
      by_cases h7 : noneName.length ≤ cfg.BLE_PEER_NAME_MAX
      · simp only [h7, if_true, Option.some.injEq] at h
        have hs : noneName.length ≤ p.ble_peer_name.length := by
          rw [hn]
          exact h7
        have hname : p1.ble_peer_name = memcpy p.ble_peer_name noneName := by
          rw [← h]
        have hpos : 0 < p.ble_peer_name.length := by
          have : 0 < noneName.length := by decide
          omega
        have hfirst : (slotMemory p rest).getD 0 0 = 0 := by
          rw [hg0 hpos]
          exact h0
        rw [if_pos hfirst, if_pos (by rw [hlen]; omega)]
        constructor
        · rw [hmem p, hmem p1, htail, memcpy_append _ _ _ hs, hname]
        · rw [hname, memcpy_length _ _ hs, hn]
      · simp only [h7, if_false] at h
        cases h
    · simp only [h0, if_false, Option.some.injEq] at h
      have hpos : 0 < p.ble_peer_name.length := by
        by_contra hc
        have hnil : p.ble_peer_name = [] := List.length_eq_zero.1 (by omega)
        rw [hnil] at h0
        exact h0 rfl
      have hfirst : (slotMemory p rest).getD 0 0 ≠ 0 := by
        rw [hg0 hpos]
        exact h0
      rw [if_neg hfirst, ← h]
      exact ⟨rfl, hn⟩

/-- On a table of well-formed records, every call of `blePeerAdd` whose name
step stays inside the name buffer leaves the table that the routine on the
bytes of the table leaves. -/
theorem blePeerAddRaw_eq_blePeerAdd (cfg : Config) (tbl t1 : List ble_peer_entry) (a : Addr)
    (data : Nat → Nat) (len : Nat) (rssi : Int) (hwf : ∀ p ∈ tbl, wellFormed cfg p)
    (h : blePeerAdd cfg tbl a data len rssi = some t1) :
    blePeerAddRaw cfg tbl a data len rssi = some t1 := by
  unfold blePeerAdd at h
  unfold blePeerAddRaw
  split
  · next hs =>
    rw [hs] at h
    exact h
  · next i hs =>
    rw [hs] at h
    simp only at h
    split
    · next hi =>
      rw [hi] at h
      exact h
    · next p hp =>
      rw [hp] at h
      simp only at h
      obtain ⟨hlt, hget⟩ := List.getElem?_eq_some.1 hp
      have hpwf := hwf p (List.mem_iff_getElem?.2 ⟨i, hp⟩)
      cases hname : nameStep cfg p data len with
      | none =>
        rw [hname] at h
        cases h
      | some p1 =>
        rw [hname] at h
        simp only at h
        obtain ⟨hw, hlen1⟩ :=
          nameWrite_of_nameStep cfg p p1 (tbl.drop (i + 1)) data len hpwf.1 hname
        rw [hw]
        simp only
        obtain ⟨u1, u2, u3, u4, u5, u6⟩ := nameStep_used cfg p p1 data len hname
        have hp1 : entryOfTail cfg p.ble_peer_addr (slotMemory p1 (tbl.drop (i + 1))) = p1 := by
          rw [slotMemory, entryOfTail_slot cfg p1 p.ble_peer_addr p1.ble_peer_name _ hlen1
            (by rw [u6]; exact hpwf.2.1) (by rw [u4]; exact hpwf.2.2.1)
            (by rw [u4]; exact hpwf.2.2.2), ← u2]
        have hrest : tableOfBytes cfg (tbl.length - (i + 1))
            ((slotMemory p1 (tbl.drop (i + 1))).drop (tailSize cfg)) = tbl.drop (i + 1) := by
          have hsz : (p1.ble_peer_name ++ entryTail p1).length = tailSize cfg := by
            simp only [entryTail, tailSize, List.length_append, List.length_cons,
              List.length_nil, hlen1, u6, hpwf.2.1]
            omega
          rw [slotMemory, ← hsz, List.drop_left' rfl]
          have hl2 : tbl.length - (i + 1) = (tbl.drop (i + 1)).length := by
            rw [List.length_drop]
          rw [hl2]
          exact tableOfBytes_tableBytes cfg _ (fun q hq => hwf q (List.mem_of_mem_drop hq))
        rw [hp1, hrest]
        have hset : ∀ q : ble_peer_entry, tbl.take i ++ q :: tbl.drop (i + 1) = tbl.set i q := by
          intro q
          rw [List.set_eq_take_append_cons_drop, if_pos hlt]
        rw [hset, hset]
        exact h

theorem gameStep_wellFormed (cfg : Config) (p : ble_peer_entry) (data : Nat → Nat) (len : Nat)
    (hp : wellFormed cfg p) : wellFormed cfg (gameStep cfg p data len) := by
  obtain ⟨hn, hg, h1, h2⟩ := hp
  unfold gameStep
  split
  · split
    · refine ⟨hn, ?_, h1, h2⟩
      simp only
      rw [memcpy_length _ _ (by rw [readBytes_length, hg]), hg]
    · exact ⟨hn, hg, h1, h2⟩
  · exact ⟨hn, hg, h1, h2⟩

theorem zeroEntry_wellFormed (cfg : Config) : wellFormed cfg (zeroEntry cfg) := by
  refine ⟨?_, ?_, ?_, ?_⟩ <;> simp [zeroEntry]

theorem step_wellFormed (cfg : Config) (s s1 : List ble_peer_entry) (op : Op)
    (hop : signedByteRssi op) (hs : ∀ p ∈ s, wellFormed cfg p) (h : step cfg s op = some s1) :
    ∀ p ∈ s1, wellFormed cfg p := by
  cases op with
  | add a d l r =>
    refine blePeerAdd_preserves cfg (wellFormed cfg) s s1 a d l r h hs ?_ ?_
    · intro p p1 hp hp1 _
      apply gameStep_wellFormed
      obtain ⟨_, _, _, u4, _, u6⟩ := nameStep_used cfg p p1 d l hp1
      exact ⟨(nameWrite_of_nameStep cfg p p1 [] d l hp.1 hp1).2, by rw [u6]; exact hp.2.1,
        by rw [u4]; exact hp.2.2.1, by rw [u4]; exact hp.2.2.2⟩
    · intro p p1 hp hp1
      have hw : wellFormed cfg (gameStep cfg p1 d l) := by
        apply gameStep_wellFormed
        obtain ⟨_, _, _, u4, _, u6⟩ := nameStep_used cfg p p1 d l hp1
        exact ⟨(nameWrite_of_nameStep cfg p p1 [] d l hp.1 hp1).2, by rw [u6]; exact hp.2.1,
          by rw [u4]; exact hp.2.2.1, by rw [u4]; exact hp.2.2.2⟩
      exact ⟨hw.1, hw.2.1, hop.1, hop.2⟩
  | tick =>
    simp only [step] at h
    cases h
    refine peerThread_preserves cfg (wellFormed cfg) s hs ?_
    intro p hp
    unfold decayEntry
    split
    · exact hp
    · simp only
      split
      · exact zeroEntry_wellFormed cfg
      · exact hp

/-- Runs whose calls of `blePeerAdd` stay inside the name buffer are runs of
the routine on the bytes of the table, with the same tables: every table that
is `Reachable` by events with an 8-bit `rssi` is reached by `runRaw`. -/
theorem runRaw_eq_run (cfg : Config) (ops : List Op) :
    ∀ (t t1 : List ble_peer_entry), (∀ op ∈ ops, signedByteRssi op) →
      (∀ p ∈ t, wellFormed cfg p) → run cfg ops t = some t1 → runRaw cfg ops t = some t1 := by
  induction ops with
  | nil =>
    intro t t1 _ _ h
    exact h
  | cons op ops ih =>
    intro t t1 hops hwf h
    simp only [run] at h
    split at h
    · cases h
    · next t2 h2 =>
      have hop := hops op (List.mem_cons_self _ _)
      have hraw : stepRaw cfg t op = some t2 := by
        cases op with
        | add a d l r => exact blePeerAddRaw_eq_blePeerAdd cfg t t2 a d l r hwf h2
        | tick => exact h2
      simp only [runRaw, hraw]
      exact ih t2 t1 (fun o ho => hops o (List.mem_cons_of_mem _ ho))
        (step_wellFormed cfg t t2 op hop hwf h2) h

theorem fitsName_signedByteRssi (cfg : Config) (op : Op) (h : fitsName cfg op) :
    signedByteRssi op := by
  cases op with
  | add a d l r => exact ⟨h.2.1, h.2.2⟩
  | tick => trivial

theorem blePeerStart_wellFormed (cfg : Config) : ∀ p ∈ blePeerStart cfg, wellFormed cfg p := by
  intro p hp
  simp only [blePeerStart, List.mem_replicate] at hp
  rw [hp.2]
  exact zeroEntry_wellFormed cfg

/-- On well-formed records, a sequence of events whose name copies fit the
name buffer has a result in both models of the admission routine, and the
same one. -/
theorem run_of_fits (cfg : Config) (ops : List Op) :
    ∀ (t : List ble_peer_entry), (∀ op ∈ ops, fitsName cfg op) →
      (∀ p ∈ t, wellFormed cfg p) →
      ∃ t1, run cfg ops t = some t1 ∧ runRaw cfg ops t = some t1 ∧
        ∀ p ∈ t1, wellFormed cfg p := by
  induction ops with
  | nil =>
    intro t _ hwf
    exact ⟨t, rfl, rfl, hwf⟩
  | cons op ops ih =>
    intro t hfit hwf
    have hop := hfit op (List.mem_cons_self _ _)
    have hstep : ∃ t2, step cfg t op = some t2 := by
      cases op with
      | add a d l r => exact blePeerAdd_isSome cfg t a d l r hop.1
      | tick => exact ⟨_, rfl⟩
    obtain ⟨t2, h2⟩ := hstep
    have hraw : stepRaw cfg t op = some t2 := by
      cases op with
      | add a d l r => exact blePeerAddRaw_eq_blePeerAdd cfg t t2 a d l r hwf h2
      | tick => exact h2
    have hwf2 := step_wellFormed cfg t t2 op (fitsName_signedByteRssi cfg op hop) hwf h2
    obtain ⟨t1, h3, h4, h5⟩ := ih t2 (fun o ho => hfit o (List.mem_cons_of_mem _ ho)) hwf2
    refine ⟨t1, ?_, ?_, h5⟩
    · simp only [run, h2]
      exact h3
    · simp only [runRaw, hraw]
      exact h4

/-- Every table that the routine on the bytes of the table reaches from the
start-up table by events whose name copies fit the name buffer is
`Reachable`, and its records are well-formed. -/
theorem reachable_of_runRaw (cfg : Config) (ops : List Op) (tbl : List ble_peer_entry)
    (hfit : ∀ op ∈ ops, fitsName cfg op)
    (h : runRaw cfg ops (blePeerStart cfg) = some tbl) :
    Reachable cfg tbl ∧ ∀ p ∈ tbl, wellFormed cfg p := by
  obtain ⟨t1, h1, h2, h3⟩ :=
    run_of_fits cfg ops (blePeerStart cfg) hfit (blePeerStart_wellFormed cfg)
  have ht : t1 = tbl := Option.some.inj (h2.symm.trans h)
  rw [← ht]
  exact ⟨⟨ops, h1⟩, h3⟩

/-! ## Rejection by the admission filter -/

theorem gameStep_non_vendor (cfg : Config) (p : ble_peer_entry) (data : Nat → Nat) (len : Nat)
    (hvendor : ∀ off l,
      cfg.bleGapAdvBlockFind data len cfg.BLE_GAP_AD_TYPE_MANUFACTURER_SPECIFIC_DATA =
        some (off, l) → ble_ides_company_id data off ≠ cfg.BLE_COMPANY_ID_IDES)
    (hp : p.ble_isbadge = FALSE) : gameStep cfg p data len = p := by
  unfold gameStep
  split
  · next off l heq =>
    rw [if_neg (hvendor off l heq), ← hp]
  · rfl

/-- C6 (counterexample): with the filter enabled, the start-up table of `cfg4`
holds no occupied slot for `addrX` and the payload `nameAdv` has no
manufacturer block, yet `blePeerAdd` does not return the table unchanged: the
name of the unoccupied slot 0 now holds the advertised bytes. -/
theorem filter_rejection_changes_table :
    Reachable cfg4 (blePeerStart cfg4) ∧ cfg4.BLE_PEER_SCAN_ALL = false ∧
      occupiedWith addrX (blePeerStart cfg4) = 0 ∧
      cfg4.bleGapAdvBlockFind (bytesAt nameAdv) 4
        cfg4.BLE_GAP_AD_TYPE_MANUFACTURER_SPECIFIC_DATA = none ∧
      blePeerAdd cfg4 (blePeerStart cfg4) addrX (bytesAt nameAdv) 4 (-40) ≠
        some (blePeerStart cfg4) ∧
      blePeerAdd cfg4 (blePeerStart cfg4) addrX (bytesAt nameAdv) 4 (-40) =
        some [{ zeroEntry cfg4 with ble_peer_name := [72, 105, 0, 0, 0, 0, 0, 0] },
              zeroEntry cfg4, zeroEntry cfg4, zeroEntry cfg4] :=
  ⟨⟨[], rfl⟩, rfl, by decide, by decide, by decide, by decide⟩

/-- C6 (amended): with the filter enabled, for a table reached from the
start-up table by decay ticks and `blePeerAdd` calls whose name copy stays
inside the name buffer, in which no occupied slot has address `b`, and a
payload that does not carry the recognised vendor identifier and whose name
copy stays inside the name buffer, the table `blePeerAdd` returns is the input
table or differs from it only in the `ble_peer_name` of one unoccupied slot,
and has no occupied slot with address `b`.  This holds for the tables that
are `Reachable`, where the call returns whenever its name copy fits, and for
the tables that the routine on the bytes of the table reaches by events that
fit the name buffer (`fitsName`), where a call that fits returns. -/
theorem filter_rejection_new_peer (cfg : Config) (b : Addr)
    (data : Nat → Nat) (len : Nat) (rssi : Int) (hfilter : cfg.BLE_PEER_SCAN_ALL = false)
    (hvendor : ∀ off l,
      cfg.bleGapAdvBlockFind data len cfg.BLE_GAP_AD_TYPE_MANUFACTURER_SPECIFIC_DATA =
        some (off, l) → ble_ides_company_id data off ≠ cfg.BLE_COMPANY_ID_IDES) :
    (∀ (tbl : List ble_peer_entry), Reachable cfg tbl →
      (∀ p ∈ tbl, p.ble_used ≠ 0 → p.ble_peer_addr ≠ b) →
      (∀ t1, blePeerAdd cfg tbl b data len rssi = some t1 →
        (t1 = tbl ∨ ∃ i p nm, tbl[i]? = some p ∧ p.ble_used = 0 ∧
          t1 = tbl.set i { p with ble_peer_name := nm }) ∧
        (∀ p ∈ t1, p.ble_used ≠ 0 → p.ble_peer_addr ≠ b)) ∧
      (nameInBounds cfg data len = true →
        ∃ t1, blePeerAdd cfg tbl b data len rssi = some t1)) ∧
      (∀ (ops : List Op) (tbl : List ble_peer_entry), (∀ op ∈ ops, fitsName cfg op) →
        runRaw cfg ops (blePeerStart cfg) = some tbl →
        (∀ p ∈ tbl, p.ble_used ≠ 0 → p.ble_peer_addr ≠ b) →
        fitsName cfg (Op.add b data len rssi) →
        ∃ t1, blePeerAddRaw cfg tbl b data len rssi = some t1 ∧
          (t1 = tbl ∨ ∃ i p nm, tbl[i]? = some p ∧ p.ble_used = 0 ∧
            t1 = tbl.set i { p with ble_peer_name := nm }) ∧
          (∀ p ∈ t1, p.ble_used ≠ 0 → p.ble_peer_addr ≠ b)) := by
  have hmain : ∀ (tbl : List ble_peer_entry), Reachable cfg tbl →
      (∀ p ∈ tbl, p.ble_used ≠ 0 → p.ble_peer_addr ≠ b) →
      ∀ t1, blePeerAdd cfg tbl b data len rssi = some t1 →
        (t1 = tbl ∨ ∃ i p nm, tbl[i]? = some p ∧ p.ble_used = 0 ∧
          t1 = tbl.set i { p with ble_peer_name := nm }) ∧
        (∀ p ∈ t1, p.ble_used ≠ 0 → p.ble_peer_addr ≠ b) := by
    intro tbl hreach hb t1 h
    rcases blePeerAdd_some cfg tbl t1 b data len rssi h with
      h1 | ⟨i, p, p1, hscan, hp, hp1, h2⟩
    · exact ⟨Or.inl h1, by rw [h1]; exact hb⟩
    · have hmem : p ∈ tbl := List.mem_iff_getElem?.2 ⟨i, hp⟩
      have hfree : p.ble_used = 0 := by
        rcases scanLoop_target b tbl 0 none i hscan with h3 | ⟨k, q, hk, hq, hq2⟩
        · cases h3
        · have hik : k = i := by omega
          subst hik
          rw [hp] at hq
          cases hq
          rcases hq2 with h4 | h4
          · exact h4
          · by_contra hne
            exact hb p hmem hne h4
      have hbadge : p1.ble_isbadge = FALSE := by
        rw [(nameStep_used cfg p p1 data len hp1).2.2.2.2.1]
        exact (reachable_freeShape cfg tbl hreach p hmem hfree).2.2.2.2
      have hgame : gameStep cfg p1 data len = p1 :=
        gameStep_non_vendor cfg p1 data len hvendor hbadge
      have hrej : filterRejects cfg p1 = true := by
        simp [filterRejects, hfilter, hbadge]
      rw [hgame] at h2
      rcases h2 with h2 | h2
      · have hset : t1 = tbl.set i { p with ble_peer_name := p1.ble_peer_name } := by
          rw [h2.2]
          exact congrArg _ (nameStep_fields cfg p p1 data len hp1)
        refine ⟨Or.inr ⟨i, p, p1.ble_peer_name, hp, hfree, hset⟩, ?_⟩
        intro q hq hu
        rw [hset] at hq
        rcases List.mem_or_eq_of_mem_set hq with h3 | h3
        · exact hb q h3 hu
        · rw [h3] at hu
          exact absurd hfree hu
      · rw [hrej] at h2
        cases h2.1
  refine ⟨fun tbl hreach hb =>
    ⟨hmain tbl hreach hb, blePeerAdd_isSome cfg tbl b data len rssi⟩, ?_⟩
  intro ops tbl hfit hrun hb hcall
  obtain ⟨hreach, hwf⟩ := reachable_of_runRaw cfg ops tbl hfit hrun
  obtain ⟨t1, ht1⟩ := blePeerAdd_isSome cfg tbl b data len rssi hcall.1
  exact ⟨t1, blePeerAddRaw_eq_blePeerAdd cfg tbl t1 b data len rssi hwf ht1,
    hmain tbl hreach hb t1 ht1⟩

/-- An instance of the amended filter-rejection theorem: the name-only
advertisement for `addrY` against `agedTable4`, which both models of the
admission routine reach by an accepted badge and two ticks, changes the name
of the unoccupied slot 1 and nothing else. -/
theorem filter_rejection_new_peer_witness :
    (blePeerAdd cfg4 agedTable4 addrY (bytesAt nameAdv) 4 (-40) =
        some [agedEntry, { zeroEntry cfg4 with ble_peer_name := [72, 105, 0, 0, 0, 0, 0, 0] },
              zeroEntry cfg4, zeroEntry cfg4]) ∧
      ((([agedEntry, { zeroEntry cfg4 with ble_peer_name := [72, 105, 0, 0, 0, 0, 0, 0] },
              zeroEntry cfg4, zeroEntry cfg4] = agedTable4) ∨
          ∃ i p nm, agedTable4[i]? = some p ∧ p.ble_used = 0 ∧
            [agedEntry, { zeroEntry cfg4 with ble_peer_name := [72, 105, 0, 0, 0, 0, 0, 0] },
              zeroEntry cfg4, zeroEntry cfg4] = agedTable4.set i { p with ble_peer_name := nm }) ∧
        ∀ p ∈ [agedEntry, { zeroEntry cfg4 with ble_peer_name := [72, 105, 0, 0, 0, 0, 0, 0] },
              zeroEntry cfg4, zeroEntry cfg4], p.ble_used ≠ 0 → p.ble_peer_addr ≠ addrY) ∧
      runRaw cfg4 [Op.add addrX (bytesAt badgeAdv) 6 (-40), Op.tick, Op.tick]
          (blePeerStart cfg4) = some agedTable4 ∧
      (∃ t1, blePeerAddRaw cfg4 agedTable4 addrY (bytesAt nameAdv) 4 (-40) = some t1 ∧
        (t1 = agedTable4 ∨ ∃ i p nm, agedTable4[i]? = some p ∧ p.ble_used = 0 ∧
          t1 = agedTable4.set i { p with ble_peer_name := nm }) ∧
        (∀ p ∈ t1, p.ble_used ≠ 0 → p.ble_peer_addr ≠ addrY)) :=
  have hvendor : ∀ off l,
      cfg4.bleGapAdvBlockFind (bytesAt nameAdv) 4
          cfg4.BLE_GAP_AD_TYPE_MANUFACTURER_SPECIFIC_DATA = some (off, l) →
        ble_ides_company_id (bytesAt nameAdv) off ≠ cfg4.BLE_COMPANY_ID_IDES := by
    intro off l h
    have h0 : cfg4.bleGapAdvBlockFind (bytesAt nameAdv) 4
        cfg4.BLE_GAP_AD_TYPE_MANUFACTURER_SPECIFIC_DATA = none := by decide
    rw [h0] at h
    cases h
  have hfit : ∀ op ∈ [Op.add addrX (bytesAt badgeAdv) 6 (-40), Op.tick, Op.tick],
      fitsName cfg4 op := by
    intro op hop
    simp only [List.mem_cons, List.mem_singleton, List.not_mem_nil, or_false] at hop
    rcases hop with h | h | h
    · rw [h]
      exact ⟨by decide, by decide, by decide⟩
    · rw [h]
      trivial
    · rw [h]
      trivial
  ⟨by decide,
    ((filter_rejection_new_peer cfg4 addrY (bytesAt nameAdv) 4 (-40) rfl hvendor).1 agedTable4
      ⟨[Op.add addrX (bytesAt badgeAdv) 6 (-40), Op.tick, Op.tick], by decide⟩
      (by decide)).1 _ (by decide),
    by decide,
    (filter_rejection_new_peer cfg4 addrY (bytesAt nameAdv) 4 (-40) rfl hvendor).2
      [Op.add addrX (bytesAt badgeAdv) 6 (-40), Op.tick, Op.tick] agedTable4 hfit (by decide)
      (by decide) ⟨by decide, by decide, by decide⟩⟩


/-! ## Uniqueness of addresses that are not all-zero -/

theorem scanLoop_match_or_absent (a : Addr) (tbl : List ble_peer_entry) (i0 : Nat)
    (ff : Option Nat) (i : Nat) (h : scanLoop a tbl i0 ff = some i) :
    (∃ k p, i = i0 + k ∧ tbl[k]? = some p ∧ p.ble_peer_addr = a) ∨
      (∀ q ∈ tbl, q.ble_peer_addr ≠ a) := by
  induction tbl generalizing i0 ff with
  | nil => exact Or.inr (fun q hq => absurd hq (List.not_mem_nil q))
  | cons p rest ih =>
    simp only [scanLoop] at h
    by_cases h2 : a = p.ble_peer_addr
    · rw [if_pos h2] at h
      exact Or.inl ⟨0, p, by simpa using (Option.some.inj h).symm, by simp, h2.symm⟩
    · rw [if_neg h2] at h
      rcases ih (i0 + 1) _ h with ⟨k, q, hk, hq, hq2⟩ | h3
      · exact Or.inl ⟨k + 1, q, by omega, by simpa using hq, hq2⟩
      · right
        intro q hq
        rcases List.mem_cons.1 hq with h4 | h4
        · rw [h4]
          exact fun h5 => h2 h5.symm
        · exact h3 q h4

theorem decayEntry_occupied (cfg : Config) (p : ble_peer_entry)
    (h : (decayEntry cfg p).ble_used ≠ 0) :
    p.ble_used ≠ 0 ∧ (decayEntry cfg p).ble_peer_addr = p.ble_peer_addr := by
  unfold decayEntry at h ⊢
  split
  · next hu =>
    rw [if_pos hu] at h
    exact absurd hu h
  · next hu =>
    rw [if_neg hu] at h
    simp only at h ⊢
    split
    · next h0 =>
      rw [if_pos h0] at h
      exact absurd rfl h
    · exact ⟨hu, rfl⟩

theorem step_uniqueNonzero (cfg : Config) (s s1 : List ble_peer_entry) (op : Op)
    (hs : ∀ p ∈ s, freeShape cfg p) (hu : uniqueNonzero s)
    (hstep : step cfg s op = some s1) : uniqueNonzero s1 := by
  cases op with
  | add a d l r =>
    rcases blePeerAdd_some cfg s s1 a d l r hstep with
      h1 | ⟨i0, p0, p1, hscan, hp0, hp1, h2 | h2⟩
    · rw [h1]; exact hu
    · -- rejected call: used and address of the target are kept
      obtain ⟨g1, g2, _, _, _⟩ := gameStep_used cfg p1 d l
      obtain ⟨n1, n2, _, _, _, _⟩ := nameStep_used cfg p0 p1 d l hp1
      have hlt : i0 < s.length := (List.getElem?_eq_some.1 hp0).1
      have key : ∀ (i : Nat) (p : ble_peer_entry), s1[i]? = some p → ∃ p', s[i]? = some p' ∧
          p'.ble_used = p.ble_used ∧ p'.ble_peer_addr = p.ble_peer_addr := by
        intro i p hi
        rw [h2.2, List.getElem?_set] at hi
        by_cases hc : i0 = i
        · subst hc
          simp only [hlt, if_true] at hi
          cases hi
          exact ⟨p0, hp0, by rw [g1, n1], by rw [g2, n2]⟩
        · rw [if_neg hc] at hi
          exact ⟨p, hi, rfl, rfl⟩
      intro i j p q hi hj hpu hqu hpq hpz
      obtain ⟨p', hi', e1, e2⟩ := key i p hi
      obtain ⟨q', hj', e3, e4⟩ := key j q hj
      exact hu i j p' q' hi' hj' (by rw [e1]; exact hpu) (by rw [e3]; exact hqu)
        (by rw [e2, e4]; exact hpq) (by rw [e2]; exact hpz)
    · -- accepted call: the target holds the address of the call afterwards
      have hlt : i0 < s.length := (List.getElem?_eq_some.1 hp0).1
      have hmem0 : p0 ∈ s := List.mem_iff_getElem?.2 ⟨i0, hp0⟩
      have other : ∀ j q, j ≠ i0 → s[j]? = some q → q.ble_used ≠ 0 → q.ble_peer_addr = a →
          a ≠ zeroAddr → False := by
        intro j q hj hq hqu hqa haz
        rcases scanLoop_match_or_absent a s 0 none i0 hscan with ⟨k, p, hk, hp, hpa⟩ | h3
        · have hk0 : k = i0 := by omega
          subst hk0
          rw [hp0] at hp
          cases hp
          have hp0u : p0.ble_used ≠ 0 := by
            intro h0
            exact haz (hpa ▸ (hs p0 hmem0 h0).1)
          exact hj (hu j k q p0 hq hp0 hqu hp0u (by rw [hqa, hpa]) (by rw [hqa]; exact haz))
        · exact h3 q (List.mem_iff_getElem?.2 ⟨j, hq⟩) hqa
      intro i j p q hi hj hpu hqu hpq hpz
      rw [h2.2, List.getElem?_set] at hi hj
      by_cases hci : i0 = i
      · by_cases hcj : i0 = j
        · omega
        · exfalso
          subst hci
          simp only [hlt, if_true] at hi
          rw [if_neg hcj] at hj
          cases hi
          simp only [acceptEntry] at hpq hpz
          exact other j q (fun h => hcj h.symm) hj hqu hpq.symm hpz
      · by_cases hcj : i0 = j
        · exfalso
          subst hcj
          simp only [hlt, if_true] at hj
          rw [if_neg hci] at hi
          cases hj
          simp only [acceptEntry] at hpq
          exact other i p (fun h => hci h.symm) hi hpu hpq (by rw [← hpq]; exact hpz)
        · rw [if_neg hci] at hi
          rw [if_neg hcj] at hj
          exact hu i j p q hi hj hpu hqu hpq hpz
  | tick =>
    simp only [step] at hstep
    cases hstep
    intro i j p q hi hj hpu hqu hpq hpz
    simp only [peerThread, List.getElem?_map, Option.map_eq_some'] at hi hj
    obtain ⟨p', hi', rfl⟩ := hi
    obtain ⟨q', hj', rfl⟩ := hj
    obtain ⟨e1, e2⟩ := decayEntry_occupied cfg p' hpu
    obtain ⟨e3, e4⟩ := decayEntry_occupied cfg q' hqu
    exact hu i j p' q' hi' hj' e1 e3 (by rw [← e2, ← e4]; exact hpq) (by rw [← e2]; exact hpz)

theorem reachable_uniqueNonzero (cfg : Config) (tbl : List ble_peer_entry)
    (h : Reachable cfg tbl) : uniqueNonzero tbl := by
  obtain ⟨ops, hops⟩ := h
  have hboth := run_preserves cfg
    (fun s => (∀ p ∈ s, freeShape cfg p) ∧ uniqueNonzero s) (fun _ => True)
    (fun s op s1 _ hs hstep =>
      ⟨step_freeShape cfg s s1 op hs.1 hstep, step_uniqueNonzero cfg s s1 op hs.1 hs.2 hstep⟩)
    ops (blePeerStart cfg) tbl (fun _ _ => trivial) ?_ hops
  · exact hboth.2
  · constructor
    · intro p hp
      simp only [blePeerStart, List.mem_replicate] at hp
      rw [hp.2]
      intro _
      exact ⟨rfl, rfl, rfl, rfl, rfl⟩
    · intro i j p q hi _ hpu _ _ _
      have hp : p ∈ blePeerStart cfg := List.mem_iff_getElem?.2 ⟨i, hi⟩
      simp only [blePeerStart, List.mem_replicate] at hp
      rw [hp.2] at hpu
      exact absurd rfl hpu


/-! ## The admission routine on a selected target -/

theorem scanLoop_in_range (a : Addr) (tbl : List ble_peer_entry) (i : Nat)
    (h : scanLoop a tbl 0 none = some i) : ∃ p, tbl[i]? = some p := by
  rcases scanLoop_target a tbl 0 none i h with h1 | ⟨k, p, hk, hp, _⟩
  · cases h1
  · have hik : k = i := by omega
    subst hik
    exact ⟨p, hp⟩

theorem blePeerAdd_eq (cfg : Config) (tbl : List ble_peer_entry) (a : Addr)
    (data : Nat → Nat) (len : Nat) (rssi : Int) (i : Nat) (p p1 : ble_peer_entry)
    (hscan : scanLoop a tbl 0 none = some i) (hp : tbl[i]? = some p)
    (hname : nameStep cfg p data len = some p1) :
    blePeerAdd cfg tbl a data len rssi =
      some (tbl.set i (if filterRejects cfg (gameStep cfg p1 data len) = true
        then gameStep cfg p1 data len
        else acceptEntry cfg (gameStep cfg p1 data len) a rssi)) := by
  unfold blePeerAdd
  rw [hscan]
  simp only [hp, hname]
  split <;> rfl

theorem getElem?_set_other (tbl : List ble_peer_entry) (i j : Nat) (q : ble_peer_entry)
    (h : j ≠ i) : (tbl.set i q)[j]? = tbl[j]? := by
  rw [List.getElem?_set, if_neg (fun hc => h hc.symm)]

theorem getElem?_set_same (tbl : List ble_peer_entry) (i : Nat) (p q : ble_peer_entry)
    (hp : tbl[i]? = some p) : (tbl.set i q)[i]? = some q := by
  have hlt : i < tbl.length := (List.getElem?_eq_some.1 hp).1
  rw [List.getElem?_set]
  simp [hlt]

/-- The countdown invariant, for runs that stay inside the name buffer: with a
time-to-live between 1 and 255, every slot of a table that is `Reachable` has
`ble_ttl` at most `BLE_PEER_LIST_TTL` (and at least 0, being a natural
number), a slot with `ble_ttl = 0` is unoccupied, and an occupied slot has
`ble_ttl` at least 1, so the 8-bit decrement of the decay tick yields
`ble_ttl - 1` without wrapping. -/
theorem ttl_invariant (cfg : Config) (hT0 : 0 < cfg.BLE_PEER_LIST_TTL)
    (hT : cfg.BLE_PEER_LIST_TTL < 256) (tbl : List ble_peer_entry)
    (h : Reachable cfg tbl) :
    ∀ p ∈ tbl, 0 ≤ p.ble_ttl ∧ p.ble_ttl ≤ cfg.BLE_PEER_LIST_TTL ∧
      (p.ble_ttl = 0 → p.ble_used = 0) ∧ (p.ble_used ≠ 0 → 1 ≤ p.ble_ttl) ∧
      (p.ble_used ≠ 0 → (p.ble_ttl + 255) % 256 + 1 = p.ble_ttl) := by
  intro p hp
  have hfree := reachable_freeShape cfg tbl h p hp
  have hrange := reachable_ttlInRange cfg hT0 hT tbl h p hp
  refine ⟨Nat.zero_le _, ?_, ?_, ?_, ?_⟩
  · by_cases hu : p.ble_used = 0
    · rw [(hfree hu).2.2.2.1]
      exact Nat.zero_le _
    · exact (hrange hu).2
  · intro h0
    by_contra hu
    have := (hrange hu).1
    omega
  · intro hu
    exact (hrange hu).1
  · intro hu
    obtain ⟨h1, h2⟩ := hrange hu
    omega

/-- An instance of the countdown invariant: the table `agedTable4` of `cfg4`. -/
theorem ttl_invariant_witness :
    0 < cfg4.BLE_PEER_LIST_TTL ∧ cfg4.BLE_PEER_LIST_TTL < 256 ∧
      (0 ≤ agedEntry.ble_ttl ∧ agedEntry.ble_ttl ≤ cfg4.BLE_PEER_LIST_TTL ∧
        (agedEntry.ble_ttl = 0 → agedEntry.ble_used = 0) ∧
        (agedEntry.ble_used ≠ 0 → 1 ≤ agedEntry.ble_ttl) ∧
        (agedEntry.ble_used ≠ 0 → (agedEntry.ble_ttl + 255) % 256 + 1 = agedEntry.ble_ttl)) :=
  ⟨by decide, by decide,
    ttl_invariant cfg4 (by decide) (by decide) agedTable4
      ⟨[Op.add addrX (bytesAt badgeAdv) 6 (-40), Op.tick, Op.tick], by decide⟩
      agedEntry (by decide)⟩

/-! ## One decay tick -/

/-- C19: decay tick semantics: for every table whose `ble_ttl` fields are
bytes, one tick leaves an unoccupied slot unchanged, decreases the `ble_ttl`
of an occupied slot with `ble_ttl > 1` by exactly 1 keeping its other fields,
and turns an occupied slot with `ble_ttl = 1` into the all-zero record. -/
theorem decay_tick_semantics (cfg : Config) (tbl : List ble_peer_entry) (i : Nat)
    (p : ble_peer_entry) (hp : tbl[i]? = some p) (hbyte : p.ble_ttl < 256) :
    (p.ble_used = 0 → (peerThread cfg tbl)[i]? = some p) ∧
      (p.ble_used ≠ 0 → 1 < p.ble_ttl →
        (peerThread cfg tbl)[i]? = some { p with ble_ttl := p.ble_ttl - 1 }) ∧
      (p.ble_used ≠ 0 → p.ble_ttl = 1 → (peerThread cfg tbl)[i]? = some (zeroEntry cfg)) := by
  have hget : (peerThread cfg tbl)[i]? = some (decayEntry cfg p) := by
    simp only [peerThread, List.getElem?_map, hp, Option.map_some']
  rw [hget]
  refine ⟨?_, ?_, ?_⟩
  · intro hu
    simp [decayEntry, hu]
  · intro hu h1
    have h3 : (p.ble_ttl + 255) % 256 = p.ble_ttl - 1 := by omega
    have h4 : p.ble_ttl - 1 ≠ 0 := by omega
    simp [decayEntry, hu, h3, h4]
  · intro hu h1
    simp [decayEntry, hu, h1]

/-- An instance of the decay tick semantics on `fullTable4` (ttl 3) and on
`agedTable4` (slot 0 with ttl 1, slot 1 unoccupied). -/
theorem decay_tick_semantics_witness :
    (peerThread cfg4 fullTable4)[0]? = some { sampleEntry 1 with ble_ttl := 3 - 1 } ∧
      (peerThread cfg4 agedTable4)[0]? = some (zeroEntry cfg4) ∧
      (peerThread cfg4 agedTable4)[1]? = some (zeroEntry cfg4) :=
  ⟨(decay_tick_semantics cfg4 fullTable4 0 (sampleEntry 1) (by decide) (by decide)).2.1
      (by decide) (by decide),
    (decay_tick_semantics cfg4 agedTable4 0 agedEntry (by decide) (by decide)).2.2
      (by decide) (by decide),
    (decay_tick_semantics cfg4 agedTable4 1 (zeroEntry cfg4) (by decide) (by decide)).1
      (by decide)⟩

/-! ## The life cycle of a slot -/

theorem reachable_free_zero (cfg : Config) (hall : cfg.BLE_PEER_SCAN_ALL = true)
    (tbl : List ble_peer_entry) (h : Reachable cfg tbl) :
    ∀ p ∈ tbl, p.ble_used = 0 → p = zeroEntry cfg := by
  obtain ⟨ops, hops⟩ := h
  refine run_preserves cfg (fun s => ∀ p ∈ s, p.ble_used = 0 → p = zeroEntry cfg)
    (fun _ => True) ?_ ops _ tbl (fun _ _ => trivial) ?_ hops
  · intro s op s1 _ hs hstep
    cases op with
    | add a d l r =>
      refine blePeerAdd_preserves cfg (fun p => p.ble_used = 0 → p = zeroEntry cfg)
        s s1 a d l r hstep hs ?_ ?_
      · intro p p1 _ _ hrej
        simp [filterRejects, hall] at hrej
      · intro p p1 _ _ hu
        simp [acceptEntry] at hu
    | tick =>
      simp only [step] at hstep
      cases hstep
      refine peerThread_preserves cfg (fun p => p.ble_used = 0 → p = zeroEntry cfg) s hs ?_
      intro p hp
      unfold decayEntry
      split
      · exact hp
      · next hu =>
        simp only
        split
        · intro _
          rfl
        · intro h0
          exact absurd h0 hu
  · intro p hp _
    simp only [blePeerStart, List.mem_replicate] at hp
    exact hp.2

/-- C12 (counterexample): in `cfg4` the table `residueTable4` is reached by
one call whose name block of 2 bytes fits the name buffer (a name-only
advertisement for `addrY`, rejected by the filter) and its unoccupied slot 0
is not all-zero: its name buffer holds the advertised bytes. -/
theorem unoccupied_slot_with_name :
    run cfg4 [Op.add addrY (bytesAt nameAdv) 4 (-40)] (blePeerStart cfg4) = some residueTable4 ∧
      (residueTable4.map (fun p => p.ble_used)) = [0, 0, 0, 0] ∧
      residueTable4[0]? ≠ some (zeroEntry cfg4) ∧
      (residueTable4.map (fun p => p.ble_peer_name))[0]? = some [72, 105, 0, 0, 0, 0, 0, 0] := by
  refine ⟨?_, ?_, ?_, ?_⟩ <;> decide

/-- C12 (amended): in every table reached from the start-up table by decay
ticks and `blePeerAdd` calls whose name copy stays inside the name buffer,
every slot with `ble_used = 0` has all fields other than `ble_peer_name` equal
to zero (address, game state, rssi, ttl, flag); when the admission filter is
compiled out the name is zero as well, so the slot is the all-zero record.
This holds for the tables that are `Reachable`, and for the tables that the
routine on the bytes of the table reaches by events that fit the name buffer
(`fitsName`). -/
theorem unoccupied_slots_zero_except_name (cfg : Config) :
    (∀ (tbl : List ble_peer_entry), Reachable cfg tbl →
      ∀ p ∈ tbl, p.ble_used = 0 →
        p = { zeroEntry cfg with ble_peer_name := p.ble_peer_name } ∧
        (cfg.BLE_PEER_SCAN_ALL = true → p = zeroEntry cfg)) ∧
      (∀ (ops : List Op) (tbl : List ble_peer_entry), (∀ op ∈ ops, fitsName cfg op) →
        runRaw cfg ops (blePeerStart cfg) = some tbl →
        ∀ p ∈ tbl, p.ble_used = 0 →
          p = { zeroEntry cfg with ble_peer_name := p.ble_peer_name } ∧
          (cfg.BLE_PEER_SCAN_ALL = true → p = zeroEntry cfg)) := by
  have hmain : ∀ (tbl : List ble_peer_entry), Reachable cfg tbl →
      ∀ p ∈ tbl, p.ble_used = 0 →
        p = { zeroEntry cfg with ble_peer_name := p.ble_peer_name } ∧
        (cfg.BLE_PEER_SCAN_ALL = true → p = zeroEntry cfg) := by
    intro tbl h p hp hu
    constructor
    · obtain ⟨f1, f2, f3, f4, f5⟩ := reachable_freeShape cfg tbl h p hp hu
      cases p
      simp only [zeroEntry] at *
      simp only [hu, f1, f2, f3, f4, f5]
    · intro hall
      exact reachable_free_zero cfg hall tbl h p hp hu
  refine ⟨hmain, ?_⟩
  intro ops tbl hfit hrun
  exact hmain tbl (reachable_of_runRaw cfg ops tbl hfit hrun).1

/-- An instance of the amended theorem on unoccupied slots: slot 0 of the
table `residueTable4`, which both models of the admission routine reach by
the rejected call with the 2-byte name of `nameAdv`. -/
theorem unoccupied_slots_zero_except_name_witness :
    runRaw cfg4 [Op.add addrY (bytesAt nameAdv) 4 (-40)] (blePeerStart cfg4) =
        some residueTable4 ∧
      ({ zeroEntry cfg4 with ble_peer_name := hiName } =
          { zeroEntry cfg4 with
            ble_peer_name := ({ zeroEntry cfg4 with ble_peer_name := hiName }).ble_peer_name } ∧
        (cfg4.BLE_PEER_SCAN_ALL = true →
          { zeroEntry cfg4 with ble_peer_name := hiName } = zeroEntry cfg4)) ∧
      ({ zeroEntry cfg4 with ble_peer_name := hiName } =
          { zeroEntry cfg4 with
            ble_peer_name := ({ zeroEntry cfg4 with ble_peer_name := hiName }).ble_peer_name } ∧
        (cfg4.BLE_PEER_SCAN_ALL = true →
          { zeroEntry cfg4 with ble_peer_name := hiName } = zeroEntry cfg4)) :=
  ⟨by decide,
    (unoccupied_slots_zero_except_name cfg4).1 residueTable4
      ⟨[Op.add addrY (bytesAt nameAdv) 4 (-40)], by decide⟩
      { zeroEntry cfg4 with ble_peer_name := hiName } (by decide) (by decide),
    (unoccupied_slots_zero_except_name cfg4).2 [Op.add addrY (bytesAt nameAdv) 4 (-40)]
      residueTable4
      (by
        intro op hop
        rw [List.mem_singleton] at hop
        rw [hop]
        exact ⟨by decide, by decide, by decide⟩)
      (by decide)
      { zeroEntry cfg4 with ble_peer_name := hiName } (by decide) (by decide)⟩


/-! ## The classification flag -/

theorem scanLoop_some_match (a : Addr) (tbl : List ble_peer_entry) (i0 : Nat)
    (ff : Option Nat) (h : ∃ q ∈ tbl, q.ble_peer_addr = a) :
    ∃ k p, scanLoop a tbl i0 ff = some (i0 + k) ∧ tbl[k]? = some p ∧ p.ble_peer_addr = a := by
  induction tbl generalizing i0 ff with
  | nil =>
    obtain ⟨q, hq, _⟩ := h
    exact absurd hq (List.not_mem_nil q)
  | cons x rest ih =>
    by_cases h2 : a = x.ble_peer_addr
    · exact ⟨0, x, by simp [scanLoop, h2], by simp, h2.symm⟩
    · have hrest : ∃ q ∈ rest, q.ble_peer_addr = a := by
        obtain ⟨q, hq, hqa⟩ := h
        rcases List.mem_cons.1 hq with h3 | h3
        · exact absurd (h3 ▸ hqa).symm h2
        · exact ⟨q, h3, hqa⟩
      obtain ⟨k, p, hk, hp, hpa⟩ := ih (i0 + 1)
        (if x.ble_used = 0 ∧ ff = none then some i0 else ff) hrest
      refine ⟨k + 1, p, ?_, by simpa using hp, hpa⟩
      simp only [scanLoop, if_neg h2]
      rw [hk]
      congr 1
      omega

theorem target_occupied_nonzero (cfg : Config) (tbl : List ble_peer_entry) (a : Addr)
    (j : Nat) (q : ble_peer_entry) (hreach : Reachable cfg tbl) (ha : a ≠ zeroAddr)
    (hq : tbl[j]? = some q) (hu : q.ble_used ≠ 0) (hqa : q.ble_peer_addr = a) :
    scanLoop a tbl 0 none = some j := by
  obtain ⟨k, p, hk, hp, hpa⟩ :=
    scanLoop_some_match a tbl 0 none ⟨q, List.mem_iff_getElem?.2 ⟨j, hq⟩, hqa⟩
  have hpu : p.ble_used ≠ 0 := by
    intro h0
    have := (reachable_freeShape cfg tbl hreach p (List.mem_iff_getElem?.2 ⟨k, hp⟩) h0).1
    exact ha (hpa ▸ this)
  have hkj : k = j :=
    reachable_uniqueNonzero cfg tbl hreach k j p q hp hq hpu hu (by rw [hpa, hqa])
      (by rw [hpa]; exact ha)
  rw [hk, hkj, Nat.zero_add]

/-- C14 (failing input): the table `zeroHeldTable4` of `cfg4` is reachable; its
slot 1 is occupied with the all-zero address and its slot 0 is unoccupied; the
scan of `blePeerAdd` for the all-zero address selects slot 0, not slot 1, and
the accepted call changes slot 0 and leaves slot 1 as it was. -/
theorem zero_address_duplicate_does_not_override :
    run cfg4 [Op.add addrX (bytesAt badgeAdv) 6 (-40), Op.tick,
        Op.add zeroAddr (bytesAt badgeAdv) 6 (-50), Op.tick, Op.tick] (blePeerStart cfg4)
        = some zeroHeldTable4 ∧
      keyFields zeroHeldTable4 =
        [(0, zeroAddr, 0, 0), (1, zeroAddr, -50, 1), (0, zeroAddr, 0, 0), (0, zeroAddr, 0, 0)] ∧
      scanLoop zeroAddr zeroHeldTable4 0 none = some 0 ∧
      (blePeerAdd cfg4 zeroHeldTable4 zeroAddr (bytesAt badgeAdv) 6 (-70)).map keyFields =
        some [(1, zeroAddr, -70, 3), (1, zeroAddr, -50, 1), (0, zeroAddr, 0, 0),
              (0, zeroAddr, 0, 0)] := by
  refine ⟨?_, ?_, ?_, ?_⟩ <;> decide

/-! ## The default name -/

/-- C15 (failing input): in `cfg4`, after the name-only advertisement for
`addrY` was rejected (table `residueTable4`), the badge advertisement for
`addrX` has no name block and takes the insert path into the unoccupied slot
0; the name of slot 0 afterwards is the rejected peer's name, not "<none>". -/
theorem insert_keeps_rejected_name :
    run cfg4 [Op.add addrY (bytesAt nameAdv) 4 (-40)] (blePeerStart cfg4) = some residueTable4 ∧
      cfg4.bleGapAdvBlockFind (bytesAt badgeAdv) 6
        cfg4.BLE_GAP_AD_TYPE_COMPLETE_LOCAL_NAME = none ∧
      scanLoop addrX residueTable4 0 none = some 0 ∧
      (residueTable4.map (fun p => p.ble_used))[0]? = some 0 ∧
      (blePeerAdd cfg4 residueTable4 addrX (bytesAt badgeAdv) 6 (-40)).map
          (fun t => (t.map (fun p => (p.ble_used, p.ble_peer_addr, p.ble_peer_name)))[0]?) =
        some (some (1, addrX, [72, 105, 0, 0, 0, 0, 0, 0])) ∧
      [72, 105, 0, 0, 0, 0, 0, 0] ≠ memcpy (List.replicate 8 0) noneName := by
  refine ⟨?_, ?_, ?_, ?_, ?_, ?_⟩ <;> decide

/-! ## The length of the name copy -/

/-- C16 (failing input): in `cfg4` (`BLE_PEER_NAME_MAX` = 8) the payload
`longNameAdv` has a name block with a value of 9 bytes; `blePeerAdd` selects
slot 0 of the start-up table and copies all 9 bytes (line 107), one more than
the name buffer holds: the value is not truncated and the call has no result
in the model. -/
theorem long_name_not_truncated :
    cfg4.bleGapAdvBlockFind (bytesAt longNameAdv) 11
        cfg4.BLE_GAP_AD_TYPE_COMPLETE_LOCAL_NAME = some (2, 9) ∧
      cfg4.BLE_PEER_NAME_MAX = 8 ∧
      scanLoop addrX (blePeerStart cfg4) 0 none = some 0 ∧
      nameStep cfg4 (zeroEntry cfg4) (bytesAt longNameAdv) 11 = none ∧
      blePeerAdd cfg4 (blePeerStart cfg4) addrX (bytesAt longNameAdv) 11 (-40) = none := by
  refine ⟨?_, ?_, ?_, ?_, ?_⟩ <;> decide


/-! ## Enumeration -/

theorem showLoop_length (gf : GameFields) (tbl : List ble_peer_entry) :
    (showLoop gf tbl).length = occupancy tbl := by
  induction tbl with
  | nil => rfl
  | cons p rest ih =>
    unfold occupancy at ih ⊢
    by_cases hu : p.ble_used = 0
    · simp [showLoop, hu, occupied, ih]
    · simp [showLoop, hu, occupied, ih]

theorem showLoop_free (gf : GameFields) (tbl : List ble_peer_entry)
    (h : ∀ p ∈ tbl, p.ble_used = 0) : showLoop gf tbl = [] := by
  induction tbl with
  | nil => rfl
  | cons p rest ih =>
    simp only [showLoop, h p (List.mem_cons_self _ _), if_true]
    exact ih (fun q hq => h q (List.mem_cons_of_mem _ hq))

theorem showLoop_suffix (gf : GameFields) (suf pre : List ble_peer_entry) :
    showLoop gf suf =
      ((List.range suf.length).filter (fun k => occupiedAt (pre ++ suf) (pre.length + k))).map
        (fun k => lineOf gf (pre ++ suf) (pre.length + k)) := by
  induction suf generalizing pre with
  | nil => rfl
  | cons p rest ih =>
    have hget : (pre ++ p :: rest)[pre.length]? = some p := by
      rw [List.getElem?_append_right (Nat.le_refl _)]
      simp
    have hdrop : (pre ++ p :: rest).drop (pre.length + 1) = rest := by
      rw [← List.drop_drop]
      simp
    have h0 : occupiedAt (pre ++ p :: rest) (pre.length + 0) = occupied p := by
      simp only [occupiedAt, Nat.add_zero, hget]
    have hl0 : lineOf gf (pre ++ p :: rest) (pre.length + 0) = showEntry gf p rest := by
      simp only [lineOf, Nat.add_zero, hget, hdrop]
    have hrest := ih (pre ++ [p])
    have happ : pre ++ [p] ++ rest = pre ++ p :: rest := by simp
    rw [happ] at hrest
    have hlen : (pre ++ [p]).length = pre.length + 1 := by simp
    rw [hlen] at hrest
    have hshift : ∀ k, pre.length + 1 + k = pre.length + (k + 1) := fun k => by omega
    simp only [hshift] at hrest
    rw [List.length_cons, List.range_succ_eq_map, List.filter_cons, h0, List.filter_map]
    by_cases hu : p.ble_used = 0
    · have hocc : occupied p = false := by simp [occupied, hu]
      rw [hocc, if_neg (by simp), List.map_map]
      simp only [showLoop, hu, if_true]
      exact hrest
    · have hocc : occupied p = true := by simp [occupied, hu]
      rw [hocc, if_pos rfl, List.map_cons, hl0, List.map_map]
      simp only [showLoop, hu, if_false]
      exact congrArg _ hrest

theorem showLoop_eq (gf : GameFields) (tbl : List ble_peer_entry) :
    showLoop gf tbl =
      ((List.range tbl.length).filter (occupiedAt tbl)).map (lineOf gf tbl) := by
  have h := showLoop_suffix gf tbl []
  simpa using h

theorem takeWhile_append_start (f : Nat → Bool) (a b : List Nat) :
    ∃ more, (a ++ b).takeWhile f = a.takeWhile f ++ more := by
  induction a with
  | nil => exact ⟨b.takeWhile f, rfl⟩
  | cons x rest ih =>
    obtain ⟨more, hm⟩ := ih
    by_cases hx : f x = true
    · exact ⟨more, by simp [List.takeWhile_cons, hx, hm]⟩
    · exact ⟨[], by simp [List.takeWhile_cons, hx]⟩

theorem takeWhile_append_of_stop (f : Nat → Bool) (a b : List Nat)
    (h : ∃ x ∈ a, f x = false) : (a ++ b).takeWhile f = a.takeWhile f := by
  induction a with
  | nil =>
    obtain ⟨x, hx, _⟩ := h
    cases hx
  | cons x rest ih =>
    by_cases hx : f x = true
    · obtain ⟨y, hy, hfy⟩ := h
      have hy2 : y ∈ rest := by
        rcases List.mem_cons.1 hy with h1 | h1
        · rw [h1, hx] at hfy
          cases hfy
        · exact h1
      simp [List.takeWhile_cons, hx, ih ⟨y, hy2, hfy⟩]
    · simp [List.takeWhile_cons, hx]

/-- C21: enumerate order and selection: for every table `blePeerShow` prints
the lines of the occupied slots and of no other slot, in ascending slot order
(as many lines as occupied slots), and leaves the table unchanged; the line of
a slot is the texts of its address, of its name, of its rssi and of its ttl,
then the text of the payload fields exactly when `ble_isbadge` is TRUE, then
the line end.  The name text is what `%s` reads from the name buffer on: it
starts with the bytes of the name buffer before its first zero byte, and ends
there when the name buffer holds a zero byte. -/
theorem blePeerShow_lines (gf : GameFields) (tbl : List ble_peer_entry) :
    (blePeerShow gf tbl).1 =
        ((List.range tbl.length).filter (occupiedAt tbl)).map (lineOf gf tbl) ∧
      (blePeerShow gf tbl).1.length = occupancy tbl ∧
      (blePeerShow gf tbl).2 = tbl ∧
      (∀ (i : Nat) (p : ble_peer_entry), tbl[i]? = some p →
        (occupiedAt tbl i = true ↔ p.ble_used ≠ 0) ∧
        (p.ble_isbadge = TRUE →
          lineOf gf tbl i = [showAddr p.ble_peer_addr,
            showName (nameMemory gf p (tbl.drop (i + 1))),
            showInt p.ble_rssi, showInt (p.ble_ttl : Int), showBadge gf p.ble_game_state,
            "\n"]) ∧
        (p.ble_isbadge ≠ TRUE →
          lineOf gf tbl i = [showAddr p.ble_peer_addr,
            showName (nameMemory gf p (tbl.drop (i + 1))),
            showInt p.ble_rssi, showInt (p.ble_ttl : Int), "\n"]) ∧
        (∃ more : List Nat, showName (nameMemory gf p (tbl.drop (i + 1))) =
          "[" ++ String.mk (((p.ble_peer_name.takeWhile (fun b => b ≠ 0)) ++ more).map
            Char.ofNat) ++ "] ") ∧
        (0 ∈ p.ble_peer_name →
          showName (nameMemory gf p (tbl.drop (i + 1))) = showName p.ble_peer_name)) := by
  refine ⟨showLoop_eq gf tbl, showLoop_length gf tbl, rfl, ?_⟩
  intro i p hp
  have hmem : nameMemory gf p (tbl.drop (i + 1)) =
      p.ble_peer_name ++ (entryTail p ++ tableBytes (tbl.drop (i + 1)) ++ gf.beyond) := by
    simp [nameMemory, slotMemory, List.append_assoc]
  refine ⟨?_, ?_, ?_, ?_, ?_⟩
  · simp [occupiedAt, hp, occupied]
  · intro h
    simp [lineOf, hp, showEntry, h]
  · intro h
    simp [lineOf, hp, showEntry, h]
  · obtain ⟨more, hm⟩ := takeWhile_append_start (fun b => decide (b ≠ 0)) p.ble_peer_name
      (entryTail p ++ tableBytes (tbl.drop (i + 1)) ++ gf.beyond)
    exact ⟨more, by rw [hmem, showName, hm]⟩
  · intro h0
    rw [hmem, showName, showName,
      takeWhile_append_of_stop (fun b => decide (b ≠ 0)) p.ble_peer_name _ ⟨0, h0, by simp⟩]

/-- An instance of the enumeration theorem: the one line printed for
`agedTable4` with the sample field readers, the name text being that of the
name buffer, which holds a zero byte; and the one line printed for a table
whose slot 0 is `fullNameEntry`: its name buffer holds no zero byte, and the
name text runs on over the first byte of the game state. -/
theorem blePeerShow_lines_witness :
    (blePeerShow gf4 agedTable4).1 =
        [["[06:05:04:03:02:01] ", "[<none>] ", "[-40] ", "[1] ",
          "Badge: X/Y: 7/9 SHIPTYPE: 0 XP: 0 RANK: 0 INCOMBAT: 0", "\n"]] ∧
      (blePeerShow gf4 agedTable4).1 =
        ((List.range agedTable4.length).filter (occupiedAt agedTable4)).map
          (lineOf gf4 agedTable4) ∧
      showName (nameMemory gf4 agedEntry (agedTable4.drop (0 + 1))) =
        showName agedEntry.ble_peer_name ∧
      (blePeerShow gf4 [fullNameEntry, zeroEntry cfg4]).1 =
        [["[06:05:04:03:02:01] ", "[ABCDEFGHx] ", "[-40] ", "[3] ", "\n"]] ∧
      (blePeerShow gf4 [fullNameEntry, zeroEntry cfg4]).1 =
        ((List.range 2).filter (occupiedAt [fullNameEntry, zeroEntry cfg4])).map
          (lineOf gf4 [fullNameEntry, zeroEntry cfg4]) :=
  ⟨by decide, (blePeerShow_lines gf4 agedTable4).1,
    ((blePeerShow_lines gf4 agedTable4).2.2.2 0 agedEntry (by decide)).2.2.2.2 (by decide),
    by decide, (blePeerShow_lines gf4 [fullNameEntry, zeroEntry cfg4]).1⟩

theorem hexByte_two_digits :
    ∀ b, b < 256 → (hexByte b).length = 2 ∧ (hexByte b).toList.count ':' = 0 ∧
      ∀ c ∈ (hexByte b).toList, c ∈ "0123456789abcdef".toList := by
  set_option maxRecDepth 100000 in decide

/-- C22 (counterexample): the address text printed for `addrX` is
"[06:05:04:03:02:01] ", which contains the character ':'. -/
theorem showAddr_has_colons :
    showAddr addrX = "[06:05:04:03:02:01] " ∧ ':' ∈ (showAddr addrX).toList := by
  constructor <;> decide

/-- C22 (amended): for every address whose six bytes are below 256, the text
`blePeerShow` prints for it is "[", the six octets from byte 5 down to byte 0
separated by ':', and "] "; each octet is exactly two lower-case hexadecimal
digits and contains no ':', so the text has length 20 and holds exactly the
five separating colons. -/
theorem showAddr_format (a : Addr)
    (h : a.b0 < 256 ∧ a.b1 < 256 ∧ a.b2 < 256 ∧ a.b3 < 256 ∧ a.b4 < 256 ∧ a.b5 < 256) :
    showAddr a =
        "[" ++ hexByte a.b5 ++ ":" ++ hexByte a.b4 ++ ":" ++ hexByte a.b3 ++ ":" ++
          hexByte a.b2 ++ ":" ++ hexByte a.b1 ++ ":" ++ hexByte a.b0 ++ "] " ∧
      (∀ b ∈ [a.b5, a.b4, a.b3, a.b2, a.b1, a.b0],
        (hexByte b).length = 2 ∧ ':' ∉ (hexByte b).toList ∧
          ∀ c ∈ (hexByte b).toList, c ∈ "0123456789abcdef".toList) ∧
      (showAddr a).length = 20 ∧ (showAddr a).toList.count ':' = 5 := by
  obtain ⟨h0, h1, h2, h3, h4, h5⟩ := h
  have e0 := hexByte_two_digits a.b0 h0
  have e1 := hexByte_two_digits a.b1 h1
  have e2 := hexByte_two_digits a.b2 h2
  have e3 := hexByte_two_digits a.b3 h3
  have e4 := hexByte_two_digits a.b4 h4
  have e5 := hexByte_two_digits a.b5 h5
  refine ⟨rfl, ?_, ?_, ?_⟩
  · intro b hb
    have hb256 : b < 256 := by
      simp only [List.mem_cons, List.mem_singleton, List.not_mem_nil, or_false] at hb
      rcases hb with rfl | rfl | rfl | rfl | rfl | rfl <;> assumption
    have e := hexByte_two_digits b hb256
    exact ⟨e.1, List.count_eq_zero.1 e.2.1, e.2.2⟩
  · simp only [showAddr, String.length_append, e0.1, e1.1, e2.1, e3.1, e4.1, e5.1]
    rfl
  · simp only [showAddr, String.toList, String.data_append, List.count_append]
    simp only [String.toList] at e0 e1 e2 e3 e4 e5
    rw [e0.2.1, e1.2.1, e2.2.1, e3.2.1, e4.2.1, e5.2.1]
    rfl

/-- An instance of the amended address format theorem: the address `addrX`. -/
theorem showAddr_format_witness :
    showAddr addrX =
        "[" ++ hexByte addrX.b5 ++ ":" ++ hexByte addrX.b4 ++ ":" ++ hexByte addrX.b3 ++ ":" ++
          hexByte addrX.b2 ++ ":" ++ hexByte addrX.b1 ++ ":" ++ hexByte addrX.b0 ++ "] " ∧
      (showAddr addrX).length = 20 ∧ (showAddr addrX).toList.count ':' = 5 :=
  ⟨(showAddr_format addrX (by decide)).1, (showAddr_format addrX (by decide)).2.2⟩

/-! ## Start-up -/

/-- C23: start-up state: the table left by `blePeerStart` has
`BLE_PEER_LIST_SIZE` slots, each the all-zero record, whatever table of that
size was overwritten; `blePeerFind` returns NULL on it for every address and
`blePeerShow` prints no line. -/
theorem blePeerStart_state (cfg : Config) :
    (blePeerStart cfg).length = cfg.BLE_PEER_LIST_SIZE ∧
      (∀ p ∈ blePeerStart cfg, p = zeroEntry cfg ∧ p.ble_used = 0) ∧
      (∀ old : List ble_peer_entry, old.length = cfg.BLE_PEER_LIST_SIZE →
        old.map (fun _ => zeroEntry cfg) = blePeerStart cfg) ∧
      (∀ a : Addr, (blePeerFind (blePeerStart cfg) a).1 = none) ∧
      (∀ gf : GameFields, (blePeerShow gf (blePeerStart cfg)).1 = []) := by
  have hall : ∀ p ∈ blePeerStart cfg, p = zeroEntry cfg ∧ p.ble_used = 0 := by
    intro p hp
    simp only [blePeerStart, List.mem_replicate] at hp
    rw [hp.2]
    exact ⟨rfl, rfl⟩
  refine ⟨by simp [blePeerStart], hall, ?_, ?_, ?_⟩
  · intro old hold
    rw [blePeerStart, ← hold]
    exact List.map_const' old (zeroEntry cfg)
  · intro a
    simp only [blePeerFind, findLoop_none_iff]
    intro p hp hc
    exact hc.1 (hall p hp).2
  · intro gf
    exact showLoop_free gf (blePeerStart cfg) (fun p hp => (hall p hp).2)


/-! ## Inserting into the first free slot -/

theorem scanLoop_no_match_some (a : Addr) (tbl : List ble_peer_entry) (i0 f : Nat)
    (h : ∀ q ∈ tbl, q.ble_peer_addr ≠ a) : scanLoop a tbl i0 (some f) = some f := by
  induction tbl generalizing i0 with
  | nil => rfl
  | cons x rest ih =>
    have h2 : a ≠ x.ble_peer_addr := fun hc => h x (List.mem_cons_self _ _) hc.symm
    simp only [scanLoop, if_neg h2]
    have h3 : (if x.ble_used = 0 ∧ some f = none then some i0 else some f) = some f := by
      simp
    rw [h3]
    exact ih (i0 + 1) (fun q hq => h q (List.mem_cons_of_mem _ hq))

theorem scanLoop_first_free (a : Addr) (tbl : List ble_peer_entry) (i0 k : Nat)
    (p : ble_peer_entry) (hk : tbl[k]? = some p) (hfree : p.ble_used = 0)
    (hbefore : ∀ j, j < k → ∀ q, tbl[j]? = some q → q.ble_used ≠ 0 ∧ q.ble_peer_addr ≠ a)
    (hafter : p.ble_peer_addr = a ∨
      ∀ j q, k < j → tbl[j]? = some q → q.ble_peer_addr ≠ a) :
    scanLoop a tbl i0 none = some (i0 + k) := by
  induction tbl generalizing i0 k with
  | nil => simp at hk
  | cons x rest ih =>
    cases k with
    | zero =>
      simp only [List.getElem?_cons_zero, Option.some.injEq] at hk
      subst hk
      by_cases h2 : a = x.ble_peer_addr
      · simp [scanLoop, h2]
      · simp only [scanLoop, if_neg h2, hfree, true_and, if_true]
        rcases hafter with h3 | h3
        · exact absurd h3.symm h2
        · rw [scanLoop_no_match_some a rest (i0 + 1) i0]
          · simp
          · intro q hq
            obtain ⟨j, hj⟩ := List.mem_iff_getElem?.1 hq
            exact h3 (j + 1) q (by omega) (by simpa using hj)
    | succ k =>
      obtain ⟨hx1, hx2⟩ := hbefore 0 (by omega) x (by simp)
      have h2 : a ≠ x.ble_peer_addr := fun hc => hx2 hc.symm
      simp only [scanLoop, if_neg h2, hx1, false_and, if_false]
      rw [ih (i0 + 1) k (by simpa using hk)
        (fun j hj q hq => hbefore (j + 1) (by omega) q (by simpa using hq))
        (hafter.imp id (fun h3 j q hj hq => h3 (j + 1) q (by omega) (by simpa using hq)))]
      congr 1
      omega

/-- Insertion into the first free slot, for runs that stay inside the name
buffer: for every table that is `Reachable`, in which no occupied slot has the
address `a` and whose lowest unoccupied slot is `k`, the scan of `blePeerAdd`
selects slot `k`; a call that stays inside the name buffer and is accepted
returns the table in which exactly slot `k` changed: it is occupied with
address `a`, every other slot is as before and the occupancy grew by one. -/
theorem insert_first_free (cfg : Config) (tbl : List ble_peer_entry) (a : Addr)
    (k : Nat) (p : ble_peer_entry) (hreach : Reachable cfg tbl)
    (hnew : ∀ q ∈ tbl, q.ble_used ≠ 0 → q.ble_peer_addr ≠ a)
    (hk : tbl[k]? = some p) (hfree : p.ble_used = 0)
    (hfirst : ∀ j, j < k → ∀ q, tbl[j]? = some q → q.ble_used ≠ 0) :
    scanLoop a tbl 0 none = some k ∧
      ∀ (data : Nat → Nat) (len : Nat) (rssi : Int) (p1 : ble_peer_entry),
        nameStep cfg p data len = some p1 →
        filterRejects cfg (gameStep cfg p1 data len) = false →
        ∃ t1 q, blePeerAdd cfg tbl a data len rssi = some t1 ∧ t1[k]? = some q ∧
          q.ble_used = 1 ∧ q.ble_peer_addr = a ∧ (∀ j, j ≠ k → t1[j]? = tbl[j]?) ∧
          occupancy t1 = occupancy tbl + 1 := by
  have hshape := reachable_freeShape cfg tbl hreach
  have hscan : scanLoop a tbl 0 none = some k := by
    have h := scanLoop_first_free a tbl 0 k p hk hfree
      (fun j hj q hq => ⟨hfirst j hj q hq,
        hnew q (List.mem_iff_getElem?.2 ⟨j, hq⟩) (hfirst j hj q hq)⟩)
      (by
        by_cases ha : a = zeroAddr
        · left
          rw [ha]
          exact (hshape p (List.mem_iff_getElem?.2 ⟨k, hk⟩) hfree).1
        · right
          intro j q _ hq hqa
          have hq_mem : q ∈ tbl := List.mem_iff_getElem?.2 ⟨j, hq⟩
          by_cases hu : q.ble_used = 0
          · exact ha (hqa ▸ (hshape q hq_mem hu).1)
          · exact hnew q hq_mem hu hqa)
    rw [h, Nat.zero_add]
  refine ⟨hscan, ?_⟩
  intro data len rssi p1 hname hpass
  refine ⟨tbl.set k (acceptEntry cfg (gameStep cfg p1 data len) a rssi),
    acceptEntry cfg (gameStep cfg p1 data len) a rssi, ?_, ?_, rfl, rfl, ?_, ?_⟩
  · rw [blePeerAdd_eq cfg tbl a data len rssi k p p1 hscan hk hname, hpass]
    simp
  · exact getElem?_set_same tbl k p _ hk
  · intro j hj
    exact getElem?_set_other tbl k j _ hj
  · refine (occupancy_set tbl k p _ hk).2 ?_ ?_
    · simp [occupied, acceptEntry]
    · simp [occupied, hfree]

/-- An instance of the first-free-slot lemma: the badge `addrY` is inserted
into slot 1 of `agedTable4`, its lowest unoccupied slot. -/
theorem insert_first_free_witness :
    scanLoop addrY agedTable4 0 none = some 1 ∧
      ∃ t1 q, blePeerAdd cfg4 agedTable4 addrY (bytesAt badgeAdv) 6 (-50) = some t1 ∧
        t1[1]? = some q ∧ q.ble_used = 1 ∧ q.ble_peer_addr = addrY ∧
        (∀ j, j ≠ 1 → t1[j]? = agedTable4[j]?) ∧ occupancy t1 = occupancy agedTable4 + 1 :=
  ⟨(insert_first_free cfg4 agedTable4 addrY 1 (zeroEntry cfg4)
      ⟨[Op.add addrX (bytesAt badgeAdv) 6 (-40), Op.tick, Op.tick], by decide⟩
      (by decide) (by decide) (by decide) (by decide)).1,
    (insert_first_free cfg4 agedTable4 addrY 1 (zeroEntry cfg4)
      ⟨[Op.add addrX (bytesAt badgeAdv) 6 (-40), Op.tick, Op.tick], by decide⟩
      (by decide) (by decide) (by decide) (by decide)).2 (bytesAt badgeAdv) 6 (-50)
      { zeroEntry cfg4 with ble_peer_name := noneName ++ [0] } (by decide) (by decide)⟩


/-! ## The name and the game state of the target -/

/-- C26: name overwrite precedes the filter: in `cfg4` (filter enabled) the
reachable table `agedTable4` holds `addrX` in the occupied slot 0, and the
advertisement `nameOtherAdv` for `addrX` (a name block and a manufacturer block
with a non-matching identifier) makes `blePeerAdd` change the name of that
slot while its `ble_ttl`, `ble_rssi` and `ble_used` stay as they were. -/
theorem rejected_advertisement_overwrites_name :
    ∃ (tbl : List ble_peer_entry) (a : Addr) (data : Nat → Nat) (len : Nat) (rssi : Int)
      (i : Nat) (p q : ble_peer_entry),
      cfg4.BLE_PEER_SCAN_ALL = false ∧ Reachable cfg4 tbl ∧ tbl[i]? = some p ∧
        p.ble_used ≠ 0 ∧ p.ble_peer_addr = a ∧
        (∃ off l, cfg4.bleGapAdvBlockFind data len
          cfg4.BLE_GAP_AD_TYPE_COMPLETE_LOCAL_NAME = some (off, l)) ∧
        (∃ off l, cfg4.bleGapAdvBlockFind data len
            cfg4.BLE_GAP_AD_TYPE_MANUFACTURER_SPECIFIC_DATA = some (off, l) ∧
          ble_ides_company_id data off ≠ cfg4.BLE_COMPANY_ID_IDES) ∧
        (∃ t1, blePeerAdd cfg4 tbl a data len rssi = some t1 ∧ t1[i]? = some q) ∧
        q.ble_peer_name ≠ p.ble_peer_name ∧ q.ble_ttl = p.ble_ttl ∧
        q.ble_rssi = p.ble_rssi ∧ q.ble_used = p.ble_used :=
  ⟨agedTable4, addrX, bytesAt nameOtherAdv, 8, -70, 0, agedEntry,
    { agedEntry with ble_peer_name := hiName, ble_isbadge := 0 },
    rfl, ⟨[Op.add addrX (bytesAt badgeAdv) 6 (-40), Op.tick, Op.tick], by decide⟩,
    by decide, by decide, by decide, ⟨2, 2, by decide⟩, ⟨6, 2, by decide, by decide⟩,
    ⟨[{ agedEntry with ble_peer_name := hiName, ble_isbadge := 0 }, zeroEntry cfg4,
        zeroEntry cfg4, zeroEntry cfg4], by decide, by decide⟩,
    by decide, rfl, rfl, rfl⟩

/-- C27: name replacement leaves no residue: for every table, every target
slot `i` whose name buffer has `BLE_PEER_NAME_MAX` bytes and every payload
whose name block has a value of `l ≤ BLE_PEER_NAME_MAX` bytes, `blePeerAdd`
returns a table in which the name of slot `i` is that value followed by
`BLE_PEER_NAME_MAX - l` zero bytes, whatever the slot held before. -/
theorem name_replacement (cfg : Config) (tbl : List ble_peer_entry) (a : Addr)
    (data : Nat → Nat) (len : Nat) (rssi : Int) (i : Nat) (p : ble_peer_entry) (off l : Nat)
    (hscan : scanLoop a tbl 0 none = some i) (hp : tbl[i]? = some p)
    (hfind : cfg.bleGapAdvBlockFind data len cfg.BLE_GAP_AD_TYPE_COMPLETE_LOCAL_NAME =
      some (off, l))
    (hl : l ≤ cfg.BLE_PEER_NAME_MAX)
    (hbuf : p.ble_peer_name.length = cfg.BLE_PEER_NAME_MAX) :
    ∃ t1 q, blePeerAdd cfg tbl a data len rssi = some t1 ∧ t1[i]? = some q ∧
      q.ble_peer_name =
        readBytes data off l ++ List.replicate (cfg.BLE_PEER_NAME_MAX - l) 0 := by
  have hname : nameStep cfg p data len =
      some { p with ble_peer_name := (readBytes data off l ++ zeroTail cfg l) } := by
    unfold nameStep zeroTail
    rw [hfind]
    simp only [hl, if_true]
    have h1 : memcpy p.ble_peer_name (List.replicate cfg.BLE_PEER_NAME_MAX 0) =
        List.replicate cfg.BLE_PEER_NAME_MAX 0 := by
      simp [memcpy, ← hbuf]
    have h2 : (readBytes data off l).length = l := by simp [readBytes]
    rw [h1]
    simp only [memcpy, h2, List.drop_replicate]
  refine ⟨_, _, blePeerAdd_eq cfg tbl a data len rssi i p _ hscan hp hname,
    getElem?_set_same tbl i p _ hp, ?_⟩
  split
  · rw [(gameStep_used cfg _ data len).2.2.2.2]
    rfl
  · simp only [acceptEntry]
    rw [(gameStep_used cfg _ data len).2.2.2.2]
    rfl

/-- An instance of the name replacement theorem: the name "Hi" replaces the
longer name "<none>" of slot 0 of `agedTable4`. -/
theorem name_replacement_witness :
    ∃ t1 q, blePeerAdd cfg4 agedTable4 addrX (bytesAt nameAdv) 4 (-70) = some t1 ∧
      t1[0]? = some q ∧
      q.ble_peer_name =
        readBytes (bytesAt nameAdv) 2 2 ++ List.replicate (cfg4.BLE_PEER_NAME_MAX - 2) 0 :=
  name_replacement cfg4 agedTable4 addrX (bytesAt nameAdv) 4 (-70) 0 agedEntry 2 2
    (by decide) (by decide) (by decide) (by decide) (by decide)

/-- C28 (failing input): in `cfg4` (game state of 4 bytes) the manufacturer
block of `shortVendorAdv` has a value of 2 bytes, the recognised identifier;
`blePeerAdd` copies 4 bytes from the start of that value, so the game state
of the target slot ends with the two bytes 9 and 1 that follow the block in
the payload (the header of the next block). -/
theorem game_state_copy_runs_past_block :
    cfg4.bleGapAdvBlockFind (bytesAt shortVendorAdv) 7
        cfg4.BLE_GAP_AD_TYPE_MANUFACTURER_SPECIFIC_DATA = some (2, 2) ∧
      cfg4.sizeof_ble_ides_game_state_t = 4 ∧
      readBytes (bytesAt shortVendorAdv) 2 2 = [0x34, 0x12] ∧
      readBytes (bytesAt shortVendorAdv) 4 2 = [9, 1] ∧
      (blePeerAdd cfg4 (blePeerStart cfg4) addrX (bytesAt shortVendorAdv) 7 (-40)).map
          (fun t => (t.map (fun p => (p.ble_used, p.ble_isbadge, p.ble_game_state)))[0]?) =
        some (some (1, TRUE, [0x34, 0x12, 9, 1])) := by
  refine ⟨?_, ?_, ?_, ?_, ?_⟩ <;> decide


/-! ## Invariants of reachable tables, as claimed -/

theorem countP_le_one_of_index_unique (f : ble_peer_entry → Bool) (tbl : List ble_peer_entry)
    (h : ∀ (i j : Nat) (p q : ble_peer_entry), tbl[i]? = some p → tbl[j]? = some q →
      f p = true → f q = true → i = j) : tbl.countP f ≤ 1 := by
  induction tbl with
  | nil => simp
  | cons x rest ih =>
    have hrest : rest.countP f ≤ 1 := by
      apply ih
      intro i j p q hi hj hp hq
      have := h (i + 1) (j + 1) p q (by simpa using hi) (by simpa using hj) hp hq
      omega
    by_cases hx : f x = true
    · have hzero : rest.countP f = 0 := by
        rw [List.countP_eq_zero]
        intro q hq hfq
        obtain ⟨j, hj⟩ := List.mem_iff_getElem?.1 hq
        have := h 0 (j + 1) x q (by simp) (by simpa using hj) hx hfq
        omega
      rw [List.countP_cons_of_pos _ _ hx, hzero]
    · rw [List.countP_cons_of_neg _ _ hx]
      exact hrest

/-- Uniqueness for non-zero addresses, for runs that stay inside the name
buffer: in every table that is `Reachable`, for every address `a` that is not
all-zero, two occupied slots holding `a` are the same slot, so at most one
occupied slot has `ble_peer_addr = a`. -/
theorem nonzero_address_unique (cfg : Config) (tbl : List ble_peer_entry) (a : Addr)
    (hreach : Reachable cfg tbl) (ha : a ≠ zeroAddr) :
    (∀ (i j : Nat) (p q : ble_peer_entry), tbl[i]? = some p → tbl[j]? = some q →
        p.ble_used ≠ 0 → q.ble_used ≠ 0 → p.ble_peer_addr = a → q.ble_peer_addr = a →
        i = j) ∧
      occupiedWith a tbl ≤ 1 := by
  have huniq := reachable_uniqueNonzero cfg tbl hreach
  have hidx : ∀ (i j : Nat) (p q : ble_peer_entry), tbl[i]? = some p → tbl[j]? = some q →
      p.ble_used ≠ 0 → q.ble_used ≠ 0 → p.ble_peer_addr = a → q.ble_peer_addr = a →
      i = j := by
    intro i j p q hi hj hpu hqu hpa hqa
    exact huniq i j p q hi hj hpu hqu (by rw [hpa, hqa]) (by rw [hpa]; exact ha)
  refine ⟨hidx, ?_⟩
  unfold occupiedWith
  apply countP_le_one_of_index_unique
  intro i j p q hi hj hp hq
  simp only [occupied, Bool.and_eq_true, decide_eq_true_eq] at hp hq
  exact hidx i j p q hi hj hp.1 hq.1 hp.2 hq.2

/-- An instance of the uniqueness lemma: the address `addrX` in the table
`agedTable4`. -/
theorem nonzero_address_unique_witness :
    addrX ≠ zeroAddr ∧ occupiedWith addrX agedTable4 ≤ 1 :=
  ⟨by decide,
    (nonzero_address_unique cfg4 agedTable4 addrX
      ⟨[Op.add addrX (bytesAt badgeAdv) 6 (-40), Op.tick, Op.tick], by decide⟩
      (by decide)).2⟩

/-- The shape of unoccupied slots, for runs that stay inside the name buffer:
for every configuration (filter enabled or compiled out) and every table that
is `Reachable`, a slot with `ble_used = 0` has the all-zero address,
`ble_rssi = 0`, `ble_ttl = 0`, `ble_isbadge = FALSE` and an all-zero game
state; the name can be non-zero: the table `residueTable4` of `cfg4` has an
unoccupied slot whose name buffer is not all-zero. -/
theorem unoccupied_slot_shape :
    (∀ (cfg : Config) (tbl : List ble_peer_entry), Reachable cfg tbl →
      ∀ p ∈ tbl, p.ble_used = 0 →
        p.ble_peer_addr = zeroAddr ∧ p.ble_rssi = 0 ∧ p.ble_ttl = 0 ∧
        p.ble_isbadge = FALSE ∧
        p.ble_game_state = List.replicate cfg.sizeof_ble_ides_game_state_t 0) ∧
      (∃ (tbl : List ble_peer_entry) (p : ble_peer_entry), Reachable cfg4 tbl ∧ p ∈ tbl ∧
        p.ble_used = 0 ∧ p.ble_peer_name ≠ List.replicate cfg4.BLE_PEER_NAME_MAX 0) := by
  constructor
  · intro cfg tbl hreach p hp hu
    obtain ⟨f1, f2, f3, f4, f5⟩ := reachable_freeShape cfg tbl hreach p hp hu
    exact ⟨f1, f3, f4, f5, f2⟩
  · exact ⟨residueTable4, { zeroEntry cfg4 with ble_peer_name := hiName },
      ⟨[Op.add addrY (bytesAt nameAdv) 4 (-40)], by decide⟩, by decide, by decide, by decide⟩

/-- An instance of the shape lemma: the unoccupied slot 1 of the table
`agedTable4`. -/
theorem unoccupied_slot_shape_witness :
    (zeroEntry cfg4).ble_peer_addr = zeroAddr ∧ (zeroEntry cfg4).ble_rssi = 0 ∧
      (zeroEntry cfg4).ble_ttl = 0 ∧ (zeroEntry cfg4).ble_isbadge = FALSE ∧
      (zeroEntry cfg4).ble_game_state = List.replicate cfg4.sizeof_ble_ides_game_state_t 0 :=
  unoccupied_slot_shape.1 cfg4 agedTable4
    ⟨[Op.add addrX (bytesAt badgeAdv) 6 (-40), Op.tick, Op.tick], by decide⟩
    (zeroEntry cfg4) (by decide) (by decide)


/-! ## Admission followed by lookup -/

theorem scanLoop_none_before (a : Addr) (tbl : List ble_peer_entry) (i0 : Nat)
    (ff : Option Nat) (i : Nat) (h : scanLoop a tbl i0 ff = some i)
    (hff : ∀ f, ff = some f → f < i0) :
    ∀ (j : Nat) (q : ble_peer_entry), tbl[j]? = some q → i0 + j < i → q.ble_peer_addr ≠ a := by
  induction tbl generalizing i0 ff with
  | nil =>
    intro j q hq
    simp at hq
  | cons x rest ih =>
    simp only [scanLoop] at h
    by_cases h2 : a = x.ble_peer_addr
    · rw [if_pos h2] at h
      intro j q _ hj
      have := Option.some.inj h
      omega
    · rw [if_neg h2] at h
      have hff1 : ∀ f, (if x.ble_used = 0 ∧ ff = none then some i0 else ff) = some f →
          f < i0 + 1 := by
        intro f hf
        split at hf
        · have := Option.some.inj hf
          omega
        · have := hff f hf
          omega
      have hrest := ih (i0 + 1) _ h hff1
      intro j q hq hj
      cases j with
      | zero =>
        simp only [List.getElem?_cons_zero, Option.some.injEq] at hq
        rw [← hq]
        exact fun hc => h2 hc.symm
      | succ j =>
        exact hrest j q (by simpa using hq) (by omega)

/-- C31: admit-then-lookup round trip: with a time-to-live that fits the 8-bit
`ble_ttl`, for every table (reachable or not), every address `a` and every
`blePeerAdd` call that selects the target slot `i`, stays inside the name
buffer and is not rejected by the filter, the call returns a table on which
`blePeerFind` for `a` returns exactly slot `i`, and that slot has
`ble_peer_addr = a`, `ble_rssi = rssi`, `ble_ttl = BLE_PEER_LIST_TTL` and
`ble_used = 1`. -/
theorem admit_then_lookup (cfg : Config) (tbl : List ble_peer_entry) (a : Addr)
    (data : Nat → Nat) (len : Nat) (rssi : Int) (i : Nat) (p p1 : ble_peer_entry)
    (hT : cfg.BLE_PEER_LIST_TTL < 256)
    (hscan : scanLoop a tbl 0 none = some i) (hp : tbl[i]? = some p)
    (hname : nameStep cfg p data len = some p1)
    (hpass : filterRejects cfg (gameStep cfg p1 data len) = false) :
    ∃ t1 q, blePeerAdd cfg tbl a data len rssi = some t1 ∧
      (blePeerFind t1 a).1 = some i ∧ t1[i]? = some q ∧
      q.ble_peer_addr = a ∧ q.ble_rssi = rssi ∧ q.ble_ttl = cfg.BLE_PEER_LIST_TTL ∧
      q.ble_used = 1 := by
  refine ⟨tbl.set i (acceptEntry cfg (gameStep cfg p1 data len) a rssi),
    acceptEntry cfg (gameStep cfg p1 data len) a rssi, ?_, ?_,
    getElem?_set_same tbl i p _ hp, rfl, rfl, ?_, rfl⟩
  · rw [blePeerAdd_eq cfg tbl a data len rssi i p p1 hscan hp hname, hpass]
    simp
  · simp only [blePeerFind, findLoop_some_iff]
    refine ⟨i, by omega, ⟨_, getElem?_set_same tbl i p _ hp, by simp [acceptEntry], rfl⟩, ?_⟩
    intro j hj q hq hc
    rw [getElem?_set_other tbl i j _ (by omega)] at hq
    exact scanLoop_none_before a tbl 0 none i hscan (fun f hf => by cases hf) j q hq
      (by omega) hc.2
  · simp only [acceptEntry]
    omega

/-- An instance of the round trip: the badge `addrY` is admitted into slot 1
of `agedTable4` and found there. -/
theorem admit_then_lookup_witness :
    ∃ t1 q, blePeerAdd cfg4 agedTable4 addrY (bytesAt badgeAdv) 6 (-50) = some t1 ∧
      (blePeerFind t1 addrY).1 = some 1 ∧ t1[1]? = some q ∧
      q.ble_peer_addr = addrY ∧ q.ble_rssi = -50 ∧ q.ble_ttl = cfg4.BLE_PEER_LIST_TTL ∧
      q.ble_used = 1 :=
  admit_then_lookup cfg4 agedTable4 addrY (bytesAt badgeAdv) 6 (-50) 1
    (zeroEntry cfg4) { zeroEntry cfg4 with ble_peer_name := noneName ++ [0] }
    (by decide) (by decide) (by decide) (by decide) (by decide)

/-! ## Advertisements without a manufacturer block, rejected advertisements -/

theorem gameStep_absent (cfg : Config) (p : ble_peer_entry) (data : Nat → Nat) (len : Nat)
    (h : cfg.bleGapAdvBlockFind data len cfg.BLE_GAP_AD_TYPE_MANUFACTURER_SPECIFIC_DATA = none) :
    gameStep cfg p data len = p := by
  unfold gameStep
  rw [h]

/-- Insertion under the filter, for runs and calls that stay inside the name
buffer: with the admission filter enabled, for every table that is
`Reachable` and every such `blePeerAdd` call that returns a table in which a
slot that was unoccupied is occupied, the payload contains a manufacturer
block whose identifier equals `BLE_COMPANY_ID_IDES`, and the newly occupied
slot has `ble_isbadge = TRUE` and as `ble_game_state` the
`sizeof(ble_ides_game_state_t)` bytes copied from the start of that block. -/
theorem only_badges_inserted (cfg : Config) (tbl t1 : List ble_peer_entry) (a : Addr)
    (data : Nat → Nat) (len : Nat) (rssi : Int) (i : Nat) (p q : ble_peer_entry)
    (hreach : Reachable cfg tbl) (hfilter : cfg.BLE_PEER_SCAN_ALL = false)
    (hadd : blePeerAdd cfg tbl a data len rssi = some t1)
    (hp : tbl[i]? = some p) (hfree : p.ble_used = 0)
    (hq : t1[i]? = some q) (hocc : q.ble_used ≠ 0) :
    ∃ off l,
      cfg.bleGapAdvBlockFind data len cfg.BLE_GAP_AD_TYPE_MANUFACTURER_SPECIFIC_DATA =
        some (off, l) ∧
      ble_ides_company_id data off = cfg.BLE_COMPANY_ID_IDES ∧
      q.ble_isbadge = TRUE ∧
      q.ble_game_state = readBytes data off cfg.sizeof_ble_ides_game_state_t := by
  obtain ⟨_, f2, _, _, f5⟩ :=
    reachable_freeShape cfg tbl hreach p (List.mem_iff_getElem?.2 ⟨i, hp⟩) hfree
  rcases blePeerAdd_some cfg tbl t1 a data len rssi hadd with
    h1 | ⟨i0, p0, p1, _, hp0, hp1, h2 | h2⟩
  · rw [h1, hp] at hq
    cases hq
    exact absurd hfree hocc
  · exfalso
    rw [h2.2] at hq
    by_cases hi : i = i0
    · subst hi
      rw [getElem?_set_same tbl i p0 _ hp0] at hq
      have hpp : p0 = p := Option.some.inj (hp0.symm.trans hp)
      rw [← Option.some.inj hq, (gameStep_used cfg p1 data len).1,
        (nameStep_used cfg p0 p1 data len hp1).1, hpp] at hocc
      exact hocc hfree
    · rw [getElem?_set_other tbl i0 i _ hi, hp] at hq
      cases hq
      exact hocc hfree
  · rw [h2.2] at hq
    by_cases hi : i = i0
    · subst hi
      rw [getElem?_set_same tbl i p0 _ hp0] at hq
      have hpp : p0 = p := Option.some.inj (hp0.symm.trans hp)
      subst hpp
      obtain ⟨_, _, _, _, n5, n6⟩ := nameStep_used cfg p0 p1 data len hp1
      have hq' := (Option.some.inj hq).symm
      have hpass := h2.1
      cases hfind : cfg.bleGapAdvBlockFind data len
          cfg.BLE_GAP_AD_TYPE_MANUFACTURER_SPECIFIC_DATA with
      | none =>
        exfalso
        rw [gameStep_absent cfg p1 data len hfind] at hpass
        simp [filterRejects, hfilter, n5, f5, FALSE] at hpass
      | some r =>
        obtain ⟨off, l⟩ := r
        by_cases hid : ble_ides_company_id data off = cfg.BLE_COMPANY_ID_IDES
        · refine ⟨off, l, rfl, hid, ?_, ?_⟩
          · rw [hq']
            simp [acceptEntry, gameStep, hfind, hid]
          · rw [hq']
            simp [acceptEntry, gameStep, hfind, hid, memcpy, readBytes, n6, f2]
        · exfalso
          simp [filterRejects, hfilter, gameStep, hfind, hid] at hpass
    · rw [getElem?_set_other tbl i0 i _ hi, hp] at hq
      cases hq
      exact absurd hfree hocc

/-- An instance of the insertion lemma: the badge `addrY` inserted into the
unoccupied slot 1 of `agedTable4`. -/
theorem only_badges_inserted_witness :
    ∃ off l,
      cfg4.bleGapAdvBlockFind (bytesAt badgeAdv) 6
        cfg4.BLE_GAP_AD_TYPE_MANUFACTURER_SPECIFIC_DATA = some (off, l) ∧
      ble_ides_company_id (bytesAt badgeAdv) off = cfg4.BLE_COMPANY_ID_IDES ∧
      ({ sampleEntry 1 with ble_peer_addr := addrY, ble_rssi := -50 }).ble_isbadge = TRUE ∧
      ({ sampleEntry 1 with ble_peer_addr := addrY, ble_rssi := -50 }).ble_game_state =
        readBytes (bytesAt badgeAdv) off cfg4.sizeof_ble_ides_game_state_t :=
  only_badges_inserted cfg4 agedTable4
    [agedEntry, { sampleEntry 1 with ble_peer_addr := addrY, ble_rssi := -50 },
      zeroEntry cfg4, zeroEntry cfg4]
    addrY (bytesAt badgeAdv) 6 (-50) 1 (zeroEntry cfg4)
    { sampleEntry 1 with ble_peer_addr := addrY, ble_rssi := -50 }
    ⟨[Op.add addrX (bytesAt badgeAdv) 6 (-40), Op.tick, Op.tick], by decide⟩ rfl
    (by decide) (by decide) (by decide) (by decide) (by decide)


/-! ## Repeating an admission -/

theorem scanLoop_first_match (a : Addr) (tbl : List ble_peer_entry) (i0 : Nat)
    (ff : Option Nat) (k : Nat) (p : ble_peer_entry) (hp : tbl[k]? = some p)
    (hpa : p.ble_peer_addr = a)
    (hmin : ∀ (j : Nat) (q : ble_peer_entry), j < k → tbl[j]? = some q → q.ble_peer_addr ≠ a) :
    scanLoop a tbl i0 ff = some (i0 + k) := by
  induction tbl generalizing i0 ff k with
  | nil => simp at hp
  | cons x rest ih =>
    cases k with
    | zero =>
      simp only [List.getElem?_cons_zero, Option.some.injEq] at hp
      subst hp
      simp [scanLoop, hpa]
    | succ k =>
      have h2 : a ≠ x.ble_peer_addr := fun hc => hmin 0 x (by omega) (by simp) hc.symm
      simp only [scanLoop, if_neg h2]
      rw [ih (i0 + 1) _ k (by simpa using hp)
        (fun j q hj hq => hmin (j + 1) q (by omega) (by simpa using hq))]
      congr 1
      omega

theorem scanLoop_set_same (a : Addr) (tbl : List ble_peer_entry) (i : Nat)
    (p q : ble_peer_entry) (i0 : Nat) (ff : Option Nat) (hp : tbl[i]? = some p)
    (hu : q.ble_used = p.ble_used) (ha : q.ble_peer_addr = p.ble_peer_addr) :
    scanLoop a (tbl.set i q) i0 ff = scanLoop a tbl i0 ff := by
  induction tbl generalizing i i0 ff with
  | nil => simp at hp
  | cons x rest ih =>
    cases i with
    | zero =>
      simp only [List.getElem?_cons_zero, Option.some.injEq] at hp
      subst hp
      simp only [List.set_cons_zero, scanLoop, hu, ha]
    | succ i =>
      simp only [List.set_cons_succ, scanLoop]
      rw [ih i (i0 + 1) _ (by simpa using hp)]

theorem scanLoop_after_accept (a : Addr) (tbl : List ble_peer_entry) (i : Nat)
    (p q : ble_peer_entry) (hscan : scanLoop a tbl 0 none = some i) (hp : tbl[i]? = some p)
    (hq : q.ble_peer_addr = a) : scanLoop a (tbl.set i q) 0 none = some i := by
  have h := scanLoop_first_match a (tbl.set i q) 0 none i q (getElem?_set_same tbl i p q hp) hq
    (by
      intro j r hj hr
      rw [getElem?_set_other tbl i j q (by omega)] at hr
      exact scanLoop_none_before a tbl 0 none i hscan (fun f hf => by cases hf) j r hr
        (by omega))
  rw [h, Nat.zero_add]

theorem set_unchanged (tbl : List ble_peer_entry) (i : Nat) (q : ble_peer_entry)
    (h : tbl[i]? = some q) : tbl.set i q = tbl := by
  apply List.ext_getElem?
  intro j
  by_cases hj : j = i
  · subst hj
    rw [getElem?_set_same tbl j q q h, h]
  · rw [getElem?_set_other tbl i j q hj]

theorem nameStep_of_name (cfg : Config) (p q p1 : ble_peer_entry) (data : Nat → Nat)
    (len : Nat) (h : nameStep cfg p data len = some p1)
    (hq : q.ble_peer_name = p.ble_peer_name) :
    nameStep cfg q data len = some { q with ble_peer_name := p1.ble_peer_name } := by
  unfold nameStep at h ⊢
  rw [hq]
  split at h
  · split at h
    · next hl =>
      cases h
      simp only [hl, if_true]
    · cases h
  · split at h
    · next h0 =>
      split at h
      · next h7 =>
        cases h
        simp only [h0, h7, if_true]
      · cases h
    · next h0 =>
      cases h
      simp only [h0, if_false]
      rw [← hq]

theorem memcpy_drop_name (name v : List Nat) (n : Nat) (hv : v.length ≤ n) :
    (memcpy (memcpy name (List.replicate n 0)) v).drop n = name.drop n := by
  unfold memcpy
  simp only [List.length_replicate]
  have h1 : List.drop v.length (List.replicate n 0 ++ List.drop n name) =
      List.drop v.length (List.replicate n 0) ++ List.drop n name :=
    List.drop_append_of_le_length (by simpa using hv)
  rw [h1, ← List.append_assoc]
  apply List.drop_left'
  simp only [List.length_append, List.length_drop, List.length_replicate]
  omega

theorem memcpy_zeros (name : List Nat) (n : Nat) :
    memcpy name (List.replicate n 0) = List.replicate n 0 ++ name.drop n := by
  simp [memcpy]

theorem memcpy_twice (dst src : List Nat) : memcpy (memcpy dst src) src = memcpy dst src := by
  simp [memcpy]

theorem nameStep_idem (cfg : Config) (p p1 : ble_peer_entry) (data : Nat → Nat) (len : Nat)
    (h : nameStep cfg p data len = some p1) : nameStep cfg p1 data len = some p1 := by
  unfold nameStep at h ⊢
  split at h
  · next off l heq =>
    split at h
    · next hl =>
      cases h
      simp only [hl, if_true]
      have hv : (readBytes data off l).length ≤ cfg.BLE_PEER_NAME_MAX := by
        simpa [readBytes] using hl
      rw [memcpy_zeros, memcpy_drop_name _ _ _ hv, ← memcpy_zeros]
    · cases h
  · next heq =>
    split at h
    · next h0 =>
      split at h
      · cases h
        have h60 : (memcpy p.ble_peer_name noneName).getD 0 0 ≠ 0 := by
          simp [memcpy, noneName]
        simp only [h60, if_false]
      · cases h
    · next hne =>
      cases h
      simp only [hne, if_false]

theorem gameStep_idem (cfg : Config) (p : ble_peer_entry) (data : Nat → Nat) (len : Nat) :
    gameStep cfg (gameStep cfg p data len) data len = gameStep cfg p data len := by
  cases hfind : cfg.bleGapAdvBlockFind data len
      cfg.BLE_GAP_AD_TYPE_MANUFACTURER_SPECIFIC_DATA with
  | none => simp only [gameStep, hfind]
  | some r =>
    obtain ⟨off, l⟩ := r
    by_cases hid : ble_ides_company_id data off = cfg.BLE_COMPANY_ID_IDES
    · simp only [gameStep, hfind, hid, if_true, memcpy_twice]
    · simp only [gameStep, hfind, hid, if_false]

theorem gameStep_acceptEntry (cfg : Config) (p : ble_peer_entry) (a : Addr) (rssi : Int)
    (data : Nat → Nat) (len : Nat) :
    gameStep cfg (acceptEntry cfg p a rssi) data len =
      acceptEntry cfg (gameStep cfg p data len) a rssi := by
  unfold gameStep
  split
  · split <;> rfl
  · rfl


/-- C32: admit is idempotent: for every table and every argument tuple
(address, payload, len, rssi), if `blePeerAdd` returns the table `t1` then
`blePeerAdd` with the same arguments on `t1` returns `t1` again, whether the
call was accepted, rejected by the filter or dropped for lack of room; the
call returns whenever the name step stays inside the name buffer. -/
theorem blePeerAdd_idempotent (cfg : Config) (tbl : List ble_peer_entry) (a : Addr)
    (data : Nat → Nat) (len : Nat) (rssi : Int) :
    (∀ t1, blePeerAdd cfg tbl a data len rssi = some t1 →
        blePeerAdd cfg t1 a data len rssi = some t1) ∧
      (nameInBounds cfg data len = true →
        ∃ t1, blePeerAdd cfg tbl a data len rssi = some t1) := by
  refine ⟨?_, blePeerAdd_isSome cfg tbl a data len rssi⟩
  intro t1 h
  rcases blePeerAdd_some cfg tbl t1 a data len rssi h with
    h1 | ⟨i, p, p1, hscan, hp, hp1, h2 | h2⟩
  · rw [h1]
    rw [h1] at h
    exact h
  · -- rejected call: the target keeps used and address, so the scan is the same
    obtain ⟨hrej, ht⟩ := h2
    obtain ⟨g1, g2, _, _, g5⟩ := gameStep_used cfg p1 data len
    obtain ⟨n1, n2, _, _, _, _⟩ := nameStep_used cfg p p1 data len hp1
    have hscan1 : scanLoop a t1 0 none = some i := by
      rw [ht, scanLoop_set_same a tbl i p _ 0 none hp (by rw [g1, n1]) (by rw [g2, n2])]
      exact hscan
    have hget : t1[i]? = some (gameStep cfg p1 data len) := by
      rw [ht]
      exact getElem?_set_same tbl i p _ hp
    have hname1 : nameStep cfg (gameStep cfg p1 data len) data len =
        some (gameStep cfg p1 data len) := by
      have := nameStep_of_name cfg p1 (gameStep cfg p1 data len) p1 data len
        (nameStep_idem cfg p p1 data len hp1) g5
      rw [this, ← g5]
    rw [blePeerAdd_eq cfg t1 a data len rssi i _ _ hscan1 hget hname1,
      gameStep_idem, if_pos hrej, set_unchanged t1 i _ hget]
  · -- accepted call: the target is the first slot holding the address afterwards
    obtain ⟨hpass, ht⟩ := h2
    obtain ⟨_, _, _, _, g5⟩ := gameStep_used cfg p1 data len
    have hscan1 : scanLoop a t1 0 none = some i := by
      rw [ht]
      exact scanLoop_after_accept a tbl i p _ hscan hp rfl
    have hget : t1[i]? = some (acceptEntry cfg (gameStep cfg p1 data len) a rssi) := by
      rw [ht]
      exact getElem?_set_same tbl i p _ hp
    have hname1 : nameStep cfg (acceptEntry cfg (gameStep cfg p1 data len) a rssi) data len =
        some (acceptEntry cfg (gameStep cfg p1 data len) a rssi) := by
      have := nameStep_of_name cfg p1 (acceptEntry cfg (gameStep cfg p1 data len) a rssi) p1
        data len (nameStep_idem cfg p p1 data len hp1) g5
      rw [this]
      have hn : p1.ble_peer_name =
          (acceptEntry cfg (gameStep cfg p1 data len) a rssi).ble_peer_name := g5.symm
      rw [hn]
    have hpass1 : filterRejects cfg
        (acceptEntry cfg (gameStep cfg p1 data len) a rssi) = false := hpass
    rw [blePeerAdd_eq cfg t1 a data len rssi i _ _ hscan1 hget hname1,
      gameStep_acceptEntry, gameStep_idem, hpass1]
    have hacc : acceptEntry cfg (acceptEntry cfg (gameStep cfg p1 data len) a rssi) a rssi =
        acceptEntry cfg (gameStep cfg p1 data len) a rssi := rfl
    simp only [Bool.false_eq_true, if_false, hacc]
    rw [set_unchanged t1 i _ hget]

/-- An instance of idempotence: the badge advertisement for `addrY` applied
twice to `agedTable4` gives the table of the first application. -/
theorem blePeerAdd_idempotent_witness :
    blePeerAdd cfg4 agedTable4 addrY (bytesAt badgeAdv) 6 (-50) =
        some [agedEntry, { sampleEntry 1 with ble_peer_addr := addrY, ble_rssi := -50 },
          zeroEntry cfg4, zeroEntry cfg4] ∧
      blePeerAdd cfg4 [agedEntry, { sampleEntry 1 with ble_peer_addr := addrY, ble_rssi := -50 },
          zeroEntry cfg4, zeroEntry cfg4] addrY (bytesAt badgeAdv) 6 (-50) =
        some [agedEntry, { sampleEntry 1 with ble_peer_addr := addrY, ble_rssi := -50 },
          zeroEntry cfg4, zeroEntry cfg4] :=
  ⟨by decide,
    (blePeerAdd_idempotent cfg4 agedTable4 addrY (bytesAt badgeAdv) 6 (-50)).1 _ (by decide)⟩


/-! ## The mutex -/

/-- C36: lock balance on every path: started with the mutex free, each of
`blePeerAdd` (on the early return for a full table, on the filter-reject jump
to `out` and on the accepting path), `blePeerFind` (hit or miss), `blePeerShow`
and one iteration of the decay loop returns with the mutex free after exactly
one lock and one unlock, with the table and result of the routine without the
mutex; no lock is taken while the mutex is held, since such a call would not
return (each routine started with the mutex held does not return);
`blePeerAdd` fails to return only where the name step leaves the name
buffer. -/
theorem lock_balance (cfg : Config) (gf : GameFields) (s : PeerState)
    (hfree : s.peer_mutex = false) :
    (∀ (a : Addr) (data : Nat → Nat) (len : Nat) (rssi : Int),
        blePeerAddLocked cfg s a data len rssi =
          (blePeerAdd cfg s.ble_peer_list a data len rssi).map (afterOnePair s)) ∧
      (∀ a : Addr, blePeerFindLocked s a =
        some ((blePeerFind s.ble_peer_list a).1,
          afterOnePair s (blePeerFind s.ble_peer_list a).2)) ∧
      blePeerShowLocked gf s =
        some ((blePeerShow gf s.ble_peer_list).1,
          afterOnePair s (blePeerShow gf s.ble_peer_list).2) ∧
      peerThreadLocked cfg s = some (afterOnePair s (peerThread cfg s.ble_peer_list)) ∧
      (∀ held : PeerState, held.peer_mutex = true →
        (∀ (a : Addr) (data : Nat → Nat) (len : Nat) (rssi : Int),
          blePeerAddLocked cfg held a data len rssi = none) ∧
        (∀ a : Addr, blePeerFindLocked held a = none) ∧
        blePeerShowLocked gf held = none ∧ peerThreadLocked cfg held = none) := by
  refine ⟨?_, ?_, ?_, ?_, ?_⟩
  · intro a data len rssi
    unfold blePeerAddLocked blePeerAdd
    simp only [osalMutexLock, hfree, Bool.false_eq_true, if_false]
    split
    · simp [osalMutexUnlock, afterOnePair]
    · split
      · simp [osalMutexUnlock, afterOnePair]
      · split
        · rfl
        · split
          · simp [osalMutexUnlock, afterOnePair]
          · simp [osalMutexUnlock, afterOnePair]
  · intro a
    simp [blePeerFindLocked, blePeerFind, osalMutexLock, osalMutexUnlock, hfree, afterOnePair]
  · simp [blePeerShowLocked, blePeerShow, osalMutexLock, osalMutexUnlock, hfree, afterOnePair]
  · simp [peerThreadLocked, peerThread, osalMutexLock, osalMutexUnlock, hfree, afterOnePair]
  · intro held hheld
    refine ⟨?_, ?_, ?_, ?_⟩
    · intro a data len rssi
      simp [blePeerAddLocked, osalMutexLock, hheld]
    · intro a
      simp [blePeerFindLocked, osalMutexLock, hheld]
    · simp [blePeerShowLocked, osalMutexLock, hheld]
    · simp [peerThreadLocked, osalMutexLock, hheld]

/-- An instance of the lock balance theorem: the four routines started on
`agedTable4` with the mutex free and no lock taken so far. -/
theorem lock_balance_witness :
    blePeerAddLocked cfg4 ⟨agedTable4, false, 0, 0⟩ addrY (bytesAt nameAdv) 4 (-40) =
        (blePeerAdd cfg4 agedTable4 addrY (bytesAt nameAdv) 4 (-40)).map
          (afterOnePair ⟨agedTable4, false, 0, 0⟩) ∧
      blePeerFindLocked ⟨agedTable4, false, 0, 0⟩ addrX =
        some (some 0, ⟨agedTable4, false, 1, 1⟩) ∧
      peerThreadLocked cfg4 ⟨agedTable4, false, 0, 0⟩ =
        some ⟨blePeerStart cfg4, false, 1, 1⟩ :=
  ⟨(lock_balance cfg4 gf4 ⟨agedTable4, false, 0, 0⟩ rfl).1 addrY (bytesAt nameAdv) 4 (-40),
    (lock_balance cfg4 gf4 ⟨agedTable4, false, 0, 0⟩ rfl).2.1 addrX,
    (lock_balance cfg4 gf4 ⟨agedTable4, false, 0, 0⟩ rfl).2.2.2.1⟩

/-! ## Name blocks longer than the name buffer

Line 107 copies the `l` bytes of the name block without comparing `l` with
`BLE_PEER_NAME_MAX`.  The tables below are reached from the start-up table of
`cfg4` by calls whose name block is longer than the 8 bytes of the name
buffer; each payload has at most 30 bytes. -/

/-- C4 (failing input): in `cfg4` the call of `blePeerAdd` for `addrX` with the
payload `usedNameAdv` (a name block of 15 bytes) on the start-up table is
rejected by the filter, but the bytes copied past the name buffer leave slot 0
with `ble_used` = 1 and `ble_ttl` = 200; after `BLE_PEER_LIST_TTL` = 3 ticks
with no admission this occupied slot is not zeroed: it is still occupied, with
`ble_ttl` = 197. -/
theorem long_name_slot_outlives_ttl_ticks :
    runRaw cfg4 [Op.add addrX (bytesAt usedNameAdv) 17 (-40)] (blePeerStart cfg4) =
        some [{ zeroEntry cfg4 with ble_peer_name := abName, ble_ttl := 200, ble_used := 1 },
              zeroEntry cfg4, zeroEntry cfg4, zeroEntry cfg4] ∧
      cfg4.BLE_PEER_LIST_TTL = 3 ∧
      ticks cfg4 cfg4.BLE_PEER_LIST_TTL
          [{ zeroEntry cfg4 with ble_peer_name := abName, ble_ttl := 200, ble_used := 1 },
            zeroEntry cfg4, zeroEntry cfg4, zeroEntry cfg4] =
        [{ zeroEntry cfg4 with ble_peer_name := abName, ble_ttl := 197, ble_used := 1 },
          zeroEntry cfg4, zeroEntry cfg4, zeroEntry cfg4] ∧
      ({ zeroEntry cfg4 with ble_peer_name := abName, ble_ttl := 197, ble_used := 1 } :
        ble_peer_entry) ≠ zeroEntry cfg4 := by
  refine ⟨?_, ?_, ?_, ?_⟩ <;> decide

/-- C8 (failing input): in `cfg4`, after the single call of `blePeerAdd` for
`addrX` with the payload `usedNameAdv` on the start-up table, no call has used
the all-zero address, yet `blePeerFind` returns slot 0 for it: the call was
rejected by the filter, so the address of slot 0 is still all-zero, and the
bytes copied past the name buffer set its `ble_used` to 1. -/
theorem zero_address_found_though_never_admitted :
    addrX ≠ zeroAddr ∧
      (runRaw cfg4 [Op.add addrX (bytesAt usedNameAdv) 17 (-40)] (blePeerStart cfg4)).map
          keyFields =
        some [(1, zeroAddr, 0, 200), (0, zeroAddr, 0, 0), (0, zeroAddr, 0, 0),
          (0, zeroAddr, 0, 0)] ∧
      (runRaw cfg4 [Op.add addrX (bytesAt usedNameAdv) 17 (-40)] (blePeerStart cfg4)).map
          (fun tbl => (blePeerFind tbl zeroAddr).1) = some (some 0) := by
  refine ⟨?_, ?_, ?_⟩ <;> decide

/-- C11 (failing input): in `cfg4` (`BLE_PEER_LIST_TTL` = 3) the table reached
from the start-up table by the call of `blePeerAdd` for `addrX` with the
payload `usedNameAdv` has in slot 0 an occupied record whose `ble_ttl` is 200,
above `BLE_PEER_LIST_TTL`: the fourteenth byte of the name block was copied
over `ble_ttl` and the fifteenth over `ble_used`. -/
theorem long_name_sets_ttl_above_limit :
    cfg4.bleGapAdvBlockFind (bytesAt usedNameAdv) 17
        cfg4.BLE_GAP_AD_TYPE_COMPLETE_LOCAL_NAME = some (2, 15) ∧
      (runRaw cfg4 [Op.add addrX (bytesAt usedNameAdv) 17 (-40)] (blePeerStart cfg4)).map
          (fun tbl => tbl.map (fun p => (p.ble_used, p.ble_ttl))) =
        some [(1, 200), (0, 0), (0, 0), (0, 0)] ∧
      cfg4.BLE_PEER_LIST_TTL < 200 := by
  refine ⟨?_, ?_, ?_⟩ <;> decide

/-- C25 (failing input): in `cfg4` the rejected call of `blePeerAdd` for
`addrY` with the payload `addrNameAdv` (a name block of 22 bytes) on the
start-up table leaves `staleAddrTable4`: no slot is occupied, and the
unoccupied slot 1 holds the address `addrX`, copied there from the name block.
In this table no occupied slot has the address `addrX` and the lowest
unoccupied slot is slot 0, but the scan of `blePeerAdd` for `addrX` selects
slot 1, and the accepted call with `badgeAdv` occupies slot 1 and leaves slot
0 unoccupied. -/
theorem stale_address_diverts_insert :
    runRaw cfg4 [Op.add addrY (bytesAt addrNameAdv) 24 (-40)] (blePeerStart cfg4) =
        some staleAddrTable4 ∧
      occupancy staleAddrTable4 = 0 ∧
      scanLoop addrX staleAddrTable4 0 none = some 1 ∧
      (blePeerAddRaw cfg4 staleAddrTable4 addrX (bytesAt badgeAdv) 6 (-50)).map keyFields =
        some [(0, zeroAddr, 0, 0), (1, addrX, -50, 3), (0, zeroAddr, 0, 0),
          (0, zeroAddr, 0, 0)] ∧
      blePeerAdd cfg4 staleAddrTable4 addrX (bytesAt badgeAdv) 6 (-50) =
        blePeerAddRaw cfg4 staleAddrTable4 addrX (bytesAt badgeAdv) 6 (-50) := by
  refine ⟨?_, ?_, ?_, ?_, ?_⟩ <;> decide

/-- C29 (failing input): in `cfg4` two calls of `blePeerAdd` from the start-up
table leave two occupied slots with the address `addrX`, which is not
all-zero.  The first, for `addrX` with `addrBadgeAdv`, is accepted into slot 0
and its name block of 22 bytes also writes the bytes of `addrX` over the
address of slot 1; the second, for `addrY` with `usedNameAdv`, selects the
unoccupied slot 1 and is rejected, but its name block of 15 bytes sets
`ble_used` of slot 1 to 1. -/
theorem long_names_duplicate_nonzero_address :
    addrX ≠ zeroAddr ∧
      (runRaw cfg4 [Op.add addrX (bytesAt addrBadgeAdv) 30 (-40),
          Op.add addrY (bytesAt usedNameAdv) 17 (-50)] (blePeerStart cfg4)).map keyFields =
        some [(1, addrX, -40, 3), (1, addrX, 0, 200), (0, zeroAddr, 0, 0),
          (0, zeroAddr, 0, 0)] ∧
      (runRaw cfg4 [Op.add addrX (bytesAt addrBadgeAdv) 30 (-40),
          Op.add addrY (bytesAt usedNameAdv) 17 (-50)] (blePeerStart cfg4)).map
          (occupiedWith addrX) = some 2 := by
  refine ⟨?_, ?_, ?_⟩ <;> decide

/-- C30 (failing input): in `cfg4` the call of `blePeerAdd` for `addrX` with
the payload `longNameAdv` (a name block of 9 bytes, one more than the name
buffer holds) on the start-up table returns; it is rejected by the filter, so
slot 0 stays unoccupied, and the ninth byte of the name block has been copied
over the first byte of `ble_game_state`: the unoccupied slot 0 has the game
state 49 00 00 00. -/
theorem long_name_changes_unoccupied_game_state :
    cfg4.bleGapAdvBlockFind (bytesAt longNameAdv) 11
        cfg4.BLE_GAP_AD_TYPE_COMPLETE_LOCAL_NAME = some (2, 9) ∧
      runRaw cfg4 [Op.add addrX (bytesAt longNameAdv) 11 (-40)] (blePeerStart cfg4) =
        some [{ zeroEntry cfg4 with ble_peer_name := abName, ble_game_state := [0x49, 0, 0, 0] },
              zeroEntry cfg4, zeroEntry cfg4, zeroEntry cfg4] ∧
      ({ zeroEntry cfg4 with ble_peer_name := abName, ble_game_state := [0x49, 0, 0, 0] } :
        ble_peer_entry).ble_used = 0 ∧
      [0x49, 0, 0, 0] ≠ List.replicate cfg4.sizeof_ble_ides_game_state_t 0 := by
  refine ⟨?_, ?_, ?_, ?_⟩ <;> decide

/-- C35 (failing input): in `cfg4` (filter enabled) the payload `flagNameAdv`
holds a name block of 16 bytes and no manufacturer block.  The call of
`blePeerAdd` for `addrX` on the start-up table copies the sixteenth byte, 1,
over `ble_isbadge` of the unoccupied slot 0, so the test of line 139 lets the
call pass: slot 0 is occupied with `addrX`, its `ble_isbadge` is TRUE and its
game state is all-zero, copied from no manufacturer block. -/
theorem long_name_inserts_without_manufacturer_block :
    cfg4.BLE_PEER_SCAN_ALL = false ∧
      cfg4.bleGapAdvBlockFind (bytesAt flagNameAdv) 18
        cfg4.BLE_GAP_AD_TYPE_MANUFACTURER_SPECIFIC_DATA = none ∧
      (blePeerStart cfg4).map (fun p => p.ble_used) = [0, 0, 0, 0] ∧
      blePeerAddRaw cfg4 (blePeerStart cfg4) addrX (bytesAt flagNameAdv) 18 (-40) =
        some [{ ble_peer_addr := addrX, ble_peer_name := abName, ble_game_state := [0, 0, 0, 0],
                ble_rssi := -40, ble_ttl := 3, ble_used := 1, ble_isbadge := TRUE },
              zeroEntry cfg4, zeroEntry cfg4, zeroEntry cfg4] := by
  refine ⟨?_, ?_, ?_, ?_⟩ <;> decide

end BlePeer
